import Mathlib

/-!
Verification of tree_suite: the layout-agnostic tree access layer and its
algorithms. A shallow embedding of `tree_manager.h`, `tree_manager.c`,
`diff_trees.c`, `performance_test.c` and `print_tree.c`.

* Memory is byte addressed (`Mem`), an `unsigned long` or a pointer is eight
  bytes, little endian (`read64`, `write64`); `NULL` is address `0`. Addresses
  are natural numbers: pointer arithmetic inside an allocated block does not
  wrap.
* A descriptor (`tree_info`) carries the sizes and offsets obtained from a
  module; the accessor macros of `tree_manager.h` are functions of the memory,
  the descriptor and a pointer.
* A typed `unsigned long` array is the function from its indices to its
  entries; the values of `random()` are given as the sequence of its results.
* Loops that need not terminate on arbitrary memory contents take a fuel
  argument and return `none` when it runs out.
* A write behind the end of a fixed array is undefined behaviour in C: where
  the source does not exclude it, the model ends the call with an outcome of
  its own that names the index. The same holds for the use of the value of a
  call that ended without a `return` statement.
* The dynamic linker is a record of what `dlopen` and `dlsym` return
  (`dl_env`); a module under test is the record of its operations
  (`tree_operations`), each as the function it computes, and a test leaves the
  sequence of the calls it made.
-/

namespace TreeSuite

/-! ## Memory -/

/-- Byte addressed memory: the byte stored at every address (read modulo 256). -/
abbrev Mem := Nat → Nat

/-- Load of an eight byte little endian word (`*(unsigned long *) a`, `*(void **) a`). -/
def read64 (m : Mem) (a : Nat) : Nat :=
  m a % 256 + (m (a + 1) % 256) * 256 + (m (a + 2) % 256) * 65536
    + (m (a + 3) % 256) * 16777216 + (m (a + 4) % 256) * 4294967296
    + (m (a + 5) % 256) * 1099511627776 + (m (a + 6) % 256) * 281474976710656
    + (m (a + 7) % 256) * 72057594037927936

/-- Store of an eight byte little endian word; the value is truncated to 64 bits. -/
def write64 (m : Mem) (a v : Nat) : Mem := fun x =>
  if x = a then v % 256
  else if x = a + 1 then v / 256 % 256
  else if x = a + 2 then v / 65536 % 256
  else if x = a + 3 then v / 16777216 % 256
  else if x = a + 4 then v / 4294967296 % 256
  else if x = a + 5 then v / 1099511627776 % 256
  else if x = a + 6 then v / 281474976710656 % 256
  else if x = a + 7 then v / 72057594037927936 % 256
  else m x

/-! ## tree_manager.h: descriptor and accessor macros -/

/-- The `struct tree_info` of `tree_manager.h` (the `ops` pointer is not part of
the layout data and is left out). -/
structure tree_info where
  root_size : Nat
  element_size : Nat
  root_node_offset : Nat
  left_child_offset : Nat
  right_child_offset : Nat
  node_offset_in_element : Nat
  key_offset_in_element : Nat
deriving DecidableEq

/-- The `struct tree_memory` of `tree_manager.h`. -/
structure tree_memory where
  addr : Nat
  root : Nat
  array : Nat
deriving DecidableEq

/-- Macro `tree_root_get_node(tree, root)`. -/
def tree_root_get_node (m : Mem) (tree : tree_info) (root : Nat) : Nat :=
  read64 m (root + tree.root_node_offset)

/-- Macro `tree_node_get_left(tree, ptr)`. -/
def tree_node_get_left (m : Mem) (tree : tree_info) (ptr : Nat) : Nat :=
  read64 m (ptr + tree.left_child_offset)

/-- Macro `tree_node_get_right(tree, ptr)`. -/
def tree_node_get_right (m : Mem) (tree : tree_info) (ptr : Nat) : Nat :=
  read64 m (ptr + tree.right_child_offset)

/-- Macro `tree_node_get_key(tree, ptr)`: `ptr` refers to the node. -/
def tree_node_get_key (m : Mem) (tree : tree_info) (ptr : Nat) : Nat :=
  read64 m (ptr - tree.node_offset_in_element + tree.key_offset_in_element)

/-- Macro `tree_element_get_key(tree, ptr)`: `ptr` refers to the element. -/
def tree_element_get_key (m : Mem) (tree : tree_info) (ptr : Nat) : Nat :=
  read64 m (ptr + tree.key_offset_in_element)

/-- Macro `tree_element_set_key(tree, ptr, key)`: `ptr` refers to the element. -/
def tree_element_set_key (m : Mem) (tree : tree_info) (ptr key : Nat) : Mem :=
  write64 m (ptr + tree.key_offset_in_element) key

/-! ## diff_trees.c: tree_is_identical -/

/-- Maximum size of the node stacks used in `tree_is_identical`. -/
def STACK_SIZE : Nat := 1024

/-- What one call of `tree_is_identical` produces: the returned `int`, the two
keys passed to the `keys differ` diagnostic (when it is printed) and the
`max_idx`, `n_checked` pair passed to the two closing diagnostics (when they
are printed). -/
structure diff_output where
  ret : Int
  keys_differ : Option (Nat × Nat)
  stats : Option (Nat × Nat)
deriving DecidableEq

/-- The local variables of `tree_is_identical` that live across iterations. -/
structure diff_state where
  stack_a : Nat → Nat
  stack_b : Nat → Nat
  idx : Nat
  max_idx : Nat
  n_checked : Nat

/-- Outcome of a piece of the loop body: a `return`, or falling through. -/
inductive diff_step where
  | ret (r : diff_output)
  | next (s : diff_state)

/-- The block `if (x && y) { push both; if (idx == STACK_SIZE) return -1; }
else if (x || y) return 0;` which the loop body runs for the left children
(lines 103-111) and then for the right children (lines 113-121). -/
def push_pair (size : Nat) (child_a child_b : Nat) (s : diff_state) : diff_step :=
  if child_a ≠ 0 ∧ child_b ≠ 0 then
    let stack_a := Function.update s.stack_a s.idx child_a
    let stack_b := Function.update s.stack_b s.idx child_b
    let idx := s.idx + 1
    if idx = size then diff_step.ret ⟨-1, none, none⟩
    else diff_step.next ⟨stack_a, stack_b, idx, s.max_idx, s.n_checked⟩
  else if child_a ≠ 0 ∨ child_b ≠ 0 then diff_step.ret ⟨0, none, none⟩
  else diff_step.next s

/-- One iteration of `while (idx)` (lines 76-121), entered with `idx ≠ 0`. -/
def loop_body (size : Nat) (m : Mem) (a b : tree_info) (s : diff_state) : diff_step :=
  let n_checked := (s.n_checked + 1) % 2 ^ 64
  let max_idx := if s.idx > s.max_idx then s.idx else s.max_idx
  let node_a := s.stack_a (s.idx - 1)
  let node_b := s.stack_b (s.idx - 1)
  if tree_node_get_key m a node_a ≠ tree_node_get_key m b node_b then
    diff_step.ret ⟨0, some (tree_node_get_key m a node_a, tree_node_get_key m b node_b), none⟩
  else
    match push_pair size (tree_node_get_left m a node_a) (tree_node_get_left m b node_b)
        ⟨s.stack_a, s.stack_b, s.idx - 1, max_idx, n_checked⟩ with
    | diff_step.ret r => diff_step.ret r
    | diff_step.next s1 =>
      push_pair size (tree_node_get_right m a node_a) (tree_node_get_right m b node_b) s1

/-- The loop `while (idx) { ... }` followed by the closing diagnostics and
`return 1`; `none` when the fuel does not suffice. -/
def diff_loop (size : Nat) (m : Mem) (a b : tree_info) : Nat → diff_state → Option diff_output
  | 0, _ => none
  | fuel + 1, s =>
    if s.idx = 0 then some ⟨1, none, some (s.max_idx, s.n_checked)⟩
    else
      match loop_body size m a b s with
      | diff_step.ret r => some r
      | diff_step.next s1 => diff_loop size m a b fuel s1

/-- The function `tree_is_identical` with the stack size as a parameter. The
stacks are uninitialised in the source; no entry is read before it is
written, and the model starts them at zero. -/
def tree_is_identical_sized (size fuel : Nat) (m : Mem) (a : tree_info) (root_ptr_a : Nat)
    (b : tree_info) (root_ptr_b : Nat) : Option diff_output :=
  let root_a := tree_root_get_node m a root_ptr_a
  let root_b := tree_root_get_node m b root_ptr_b
  if root_a = 0 ∧ root_b = 0 then some ⟨1, none, none⟩
  else if root_a = 0 ∨ root_b = 0 then some ⟨0, none, none⟩
  else
    diff_loop size m a b fuel
      ⟨Function.update (fun _ => 0) 0 root_a, Function.update (fun _ => 0) 0 root_b, 1, 0, 0⟩

/-- The function `tree_is_identical` of `diff_trees.c`. -/
def tree_is_identical (fuel : Nat) (m : Mem) (a : tree_info) (root_ptr_a : Nat)
    (b : tree_info) (root_ptr_b : Nat) : Option diff_output :=
  tree_is_identical_sized STACK_SIZE fuel m a root_ptr_a b root_ptr_b

/-! ## Finite binary trees and their representation in memory -/

/-- A finite binary tree of `unsigned long` keys. -/
inductive Tree where
  | nil
  | node (l : Tree) (key : Nat) (r : Tree)
deriving DecidableEq

namespace Tree

/-- Number of nodes. -/
def size : Tree → Nat
  | nil => 0
  | node l _ r => size l + 1 + size r

/-- Number of levels (an empty tree has none). -/
def height : Tree → Nat
  | nil => 0
  | node l _ r => max (height l) (height r) + 1

/-- Number of positions at which both trees have a node when the descent stops
wherever one side has no node: the corresponding node pairs. -/
def paired : Tree → Tree → Nat
  | node la _ ra, node lb _ rb => paired la lb + 1 + paired ra rb
  | _, _ => 0

end Tree

/-- The pointer `p`, read through the descriptor `info`, is the root of the
finite tree `t`: `NULL` for the empty tree, otherwise a node (inside an element
that starts at `p - node_offset_in_element`) whose key and children are those
of `t`. -/
def IsTree (m : Mem) (info : tree_info) : Nat → Tree → Prop
  | p, Tree.nil => p = 0
  | p, Tree.node l k r =>
    p ≠ 0 ∧ info.node_offset_in_element ≤ p ∧ tree_node_get_key m info p = k ∧
      IsTree m info (tree_node_get_left m info p) l ∧
      IsTree m info (tree_node_get_right m info p) r

instance IsTree.decide (m : Mem) (info : tree_info) : ∀ (p : Nat) (t : Tree),
    Decidable (IsTree m info p t)
  | p, Tree.nil => inferInstanceAs (Decidable (p = 0))
  | p, Tree.node l k r =>
    have := IsTree.decide m info (tree_node_get_left m info p) l
    have := IsTree.decide m info (tree_node_get_right m info p) r
    inferInstanceAs (Decidable (p ≠ 0 ∧ info.node_offset_in_element ≤ p ∧
      tree_node_get_key m info p = k ∧
      IsTree m info (tree_node_get_left m info p) l ∧
      IsTree m info (tree_node_get_right m info p) r))

/-! ## The comparison in direct style -/

namespace Tree
/-- `1` for a node, `0` for the empty tree: the stack slots a root occupies. -/
def occ : Tree → Nat
  | nil => 0
  | node _ _ _ => 1
end Tree

/-- Observations accumulated while the comparison walks a pair of subtrees. -/
structure walk where
  stop : Option diff_output
  max_idx : Nat
  n_checked : Nat
  peak : Nat
deriving DecidableEq

/-- The push block of the loop body on abstract children: the `return` it
takes (if any), the index after it and the largest index reached so far. -/
def apush (size : Nat) : Tree → Tree → Nat → Nat → Option diff_output × Nat × Nat
  | Tree.node _ _ _, Tree.node _ _ _, idx, pk =>
    (if idx + 1 = size then some ⟨-1, none, none⟩ else none, idx + 1, max pk (idx + 1))
  | Tree.nil, Tree.nil, idx, pk => (none, idx, pk)
  | _, _, idx, pk => (some ⟨0, none, none⟩, idx, pk)

/-- The iterations of the loop that handle the pair of subtrees whose roots sit
at stack index `d`, in direct style: the node itself, then everything below the
right children, then everything below the left children. -/
def visit (size : Nat) : Tree → Tree → Nat → Nat → Nat → Nat → walk
  | Tree.node la ka ra, Tree.node lb kb rb, d, mx, nc, pk =>
    let nc1 := (nc + 1) % 2 ^ 64
    let mx1 := if d + 1 > mx then d + 1 else mx
    if ka ≠ kb then ⟨some ⟨0, some (ka, kb), none⟩, mx1, nc1, pk⟩
    else
      match apush size la lb d pk with
      | (some r, _, pk1) => ⟨some r, mx1, nc1, pk1⟩
      | (none, i1, pk1) =>
        match apush size ra rb i1 pk1 with
        | (some r, _, pk2) => ⟨some r, mx1, nc1, pk2⟩
        | (none, _, pk2) =>
          let w := visit size ra rb i1 mx1 nc1 pk2
          match w.stop with
          | some _ => w
          | none => visit size la lb d w.max_idx w.n_checked w.peak
  | _, _, _, mx, nc, pk => ⟨none, mx, nc, pk⟩

/-- What the loop does from a state whose top of stack is the pair of roots of
`ta` and `tb` (or from any state, when both are empty): it runs the iterations
described by `visit`. -/
def Simulates (size : Nat) (m : Mem) (a b : tree_info) (s : diff_state) (d k : Nat)
    (w : walk) : Prop :=
  match w.stop with
  | some r => ∀ fuel, diff_loop size m a b (fuel + k) s = some r
  | none => ∃ s1, (∀ fuel, diff_loop size m a b (fuel + k) s = diff_loop size m a b fuel s1) ∧
      s1.idx = d ∧ s1.max_idx = w.max_idx ∧ s1.n_checked = w.n_checked ∧
      ∀ i, i < d → s1.stack_a i = s.stack_a i ∧ s1.stack_b i = s.stack_b i

namespace Tree
/-- Number of levels of the part the two trees have in common. -/
def cheight : Tree → Tree → Nat
  | node la _ ra, node lb _ rb => max (cheight la lb) (cheight ra rb) + 1
  | _, _ => 0
end Tree

/-- The recursive structural-equality predicate: same shape and equal keys at
every corresponding position. -/
def same_tree : Tree → Tree → Bool
  | Tree.nil, Tree.nil => true
  | Tree.node la ka ra, Tree.node lb kb rb => ka == kb && same_tree la lb && same_tree ra rb
  | _, _ => false

/-- What `tree_is_identical` computes on a pair of finite trees, in direct
style: the two early returns, then the walk from the pair of roots at stack
index `0` (with `max_idx = n_checked = 0` and one pair on the stack). -/
def compare_trees (size : Nat) : Tree → Tree → diff_output
  | Tree.nil, Tree.nil => ⟨1, none, none⟩
  | Tree.node la ka ra, Tree.node lb kb rb =>
    let w := visit size (Tree.node la ka ra) (Tree.node lb kb rb) 0 0 0 1
    match w.stop with
    | some r => r
    | none => ⟨1, none, some (w.max_idx, w.n_checked)⟩
  | _, _ => ⟨0, none, none⟩

/-- The largest number of pairs the two stacks hold at any moment when the
comparison runs without a capacity check (`size = 0` never equals an index
after a push). -/
def stack_need : Tree → Tree → Nat
  | Tree.node la ka ra, Tree.node lb kb rb =>
    (visit 0 (Tree.node la ka ra) (Tree.node lb kb rb) 0 0 0 1).peak
  | _, _ => 0

/-- One step of a path from the root to a node position. -/
inductive Dir where
  | left
  | right
deriving DecidableEq

namespace Tree

/-- The key stored at the node position reached by a path, if there is a node. -/
def key_at : Tree → List Dir → Option Nat
  | nil, _ => none
  | node _ k _, [] => some k
  | node l _ _, Dir.left :: p => key_at l p
  | node _ _ r, Dir.right :: p => key_at r p

/-- The tree with the key at one node position replaced. -/
def set_key : Tree → List Dir → Nat → Tree
  | nil, _, _ => nil
  | node l _ r, [], v => node l v r
  | node l k r, Dir.left :: p, v => node (set_key l p v) k r
  | node l k r, Dir.right :: p, v => node l k (set_key r p v)

end Tree

/-- The memory whose aligned eight byte word number `k` (at address `8 * k`)
holds `w k`. -/
def mem_of_words (w : Nat → Nat) : Mem := fun x => w (x / 8) / 256 ^ (x % 8) % 256

/-- A descriptor in the style of a module whose element starts with its node:
children at node offsets 0 and 8, key at element offset 16, 32 byte elements. -/
def info_front : tree_info := ⟨8, 32, 0, 0, 8, 0, 16⟩

/-- A descriptor of a module whose element starts with the key, followed by
the node: right child at node offset 8, left child at node offset 16, 40 byte
elements, and the first node pointer at root offset 8. -/
def info_back : tree_info := ⟨16, 40, 8, 16, 8, 8, 0⟩

/-- Sample memory, as words. Three trees with three nodes each:
* root record at address 8 (`info_front`), elements at 32, 64, 96: keys 5, 3, 8;
* root record at address 128 (`info_back`), elements at 160, 200, 240: keys 5, 3, 8;
* root record at address 288 (`info_front`), elements at 320, 352, 384: keys 5, 3, 9;
and the root record of an empty tree at address 416. -/
def sample_words : List Nat :=
  [0, 32, 0, 0,
   64, 96, 5, 0,   0, 0, 3, 0,   0, 0, 8, 0,
   0, 168, 0, 0,
   5, 0, 248, 208, 0,   3, 0, 0, 0, 0,   8, 0, 0, 0, 0,
   0, 320, 0, 0, 0,
   352, 384, 5, 0,   0, 0, 3, 0,   0, 0, 9, 0,
   0]

/-- Sample memory. -/
def sample_mem : Mem := mem_of_words (fun k => sample_words.getD k 0)

/-- The tree with keys 5 (root), 3 (left) and 8 (right). -/
def sample_tree : Tree :=
  Tree.node (Tree.node Tree.nil 3 Tree.nil) 5 (Tree.node Tree.nil 8 Tree.nil)

/-- A right-leaning comb: a spine of `n + 1` nodes linked by right children,
every spine node but the last with one leaf as its left child. The spine node
numbered `e` has key `kf e`, its leaf is numbered `e + 1` and the next spine
node `e + 2`. -/
def comb (kf : Nat → Nat) : Nat → Nat → Tree
  | 0, e => Tree.node Tree.nil (kf e) Tree.nil
  | n + 1, e => Tree.node (Tree.node Tree.nil (kf (e + 1)) Tree.nil) (kf e) (comb kf n (e + 2))

/-- Key of element `e` in region `r` of `deep_mem`: the element number, except
for element 1 of region 2. -/
def deep_key (r e : Nat) : Nat := if r = 2 ∧ e = 1 then 5000 else e

/-- Words of a memory that holds three combs of 2047 nodes (`info_front`
layout, 32 byte elements). Root records at addresses 8, 16 and 24; region `r`
(0, 1, 2) starts at address `65536 * (r + 1)` and its element `e ≤ 2046` at
`65536 * (r + 1) + 32 * e`. Even elements below 2046 are spine nodes with left
child `e + 1` and right child `e + 2`; the other elements have no children. -/
def deep_word (k : Nat) : Nat :=
  if k = 1 then 65536
  else if k = 2 then 131072
  else if k = 3 then 196608
  else if 8192 ≤ k ∧ k < 32768 then
    if 2046 < k % 8192 / 4 then 0
    else if k % 4 = 2 then deep_key (k / 8192 - 1) (k % 8192 / 4)
    else if k % 8192 / 4 % 2 = 1 ∨ k % 8192 / 4 = 2046 then 0
    else if k % 4 = 0 then 65536 * (k / 8192) + 32 * (k % 8192 / 4 + 1)
    else if k % 4 = 1 then 65536 * (k / 8192) + 32 * (k % 8192 / 4 + 2)
    else 0
  else 0

/-- Memory with three deep combs. -/
def deep_mem : Mem := mem_of_words deep_word

/-- The comb of 2047 nodes and 1024 levels held by region 0 of `deep_mem`. -/
def deep_tree : Tree := comb (deep_key 0) 1023 0

/-! ## performance_test.c and tree_manager.c: key arrays -/

/-- The function `fill_in_order` of `performance_test.c`:
`while (current--) array[current] = current;`. An `unsigned long` array is the
function from its indices to its entries. -/
def fill_in_order (array : Nat → Nat) : Nat → (Nat → Nat)
  | 0 => array
  | current + 1 => fill_in_order (Function.update array current current) current

/-- The loop of `randomize` in `performance_test.c`, from a value of `current`
on. `random calls` is the value returned by call number `calls` of `random()`
(a non-negative `long`). Besides the array the run records, for every
iteration in order, the pair `(current, random_idx)` of the two indices it
exchanges. -/
def randomize_loop (random : Nat → Nat) (elements : Nat) :
    Nat → Nat → (Nat → Nat) → (Nat → Nat) × List (Nat × Nat)
  | 0, _, array => (array, [])
  | current + 1, calls, array =>
    let random_idx := random calls % elements
    let tmp_value := array current
    let array1 := Function.update array current (array random_idx)
    let array2 := Function.update array1 random_idx tmp_value
    let rest := randomize_loop random elements current (calls + 1) array2
    (rest.1, (current, random_idx) :: rest.2)

/-- The function `randomize` of `performance_test.c`, with the record of its
exchanges. -/
def randomize_run (random : Nat → Nat) (array : Nat → Nat) (current : Nat) :
    (Nat → Nat) × List (Nat × Nat) :=
  randomize_loop random current current 0 array

/-- The function `randomize` of `performance_test.c`. -/
def randomize (random : Nat → Nat) (array : Nat → Nat) (current : Nat) : Nat → Nat :=
  (randomize_run random array current).1

/-- The function `prepare_random_key_array` of `performance_test.c`. -/
def prepare_random_key_array (random : Nat → Nat) (random_key_array : Nat → Nat)
    (size : Nat) : Nat → Nat :=
  randomize random (fill_in_order random_key_array size) size

/-- The function `tree_fill_in_order` of `tree_manager.c`. -/
def tree_fill_in_order (mem : Mem) (m : tree_memory) (i : tree_info) : Nat → Mem
  | 0 => mem
  | current + 1 =>
    let tmp := m.array + current * i.element_size + i.key_offset_in_element
    tree_fill_in_order (write64 mem tmp current) m i current

/-- The loop of `tree_randomize` in `tree_manager.c`, from a value of
`current` on, with the record of the exchanged element indices. -/
def tree_randomize_loop (random : Nat → Nat) (m : tree_memory) (i : tree_info)
    (elements : Nat) : Nat → Nat → Mem → Mem × List (Nat × Nat)
  | 0, _, mem => (mem, [])
  | current + 1, calls, mem =>
    let a := m.array + current * i.element_size + i.key_offset_in_element
    let random_idx := random calls % elements
    let b := m.array + random_idx * i.element_size + i.key_offset_in_element
    let tmp := read64 mem a
    let mem1 := write64 mem a (read64 mem b)
    let mem2 := write64 mem1 b tmp
    let rest := tree_randomize_loop random m i elements current (calls + 1) mem2
    (rest.1, (current, random_idx) :: rest.2)

/-- The function `tree_randomize` of `tree_manager.c`, with the record of its
exchanges. -/
def tree_randomize_run (random : Nat → Nat) (mem : Mem) (m : tree_memory) (i : tree_info)
    (current : Nat) : Mem × List (Nat × Nat) :=
  tree_randomize_loop random m i current current 0 mem

/-- The function `tree_randomize` of `tree_manager.c`. -/
def tree_randomize (random : Nat → Nat) (mem : Mem) (m : tree_memory) (i : tree_info)
    (current : Nat) : Mem :=
  (tree_randomize_run random mem m i current).1

/-- The key of element number `idx` of the element array, read the way
`tree_delete` reads it. -/
def element_key (mem : Mem) (m : tree_memory) (i : tree_info) (idx : Nat) : Nat :=
  tree_element_get_key mem i (m.array + idx * i.element_size)

/-- The function `tree_copy_keys` of `tree_manager.c`. -/
def tree_copy_keys (mem : Mem) (dst_mem : tree_memory) (dst_info : tree_info)
    (src_mem : tree_memory) (src_info : tree_info) : Nat → Mem
  | 0 => mem
  | current + 1 =>
    let dst := dst_mem.array + current * dst_info.element_size + dst_info.key_offset_in_element
    let src := src_mem.array + current * src_info.element_size + src_info.key_offset_in_element
    tree_copy_keys (write64 mem dst (read64 mem src)) dst_mem dst_info src_mem src_info current

/-- The function `tree_assign_keys` of `tree_manager.c`; `key_array` is a typed
`unsigned long` array. -/
def tree_assign_keys (mem : Mem) (m : tree_memory) (i : tree_info) (key_array : Nat → Nat) :
    Nat → Mem
  | 0 => mem
  | current + 1 =>
    let dst := m.array + current * i.element_size + i.key_offset_in_element
    tree_assign_keys (write64 mem dst (key_array current)) m i key_array current

/-- The `struct timespec` of `time.h`: `time_t tv_sec` and `long tv_nsec`, both
64 bit signed. -/
structure timespec where
  tv_sec : Int
  tv_nsec : Int
deriving DecidableEq

/-- The value of a `long` computation: signed overflow is undefined in C, the
model wraps in two's complement and the theorems state when no wrap occurs. -/
def wrap_long (x : Int) : Int := (x + 2 ^ 63) % 2 ^ 64 - 2 ^ 63

/-- The function `time_diff` of `performance_test.c`, returning `*diff`. -/
def time_diff (stop start : timespec) : timespec :=
  if stop.tv_nsec < start.tv_nsec then
    ⟨wrap_long (wrap_long (stop.tv_sec - start.tv_sec) - 1),
      wrap_long (wrap_long (stop.tv_nsec - start.tv_nsec) + 1000000000)⟩
  else
    ⟨wrap_long (stop.tv_sec - start.tv_sec), wrap_long (stop.tv_nsec - start.tv_nsec)⟩

/-- A sample as a number of nanoseconds. -/
def timespec.nanoseconds (t : timespec) : Int := t.tv_sec * 1000000000 + t.tv_nsec

/-! ## print_tree.c -/

/-- Size of the node stack of `print_tree`. -/
def MAX_STACK_SIZE : Nat := 64

/-- Number of rows of the character table. -/
def PRINT_HEIGHT : Nat := 8

/-- Number of columns of the character table. -/
def PRINT_WIDTH : Nat := 80

/-- Number of characters reserved for a key. -/
def PRINT_KEY_LEN : Nat := 2

/-- Local constant `array_height` of `print_tree`. -/
def array_height : Nat := PRINT_HEIGHT

/-- Local constant `array_width` of `print_tree`. -/
def array_width : Nat := PRINT_WIDTH

/-- Local constant `distance_between_nodes` of `print_tree`. -/
def distance_between_nodes : Nat := 0

/-- Local constant `balance_len` of `print_tree`. -/
def balance_len : Nat := 2

/-- Local constant `key_len` of `print_tree`. -/
def key_len : Nat := PRINT_KEY_LEN

/-- Local constant `array_size` of `print_tree`. -/
def array_size : Nat := array_height * array_width

/-- Local constant `node_string_len` of `print_tree`. -/
def node_string_len : Nat := balance_len + key_len

/-- The character `'\0'`. -/
def nul : Char := Char.ofNat 0

/-- The character `'\n'`. -/
def newline : Char := Char.ofNat 10

/-- The function `get_balance` of `print_tree.c`. `ops_get_balance` is the
module's `get_balance`; its result is an `unsigned int`, and the case labels
`-1` and `-2` of the `switch` are converted to that type. -/
def get_balance (ops_get_balance : Nat → Nat) (node : Nat) : List Char :=
  let v := ops_get_balance node % 2 ^ 32
  if v = 0 then [' ', ' ']
  else if v = 1 then ['+', ' ']
  else if v = 4294967295 then ['-', ' ']
  else if v = 2 then ['+', '+']
  else if v = 4294967294 then ['-', '-']
  else ['.', '.']

/-- Conversion `%0*ld` of `printf` with field width `width`, applied to an
`unsigned long` passed where a `long` is expected: sign, zeros up to the field
width, decimal digits. -/
def format_long (width : Nat) (v : Nat) : List Char :=
  let sign := if 2 ^ 63 ≤ v % 2 ^ 64 then ['-'] else []
  let digits := Nat.toDigits 10 (if 2 ^ 63 ≤ v % 2 ^ 64 then 2 ^ 64 - v % 2 ^ 64 else v % 2 ^ 64)
  sign ++ List.replicate (width - (sign.length + digits.length)) '0' ++ digits

/-- Conversion `%*s` of `printf` with field width `width`: the string, preceded
by spaces up to the field width. -/
def format_string (width : Nat) (s : List Char) : List Char :=
  List.replicate (width - s.length) ' ' ++ s

/-- The string that `snprintf(node_string, node_string_len + 1, "%0*ld%*s",
key_len, key, balance_len, balance)` leaves in `node_string`: at most
`node_string_len` characters of the formatted text. -/
def node_string (key : Nat) (balance : List Char) : List Char :=
  (format_long key_len key ++ format_string balance_len balance).take node_string_len

/-- Index of character `i` of the cell in row `current_height` at
`line_offset` (an `unsigned int` expression). -/
def cell_index (current_height line_offset i : Nat) : Nat :=
  (current_height * array_width + (line_offset + i)) % 2 ^ 32

/-- The loop `for (i = 0; i < node_string_len; i++) array[...] = node_string[i];`. -/
def write_node_string (array : Nat → Char) (current_height line_offset : Nat)
    (str : List Char) : Nat → Char :=
  (List.range node_string_len).foldl
    (fun arr i => Function.update arr (cell_index current_height line_offset i) (str.getD i nul))
    array

/-- A step that writes to the node stack: the new stack, height and node, or a
write to `stack[index]` with `index ≥ MAX_STACK_SIZE`, behind the end of the
array (undefined behaviour in C). -/
inductive stack_step where
  | ok (stack : Nat → Nat) (height : Nat) (node : Nat)
  | out_of_bounds (index : Nat)

/-- The loop `while (tree_node_get_left(t, node)) { stack[height++] = node;
node = tree_node_get_left(t, node); }`, which `print_tree` runs from the first
node and `next_node` from a right child. -/
def push_left_spine (m : Mem) (t : tree_info) :
    Nat → (Nat → Nat) → Nat → Nat → Option stack_step
  | 0, _, _, _ => none
  | fuel + 1, stack, height, node =>
    if tree_node_get_left m t node ≠ 0 then
      if MAX_STACK_SIZE ≤ height then some (stack_step.out_of_bounds height)
      else
        push_left_spine m t fuel (Function.update stack height node) (height + 1)
          (tree_node_get_left m t node)
    else some (stack_step.ok stack height node)

/-- The `else` branch of `next_node`: `if (*height == 0) return NULL;
next = stack[--*height];` and then, as long as `node == right(next)`, the same
again with `next` as `node`. The result is `next` (`0` for `NULL`) and the
height. -/
def next_parent (m : Mem) (t : tree_info) (stack : Nat → Nat) : Nat → Nat → Nat × Nat
  | 0, _ => (0, 0)
  | height + 1, node =>
    if node = tree_node_get_right m t (stack height) then
      next_parent m t stack height (stack height)
    else (stack height, height)

/-- The function `next_node` of `print_tree.c`: the next node (`0` for `NULL`)
with the updated stack and height. -/
def next_node (m : Mem) (t : tree_info) (fuel : Nat) (node : Nat) (stack : Nat → Nat)
    (height : Nat) : Option stack_step :=
  if tree_node_get_right m t node ≠ 0 then
    if MAX_STACK_SIZE ≤ height then some (stack_step.out_of_bounds height)
    else
      push_left_spine m t fuel (Function.update stack height node) (height + 1)
        (tree_node_get_right m t node)
  else
    some (stack_step.ok stack (next_parent m t stack height node).2
      (next_parent m t stack height node).1)

/-- How a call of `print_tree` ends: it returns, or it writes behind the end
of the node stack. -/
inductive print_outcome where
  | ret (code : Int)
  | stack_out_of_bounds (index : Nat)
deriving DecidableEq

/-- What a call of `print_tree` produces: how it ends, the text printed (if
any) and the cells written, in order, each as node, row (`current_height`) and
`line_offset`. -/
structure print_result where
  outcome : print_outcome
  printed : Option (List Char)
  visited : List (Nat × Nat × Nat)
deriving DecidableEq

/-- The local variables of `print_tree` that live across iterations, with the
record of the cells written. -/
structure print_state where
  array : Nat → Char
  stack : Nat → Nat
  current_height : Nat
  current_node : Nat
  current : Nat
  visited : List (Nat × Nat × Nat)

/-- The part `format and print` of `print_tree`: the line breaks, the final
`'\0'` and the text that `printf("%s\n", array)` prints. -/
def format_and_print (array : Nat → Char) : List Char :=
  let array1 := (List.range array_height).foldl
    (fun arr i => Function.update arr (i * array_width + (array_width - 1)) newline) array
  let array2 := Function.update array1 (array_size - 1) nul
  ((List.range array_size).map array2).takeWhile (fun c => c ≠ nul) ++ [newline]

/-- The loop `for (;;)` of `print_tree` followed by `format and print`. -/
def print_loop (m : Mem) (t : tree_info) (ops_get_balance : Nat → Nat) :
    Nat → print_state → Option print_result
  | 0, _ => none
  | fuel + 1, s =>
    let line_offset := (s.current_node * (node_string_len + distance_between_nodes)) % 2 ^ 32
    if s.current_height > array_height - 1 ∨
        (line_offset + node_string_len + 1) % 2 ^ 32 > array_width - 1 then
      some ⟨print_outcome.ret (-1), none, s.visited⟩
    else
      let str := node_string (tree_node_get_key m t s.current)
        (get_balance ops_get_balance s.current)
      let array := write_node_string s.array s.current_height line_offset str
      let visited := s.visited ++ [(s.current, s.current_height, line_offset)]
      match next_node m t fuel s.current s.stack s.current_height with
      | none => none
      | some (stack_step.out_of_bounds index) =>
        some ⟨print_outcome.stack_out_of_bounds index, none, visited⟩
      | some (stack_step.ok stack height next) =>
        if next = 0 then
          some ⟨print_outcome.ret 0, some (format_and_print array), visited⟩
        else
          print_loop m t ops_get_balance fuel
            ⟨array, stack, height, (s.current_node + 1) % 2 ^ 32, next, visited⟩

/-- The function `print_tree` of `print_tree.c`. The stack is uninitialised in
the source; no entry is read before it is written, and the model starts it at
zero. -/
def print_tree (fuel : Nat) (m : Mem) (t : tree_info) (ops_get_balance : Nat → Nat)
    (root : Nat) : Option print_result :=
  let current := tree_root_get_node m t root
  if current = 0 then some ⟨print_outcome.ret (-1), none, []⟩
  else
    match push_left_spine m t fuel (fun _ => 0) 0 current with
    | none => none
    | some (stack_step.out_of_bounds index) =>
      some ⟨print_outcome.stack_out_of_bounds index, none, []⟩
    | some (stack_step.ok stack height first) =>
      print_loop m t ops_get_balance fuel ⟨fun _ => ' ', stack, height, 0, first, []⟩

/-! ## Trees of node addresses and the traversal in direct style -/

/-- The pointer `p`, read through the descriptor `info`, is the root of a
finite tree whose nodes are at the addresses given by the keys of `t`. -/
def AddrTree (m : Mem) (info : tree_info) : Nat → Tree → Prop
  | p, Tree.nil => p = 0
  | p, Tree.node l a r =>
    p = a ∧ a ≠ 0 ∧ AddrTree m info (tree_node_get_left m info a) l ∧
      AddrTree m info (tree_node_get_right m info a) r

instance AddrTree.decide (m : Mem) (info : tree_info) : ∀ (p : Nat) (t : Tree),
    Decidable (AddrTree m info p t)
  | p, Tree.nil => inferInstanceAs (Decidable (p = 0))
  | p, Tree.node l a r =>
    have := AddrTree.decide m info (tree_node_get_left m info a) l
    have := AddrTree.decide m info (tree_node_get_right m info a) r
    inferInstanceAs (Decidable (p = a ∧ a ≠ 0 ∧
      AddrTree m info (tree_node_get_left m info a) l ∧
      AddrTree m info (tree_node_get_right m info a) r))

namespace Tree

/-- The keys in in-order sequence. -/
def inorder : Tree → List Nat
  | nil => []
  | node l k r => inorder l ++ k :: inorder r

/-- The key of the root (`0` for the empty tree). -/
def root_key : Tree → Nat
  | nil => 0
  | node _ k _ => k

/-- Number of left steps from the root to the leftmost node. -/
def left_depth : Tree → Nat
  | node (node ll lk lr) _ _ => left_depth (node ll lk lr) + 1
  | _ => 0

/-- The key of the leftmost node (`0` for the empty tree). -/
def leftmost : Tree → Nat
  | nil => 0
  | node nil k _ => k
  | node (node ll lk lr) _ _ => leftmost (node ll lk lr)

/-- The keys on the way from the root down to the leftmost node, the latter
left out. -/
def spine : Tree → List Nat
  | node (node ll lk lr) k _ => k :: spine (node ll lk lr)
  | _ => []

end Tree

/-- The value of `line_offset` for a value of `current_node`. -/
def line_offset_of (current_node : Nat) : Nat :=
  (current_node * (node_string_len + distance_between_nodes)) % 2 ^ 32

/-- The character table after the cells of a record were written into it. -/
def paint (m : Mem) (t : tree_info) (ops_get_balance : Nat → Nat)
    (cells : List (Nat × Nat × Nat)) (array : Nat → Char) : Nat → Char :=
  cells.foldl (fun arr e => write_node_string arr e.2.1 e.2.2
    (node_string (tree_node_get_key m t e.1) (get_balance ops_get_balance e.1))) array

/-- Result of the traversal in direct style: the bounds check failed, a stack
write was out of bounds, or every node was written. -/
inductive walk_result where
  | fail (visited : List (Nat × Nat × Nat))
  | overflow (index : Nat) (visited : List (Nat × Nat × Nat))
  | done (current_node : Nat) (visited : List (Nat × Nat × Nat))
deriving DecidableEq

/-- The iterations of the loop of `print_tree` for the nodes of a subtree whose
root is at depth `d`, in direct style; `c` is the value of `current_node` for
the first of them, and the result carries the value for the node after the
last. -/
def render_walk : Tree → Nat → Nat → List (Nat × Nat × Nat) → walk_result
  | Tree.nil, _, c, log => walk_result.done c log
  | Tree.node l a r, d, c, log =>
    match render_walk l (d + 1) c log with
    | walk_result.done c1 log1 =>
      if d > array_height - 1 ∨
          (line_offset_of c1 + node_string_len + 1) % 2 ^ 32 > array_width - 1 then
        walk_result.fail log1
      else if r ≠ Tree.nil ∧ MAX_STACK_SIZE < d + 1 + r.left_depth then
        walk_result.overflow MAX_STACK_SIZE (log1 ++ [(a, d, line_offset_of c1)])
      else
        render_walk r (d + 1) ((c1 + 1) % 2 ^ 32) (log1 ++ [(a, d, line_offset_of c1)])
    | other => other

/-- What `print_tree` computes on a finite tree of node addresses, in direct
style. -/
def render (m : Mem) (t : tree_info) (ops_get_balance : Nat → Nat) (tree : Tree) :
    print_result :=
  if tree = Tree.nil then ⟨print_outcome.ret (-1), none, []⟩
  else if MAX_STACK_SIZE < tree.left_depth then
    ⟨print_outcome.stack_out_of_bounds MAX_STACK_SIZE, none, []⟩
  else
    match render_walk tree 0 0 [] with
    | walk_result.fail log => ⟨print_outcome.ret (-1), none, log⟩
    | walk_result.overflow index log => ⟨print_outcome.stack_out_of_bounds index, none, log⟩
    | walk_result.done _ log =>
      ⟨print_outcome.ret 0,
        some (format_and_print (paint m t ops_get_balance log (fun _ => ' '))), log⟩

/-- The step of `print_tree` after the last node of a subtree was written: the
`else` branch of `next_node` from the root of the subtree, then the end of the
loop or its next iteration. -/
def leave_subtree (m : Mem) (t : tree_info) (ops_get_balance : Nat → Nat) (fuel : Nat)
    (s : print_state) : Option print_result :=
  if (next_parent m t s.stack s.current_height s.current).1 = 0 then
    some ⟨print_outcome.ret 0, some (format_and_print s.array), s.visited⟩
  else
    print_loop m t ops_get_balance fuel
      ⟨s.array, s.stack, (next_parent m t s.stack s.current_height s.current).2,
        (s.current_node + 1) % 2 ^ 32, (next_parent m t s.stack s.current_height s.current).1,
        s.visited⟩

/-- The glyph for a balance factor, as a signed value. -/
def balance_glyph (balance : Int) : List Char :=
  if balance = 0 then [' ', ' ']
  else if balance = 1 then ['+', ' ']
  else if balance = -1 then ['-', ' ']
  else if balance = 2 then ['+', '+']
  else if balance = -2 then ['-', '-']
  else ['.', '.']

/-- The signed value of an `unsigned int`. -/
def signed_of_unsigned (v : Nat) : Int :=
  if v % 2 ^ 32 < 2 ^ 31 then (v % 2 ^ 32 : Nat) else (v % 2 ^ 32 : Nat) - 2 ^ 32

/-- A descriptor with the child offsets of `info_front` exchanged. -/
def info_mirror : tree_info := ⟨8, 32, 0, 8, 0, 0, 16⟩

/-- The sample tree of `info_front` at root address 8 as a tree of node
addresses. -/
def sample_addr_tree : Tree :=
  Tree.node (Tree.node Tree.nil 64 Tree.nil) 32 (Tree.node Tree.nil 96 Tree.nil)

/-- What the loop of `print_tree` does from a state whose current node is the
leftmost node of a subtree with root `root` at depth `d` and `n` nodes: it runs
the iterations described by `render_walk`. -/
def Renders (m : Mem) (t : tree_info) (ops_get_balance : Nat → Nat) (s : print_state)
    (d root n : Nat) (w : walk_result) : Prop :=
  match w with
  | walk_result.fail log =>
    ∀ fuel, print_loop m t ops_get_balance (fuel + n) s =
      some ⟨print_outcome.ret (-1), none, log⟩
  | walk_result.overflow index log =>
    ∀ fuel, print_loop m t ops_get_balance (fuel + n) s =
      some ⟨print_outcome.stack_out_of_bounds index, none, log⟩
  | walk_result.done c log =>
    ∃ stack1 cn, (cn + 1) % 2 ^ 32 = c ∧ (∀ i, i < d → stack1 i = s.stack i) ∧
      ∀ fuel, print_loop m t ops_get_balance (fuel + n) s =
        leave_subtree m t ops_get_balance fuel
          ⟨paint m t ops_get_balance log (fun _ => ' '), stack1, d, cn, root, log⟩

namespace Tree

/-- The cells of the nodes of a tree in in-order sequence: node, depth and four
times the in-order rank, for a root at depth `d` and a first rank `c`. -/
def cells : Tree → Nat → Nat → List (Nat × Nat × Nat)
  | nil, _, _ => []
  | node l k r, d, c =>
    cells l (d + 1) c ++ (k, d, 4 * (c + l.size)) :: cells r (d + 1) (c + l.size + 1)

end Tree

/-- A cell of the record lies inside the character table: its row is one of
the rows, its four columns are before the column of the line breaks, and the
index expression does not wrap. -/
def cell_in_table (e : Nat × Nat × Nat) : Prop :=
  ∀ i, i < node_string_len →
    cell_index e.2.1 e.2.2 i = e.2.1 * array_width + (e.2.2 + i) ∧
    cell_index e.2.1 e.2.2 i < array_size ∧
    e.2.1 < PRINT_HEIGHT ∧ e.2.2 + i < PRINT_WIDTH - 1

/-- A left-leaning comb of node addresses, as region 0 of `deep_mem` reads
through `info_mirror`: a spine of `n + 1` nodes linked by left children, at
the elements `e`, `e + 2`, ..., each except the last with a leaf as right
child, at the element after it. -/
def left_comb : Nat → Nat → Tree
  | 0, e => Tree.node Tree.nil (65536 + 32 * e) Tree.nil
  | n + 1, e =>
    Tree.node (left_comb n (e + 2)) (65536 + 32 * e)
      (Tree.node Tree.nil (65536 + 32 * (e + 1)) Tree.nil)

/-- The tree of 2047 node addresses and 1024 levels that region 0 of
`deep_mem` holds when read through `info_mirror`: its leftmost path has 1024
nodes. -/
def deep_left_tree : Tree := left_comb 1023 0

/-- The indices at which one iteration of the loop of `tree_is_identical`
accesses `stack_a` and `stack_b`, in order: the read of the top pair at
`idx - 1` (lines 82-83), the write of the left children at the decremented
`idx` (lines 104-105) and the write of the right children at the index after
the left block (lines 114-115), as far as the iteration gets. -/
def loop_body_indices (size : Nat) (m : Mem) (a b : tree_info) (s : diff_state) : List Nat :=
  let node_a := s.stack_a (s.idx - 1)
  let node_b := s.stack_b (s.idx - 1)
  [s.idx - 1] ++
    (if tree_node_get_key m a node_a ≠ tree_node_get_key m b node_b then []
    else
      (if tree_node_get_left m a node_a ≠ 0 ∧ tree_node_get_left m b node_b ≠ 0 then [s.idx - 1]
        else []) ++
      match push_pair size (tree_node_get_left m a node_a) (tree_node_get_left m b node_b)
          ⟨s.stack_a, s.stack_b, s.idx - 1, s.max_idx, s.n_checked⟩ with
      | diff_step.ret _ => []
      | diff_step.next s1 =>
        if tree_node_get_right m a node_a ≠ 0 ∧ tree_node_get_right m b node_b ≠ 0 then [s1.idx]
        else [])

/-- The stack indices accessed by the loop of `tree_is_identical` during its
first `fuel` iterations from a state. -/
def diff_loop_indices (size : Nat) (m : Mem) (a b : tree_info) : Nat → diff_state → List Nat
  | 0, _ => []
  | fuel + 1, s =>
    if s.idx = 0 then []
    else
      loop_body_indices size m a b s ++
        match loop_body size m a b s with
        | diff_step.ret _ => []
        | diff_step.next s1 => diff_loop_indices size m a b fuel s1

/-- The stack indices accessed by a call of `tree_is_identical` up to the end
of iteration number `fuel` of its loop: the push of the roots at index 0
(lines 72-73), then the accesses of the loop. -/
def tree_is_identical_indices (fuel : Nat) (m : Mem) (a : tree_info) (root_ptr_a : Nat)
    (b : tree_info) (root_ptr_b : Nat) : List Nat :=
  let root_a := tree_root_get_node m a root_ptr_a
  let root_b := tree_root_get_node m b root_ptr_b
  if root_a = 0 ∧ root_b = 0 then []
  else if root_a = 0 ∨ root_b = 0 then []
  else
    0 :: diff_loop_indices STACK_SIZE m a b fuel
      ⟨Function.update (fun _ => 0) 0 root_a, Function.update (fun _ => 0) 0 root_b, 1, 0, 0⟩

/-- The result of `tree_is_identical` with the roles of the two trees
exchanged: the same return value and counters, the two keys of the diagnostic
in the other order. -/
def diff_output.swap (r : diff_output) : diff_output :=
  ⟨r.ret, r.keys_differ.map Prod.swap, r.stats⟩

/-- The state of `tree_is_identical` with the two stacks exchanged. -/
def diff_state.swap (s : diff_state) : diff_state :=
  ⟨s.stack_b, s.stack_a, s.idx, s.max_idx, s.n_checked⟩

/-- A step of the loop body with the roles of the two trees exchanged. -/
def diff_step.swap : diff_step → diff_step
  | diff_step.ret r => diff_step.ret r.swap
  | diff_step.next s => diff_step.next s.swap

/-- A character that is neither the end of a C string nor a line break. -/
def printable (c : Char) : Prop := c ≠ nul ∧ c ≠ newline

instance printable.decide (c : Char) : Decidable (printable c) :=
  inferInstanceAs (Decidable (c ≠ nul ∧ c ≠ newline))

/-! ## tree_manager.c: loading a module -/

/-- The macro `EXPECTED_MAGIC_STRING` of `tree_library_load`, as the characters
before the terminating `'\0'`. -/
def EXPECTED_MAGIC_STRING : List Char := "binary_tree_module".toList

/-- The value of `sizeof(EXPECTED_MAGIC_STRING)`: the characters and the
terminating `'\0'`. -/
def sizeof_EXPECTED_MAGIC_STRING : Nat := EXPECTED_MAGIC_STRING.length + 1

/-- The function `strncmp` of `string.h` on two C strings, each given by its
characters before the terminating `'\0'`: at most `n` characters are compared,
the terminator included, and the sign of the result is that of the first
difference. -/
def strncmp : List Char → List Char → Nat → Int
  | _, _, 0 => 0
  | [], [], _ + 1 => 0
  | [], _ :: _, _ + 1 => -1
  | _ :: _, [], _ + 1 => 1
  | c1 :: s1, c2 :: s2, n + 1 =>
    if c1 = c2 then strncmp s1 s2 n else if c1.toNat < c2.toNat then -1 else 1

/-- The dynamic linker as the loader uses it: `dlopen` gives the handle of a
file (`0` for `NULL`), `dlsym` the address of a symbol of a handle (`0` for
`NULL` when the handle does not export the name), and `string_at` the C string
that the `char *` stored at an address points to. -/
structure dl_env where
  dlopen : String → Nat
  dlsym : Nat → String → Nat
  string_at : Nat → List Char

/-- The name of the marker symbol. -/
def magic_string_name : String := "magic_string"

/-- The names that `get_symbols` looks up, in its order: the members of
`struct tree_operations`. -/
def symbol_names : List String :=
  ["get_root_size", "get_node_size", "get_root_node_offset", "get_left_offset",
    "get_right_offset", "get_node_offset_in_element", "get_key_offset_in_element",
    "get_balance", "delete", "insert", "init"]

/-- The lookups of `get_symbols` from one of them on: each `__get_symbol`
stores the result of `dlsym` in its member of `ops` and returns -1 when it is
`NULL`. After the last one the function body ends without a `return`
statement: the result is the members stored and the value returned, if any. -/
def get_symbols_from (dl : dl_env) (library : Nat) : List String → List Nat →
    List Nat × Option Int
  | [], ops => (ops, none)
  | symbol :: rest, ops =>
    if dl.dlsym library symbol = 0 then (ops ++ [0], some (-1))
    else get_symbols_from dl library rest (ops ++ [dl.dlsym library symbol])

/-- The function `get_symbols` of `tree_manager.c`. -/
def get_symbols (dl : dl_env) (library : Nat) : List Nat × Option Int :=
  get_symbols_from dl library symbol_names []

/-- The `struct tree_library` of `tree_manager.h`; `ops` holds the eleven
function pointers in the order of `struct tree_operations`, and the list node
is the position in the list of loaded libraries. -/
structure tree_library where
  name : String
  library : Nat
  ops : List Nat
deriving DecidableEq

/-- How a call of `tree_library_load` ends: it returns the new library (or
`NULL`) and leaves a list of loaded libraries, or it uses the value of a call
of `get_symbols` that returned none (undefined behaviour in C). -/
inductive load_result where
  | returned (new : Option tree_library) (tree_list : List tree_library)
  | no_return_value
deriving DecidableEq

/-- The function `tree_library_load` of `tree_manager.c`; `malloc` and
`strdup` are taken to succeed, as in the source. -/
def tree_library_load (dl : dl_env) (filename : String) (tree_list : List tree_library) :
    load_result :=
  let library := dl.dlopen filename
  if library = 0 then load_result.returned none tree_list
  else
    let magic_string := dl.dlsym library magic_string_name
    if magic_string = 0 then load_result.returned none tree_list
    else if strncmp (dl.string_at magic_string) EXPECTED_MAGIC_STRING
        sizeof_EXPECTED_MAGIC_STRING ≠ 0 then
      load_result.returned none tree_list
    else
      match get_symbols dl library with
      | (_, none) => load_result.no_return_value
      | (ops, some v) =>
        if v = -1 then load_result.returned none tree_list
        else load_result.returned (some ⟨filename, library, ops⟩)
          (⟨filename, library, ops⟩ :: tree_list)

/-- An interface module as the loader sees it: the names that its source file
defines with external linkage, in the order of the file, and the string its
`magic_string` points to. -/
structure interface_module where
  exports : List String
  magic_string : List Char
deriving DecidableEq

/-- The interface module `tree_interfaces/pasquali_avl.c`. -/
def pasquali_avl : interface_module :=
  ⟨["magic_string", "get_root_size", "get_node_size", "get_root_node_offset",
      "get_left_offset", "get_right_offset", "get_node_offset_in_element",
      "get_key_offset_in_element", "get_balance", "insert", "delete", "init"],
    "binary_tree_module".toList⟩

/-- The interface module `tree_interfaces/ebiggers_avl.c`; its functions
`search`, `avl_delete` and `avl_insert` are `static`. -/
def ebiggers_avl : interface_module :=
  ⟨["magic_string", "get_root_size", "get_element_size", "get_root_node_offset",
      "get_left_offset", "get_right_offset", "get_node_offset_in_element",
      "get_key_offset_in_element", "get_balance", "insert", "delete", "init"],
    "binary_tree_module".toList⟩

/-- The dynamic linker over a list of files, each the shared object of an
interface module: file number `k` (from 0) has the handle `k + 1`, and the
symbol number `j` of its exports the address `4096 * (k + 1) + 8 * (j + 1)`. -/
def dl_of_files (files : List (String × interface_module)) : dl_env where
  dlopen := fun filename =>
    match files.findIdx? (fun f => f.1 == filename) with
    | some k => k + 1
    | none => 0
  dlsym := fun library symbol =>
    match files.get? (library - 1) with
    | some f =>
      if library ≠ 0 ∧ symbol ∈ f.2.exports then
        4096 * library + 8 * (f.2.exports.indexOf symbol + 1)
      else 0
    | none => 0
  string_at := fun addr =>
    match files.get? (addr / 4096 - 1) with
    | some f => f.2.magic_string
    | none => []

/-- The two interface modules of the repository, built as shared objects. -/
def interface_files : List (String × interface_module) :=
  [("pasquali_avl.so", pasquali_avl), ("ebiggers_avl.so", ebiggers_avl)]

/-! ## performance_test.c: do_test -/

/-- The default number of operations of `performance_test.c`. -/
def N_OPS : Nat := 1000000

/-- The `struct tree_operations` of `tree_operations.h`, each function pointer
as the function it points to: a getter is the `size_t` it returns,
`get_balance` the value it returns for a node in a memory, and `delete`,
`insert` and `init` are the memory they leave. -/
structure tree_operations where
  get_root_size : Nat
  get_node_size : Nat
  get_root_node_offset : Nat
  get_left_offset : Nat
  get_right_offset : Nat
  get_node_offset_in_element : Nat
  get_key_offset_in_element : Nat
  get_balance : Mem → Nat → Nat
  delete : Mem → Nat → Nat → Mem
  insert : Mem → Nat → Nat → Mem
  init : Mem → Nat → Mem

/-- The function `tree_info_setup` of `tree_manager.c`: every `size_t` is
stored in an `unsigned int` member. -/
def tree_info_setup (ops : tree_operations) : tree_info :=
  ⟨ops.get_root_size % 2 ^ 32, ops.get_node_size % 2 ^ 32, ops.get_root_node_offset % 2 ^ 32,
    ops.get_left_offset % 2 ^ 32, ops.get_right_offset % 2 ^ 32,
    ops.get_node_offset_in_element % 2 ^ 32, ops.get_key_offset_in_element % 2 ^ 32⟩

/-- The function `tree_memory_allocate` of `tree_manager.c`; `addr` is the block
that `malloc(i->root_size + i->element_size * size)` returns. -/
def tree_memory_allocate (addr : Nat) (i : tree_info) : tree_memory :=
  ⟨addr, addr, addr + i.root_size⟩

/-- The function `memset` of `string.h`. -/
def memset (mem : Mem) (s c n : Nat) : Mem :=
  fun x => if s ≤ x ∧ x < s + n then c % 256 else mem x

/-- A call of one of the tree operations of a module, with its arguments. -/
inductive op_call where
  | init (root : Nat)
  | insert (root pos : Nat)
  | delete (root key : Nat)
deriving DecidableEq

/-- The function `tree_insert` of `tree_manager.h`, on the memory and the record
of the calls made so far; `idx` is an `unsigned int`, and so is the product
`idx * i->element_size`. -/
def tree_insert (ops : tree_operations) (m : tree_memory) (i : tree_info)
    (st : Mem × List op_call) (idx : Nat) : Mem × List op_call :=
  let pos := m.array + (idx % 2 ^ 32 * i.element_size) % 2 ^ 32
  (ops.insert st.1 m.root pos, st.2 ++ [op_call.insert m.root pos])

/-- The function `tree_delete` of `tree_manager.h`, on the memory and the record
of the calls made so far. -/
def tree_delete (ops : tree_operations) (m : tree_memory) (i : tree_info)
    (st : Mem × List op_call) (idx : Nat) : Mem × List op_call :=
  let tmp := m.array + (idx % 2 ^ 32 * i.element_size) % 2 ^ 32 + i.key_offset_in_element
  (ops.delete st.1 m.root (read64 st.1 tmp), st.2 ++ [op_call.delete m.root (read64 st.1 tmp)])

/-- One phase of `do_test`: `for (i = 0; i < N_OPS; i++) tree_insert(...);`
followed by `for (i = 0; i < N_OPS; i++) tree_delete(...);`. -/
def test_phase (n : Nat) (ops : tree_operations) (m : tree_memory) (i : tree_info)
    (st : Mem × List op_call) : Mem × List op_call :=
  (List.range n).foldl (tree_delete ops m i) ((List.range n).foldl (tree_insert ops m i) st)

/-- The `struct test_result` of `performance_test.c`: the elapsed times of
`INORDER_TEST` and `RANDOM_TEST`. -/
structure test_result where
  inorder_test : timespec
  random_test : timespec
deriving DecidableEq

/-- What a call of `do_test` leaves: the memory, the calls of the tree
operations of the module, in order, and `*result`. -/
structure test_run where
  mem : Mem
  calls : List op_call
  result : test_result

/-- The function `do_test` of `performance_test.c` with the number of
operations as a parameter. `addr` is the block that `malloc` returns and
`clock k` the sample that call number `k` of `clock_gettime` stores. -/
def do_test_sized (n : Nat) (ops : tree_operations) (random_key_array : Nat → Nat)
    (addr : Nat) (clock : Nat → timespec) (mem : Mem) : test_run :=
  let tree_info := tree_info_setup ops
  let tree_memory := tree_memory_allocate addr tree_info
  let mem1 := memset mem tree_memory.addr 0
    ((tree_info.root_size + tree_info.element_size * n) % 2 ^ 32)
  let st0 : Mem × List op_call := (ops.init mem1 tree_memory.root, [op_call.init tree_memory.root])
  let mem2 := tree_fill_in_order st0.1 tree_memory tree_info n
  let start_time := clock 0
  let st1 := test_phase n ops tree_memory tree_info (mem2, st0.2)
  let stop_time := clock 1
  let inorder_test := time_diff stop_time start_time
  let mem3 := tree_assign_keys st1.1 tree_memory tree_info random_key_array n
  let start_time := clock 2
  let st2 := test_phase n ops tree_memory tree_info (mem3, st1.2)
  let stop_time := clock 3
  let random_test := time_diff stop_time start_time
  ⟨st2.1, st2.2, ⟨inorder_test, random_test⟩⟩

/-- The function `do_test` of `performance_test.c`. -/
def do_test (ops : tree_operations) (random_key_array : Nat → Nat) (addr : Nat)
    (clock : Nat → timespec) (mem : Mem) : test_run :=
  do_test_sized N_OPS ops random_key_array addr clock mem

/-- The loop `list_for_each` of `main` in `performance_test.c` over the loaded
modules, each with the block that `malloc` returns in its test: every call of
`do_test` gets the same `random_key_array`. -/
def main_loop (n : Nat) (random_key_array : Nat → Nat) :
    List (tree_operations × Nat) → (Nat → timespec) → Mem → List test_run
  | [], _, _ => []
  | (ops, addr) :: rest, clock, mem =>
    do_test_sized n ops random_key_array addr clock mem ::
      main_loop n random_key_array rest (fun k => clock (k + 4))
        (do_test_sized n ops random_key_array addr clock mem).mem

/-- The calls of one phase as the specification has them: `insert` for the
elements 0 to `n - 1`, then `delete` for their keys, in the same order. -/
def phase_calls (n : Nat) (root array element_size : Nat) (key : Nat → Nat) : List op_call :=
  (List.range n).map (fun k => op_call.insert root (array + k * element_size)) ++
    (List.range n).map (fun k => op_call.delete root (key k))

/-- The calls a module receives in a test as the specification has them:
`init`, the phase with the keys in ascending order and the phase with the keys
of `random_key_array`. -/
def test_calls (n : Nat) (ops : tree_operations) (addr : Nat) (random_key_array : Nat → Nat) :
    List op_call :=
  op_call.init addr ::
    (phase_calls n addr (addr + (tree_info_setup ops).root_size)
        (tree_info_setup ops).element_size (fun k => k) ++
      phase_calls n addr (addr + (tree_info_setup ops).root_size)
        (tree_info_setup ops).element_size random_key_array)

/-- The keys of the `n` elements of a test are the same in the two memories. -/
def keys_kept (n : Nat) (m : tree_memory) (i : tree_info) (before after : Mem) : Prop :=
  ∀ k, k < n → element_key after m i k = element_key before m i k

instance keys_kept.decide (n : Nat) (m : tree_memory) (i : tree_info) (before after : Mem) :
    Decidable (keys_kept n m i before after) :=
  inferInstanceAs (Decidable (∀ k, k < n → element_key after m i k = element_key before m i k))

/-- Every call that a loop of a test makes, for the indices of a list in order
and from a given memory, leaves the keys of the `n` elements as they are. -/
def loop_keeps_keys (n : Nat) (m : tree_memory) (i : tree_info)
    (step : Mem × List op_call → Nat → Mem × List op_call) :
    List Nat → Mem × List op_call → Prop
  | [], _ => True
  | idx :: rest, st =>
    keys_kept n m i st.1 (step st idx).1 ∧ loop_keeps_keys n m i step rest (step st idx)

instance loop_keeps_keys.decide (n : Nat) (m : tree_memory) (i : tree_info)
    (step : Mem × List op_call → Nat → Mem × List op_call) :
    ∀ (l : List Nat) (st : Mem × List op_call), Decidable (loop_keeps_keys n m i step l st)
  | [], _ => inferInstanceAs (Decidable True)
  | idx :: rest, st =>
    have := loop_keeps_keys.decide n m i step rest (step st idx)
    inferInstanceAs (Decidable (keys_kept n m i st.1 (step st idx).1 ∧
      loop_keeps_keys n m i step rest (step st idx)))

/-- The calls of `insert` and `delete` that one phase of a test makes from a
given memory leave the keys of the `n` elements as they are. -/
def phase_keeps_keys (n : Nat) (ops : tree_operations) (m : tree_memory) (i : tree_info)
    (st : Mem × List op_call) : Prop :=
  loop_keeps_keys n m i (tree_insert ops m i) (List.range n) st ∧
    loop_keeps_keys n m i (tree_delete ops m i) (List.range n)
      ((List.range n).foldl (tree_insert ops m i) st)

instance phase_keeps_keys.decide (n : Nat) (ops : tree_operations) (m : tree_memory)
    (i : tree_info) (st : Mem × List op_call) : Decidable (phase_keeps_keys n ops m i st) :=
  inferInstanceAs (Decidable (loop_keeps_keys n m i (tree_insert ops m i) (List.range n) st ∧
    loop_keeps_keys n m i (tree_delete ops m i) (List.range n)
      ((List.range n).foldl (tree_insert ops m i) st)))

/-- The memory and the calls made when the first phase of `do_test` begins. -/
def first_phase_start (n : Nat) (ops : tree_operations) (addr : Nat) (mem : Mem) :
    Mem × List op_call :=
  let tree_info := tree_info_setup ops
  let tree_memory := tree_memory_allocate addr tree_info
  let mem1 := memset mem tree_memory.addr 0
    ((tree_info.root_size + tree_info.element_size * n) % 2 ^ 32)
  (tree_fill_in_order (ops.init mem1 tree_memory.root) tree_memory tree_info n,
    [op_call.init tree_memory.root])

/-- The memory and the calls made when the second phase of `do_test` begins. -/
def second_phase_start (n : Nat) (ops : tree_operations) (random_key_array : Nat → Nat)
    (addr : Nat) (mem : Mem) : Mem × List op_call :=
  let tree_info := tree_info_setup ops
  let tree_memory := tree_memory_allocate addr tree_info
  let st1 := test_phase n ops tree_memory tree_info (first_phase_start n ops addr mem)
  (tree_assign_keys st1.1 tree_memory tree_info random_key_array n, st1.2)

/-- The tree operations of a module, as `do_test` calls them in a test that
starts from the memory `mem`, do not change the keys of the `n` elements: each
call of `insert` and `delete` of the two phases, with the arguments and in the
memory of that call, leaves the `n` key fields as they are. -/
def test_keeps_keys (n : Nat) (ops : tree_operations) (random_key_array : Nat → Nat)
    (addr : Nat) (mem : Mem) : Prop :=
  phase_keeps_keys n ops (tree_memory_allocate addr (tree_info_setup ops)) (tree_info_setup ops)
      (first_phase_start n ops addr mem) ∧
    phase_keeps_keys n ops (tree_memory_allocate addr (tree_info_setup ops))
      (tree_info_setup ops) (second_phase_start n ops random_key_array addr mem)

instance test_keeps_keys.decide (n : Nat) (ops : tree_operations)
    (random_key_array : Nat → Nat) (addr : Nat) (mem : Mem) :
    Decidable (test_keeps_keys n ops random_key_array addr mem) :=
  inferInstanceAs (Decidable (
    phase_keeps_keys n ops (tree_memory_allocate addr (tree_info_setup ops))
        (tree_info_setup ops) (first_phase_start n ops addr mem) ∧
      phase_keeps_keys n ops (tree_memory_allocate addr (tree_info_setup ops))
        (tree_info_setup ops) (second_phase_start n ops random_key_array addr mem)))

/-- Every module of a run keeps the keys of the elements in its test, and has
elements at least as large as a key and an allocation size that fits
`unsigned int`. -/
def run_keeps_keys (n : Nat) (random_key_array : Nat → Nat) :
    List (tree_operations × Nat) → (Nat → timespec) → Mem → Prop
  | [], _, _ => True
  | (ops, addr) :: rest, clock, mem =>
    (8 ≤ (tree_info_setup ops).element_size ∧
      (tree_info_setup ops).root_size + (tree_info_setup ops).element_size * n < 2 ^ 32 ∧
      test_keeps_keys n ops random_key_array addr mem) ∧
    run_keeps_keys n random_key_array rest (fun k => clock (k + 4))
      (do_test_sized n ops random_key_array addr clock mem).mem

instance run_keeps_keys.decide (n : Nat) (random_key_array : Nat → Nat) :
    ∀ (modules : List (tree_operations × Nat)) (clock : Nat → timespec) (mem : Mem),
    Decidable (run_keeps_keys n random_key_array modules clock mem)
  | [], _, _ => inferInstanceAs (Decidable True)
  | (ops, addr) :: rest, clock, mem =>
    have := run_keeps_keys.decide n random_key_array rest (fun k => clock (k + 4))
      (do_test_sized n ops random_key_array addr clock mem).mem
    inferInstanceAs (Decidable ((8 ≤ (tree_info_setup ops).element_size ∧
      (tree_info_setup ops).root_size + (tree_info_setup ops).element_size * n < 2 ^ 32 ∧
      test_keeps_keys n ops random_key_array addr mem) ∧
      run_keeps_keys n random_key_array rest (fun k => clock (k + 4))
        (do_test_sized n ops random_key_array addr clock mem).mem))

/-- The descent of `bst_insert`: the new node becomes a child of the first
node on its search path that has no child on the side of the key. -/
def bst_descend (mem : Mem) (pos key : Nat) : Nat → Nat → Mem
  | 0, _ => mem
  | fuel + 1, cur =>
    if key < read64 mem (cur + 16) then
      if read64 mem cur = 0 then write64 mem cur pos
      else bst_descend mem pos key fuel (read64 mem cur)
    else if read64 mem (cur + 16) < key then
      if read64 mem (cur + 8) = 0 then write64 mem (cur + 8) pos
      else bst_descend mem pos key fuel (read64 mem (cur + 8))
    else mem

/-- Insertion into an unbalanced binary search tree of intrusive nodes: left
child at node offset 0, right child at node offset 8, key at element offset
16, the node at the start of the element. -/
def bst_insert (mem : Mem) (root pos : Nat) : Mem :=
  let mem1 := write64 (write64 mem pos 0) (pos + 8) 0
  if read64 mem1 root = 0 then write64 mem1 root pos
  else bst_descend mem1 pos (read64 mem1 (pos + 16)) 64 (read64 mem1 root)

/-- The address of the pointer to the node with a key on the search path from
a pointer on (`0` when there is no such node). -/
def bst_find (mem : Mem) (key : Nat) : Nat → Nat → Nat
  | 0, _ => 0
  | fuel + 1, link =>
    if read64 mem link = 0 then 0
    else if key < read64 mem (read64 mem link + 16) then bst_find mem key fuel (read64 mem link)
    else if read64 mem (read64 mem link + 16) < key then
      bst_find mem key fuel (read64 mem link + 8)
    else link

/-- The address of the pointer to the leftmost node below a pointer. -/
def bst_min_link (mem : Mem) : Nat → Nat → Nat
  | 0, link => link
  | fuel + 1, link =>
    if read64 mem (read64 mem link) = 0 then link
    else bst_min_link mem fuel (read64 mem link)

/-- Deletion by key from the unbalanced binary search tree: a node with at
most one child is replaced by that child, a node with two children by its
in-order successor. -/
def bst_delete (mem : Mem) (root key : Nat) : Mem :=
  let link := bst_find mem key 64 root
  if link = 0 then mem
  else
    let node := read64 mem link
    if read64 mem node = 0 then write64 mem link (read64 mem (node + 8))
    else if read64 mem (node + 8) = 0 then write64 mem link (read64 mem node)
    else
      let slink := bst_min_link mem 64 (node + 8)
      let succ := read64 mem slink
      let mem1 := write64 mem slink (read64 mem (succ + 8))
      let mem2 := write64 mem1 succ (read64 mem1 node)
      let mem3 := write64 mem2 (succ + 8) (read64 mem2 (node + 8))
      write64 mem3 link succ

/-- A tree module for the examples: an unbalanced binary search tree with a
root of one pointer and elements of 32 bytes. -/
def sample_ops : tree_operations where
  get_root_size := 8
  get_node_size := 32
  get_root_node_offset := 0
  get_left_offset := 0
  get_right_offset := 8
  get_node_offset_in_element := 0
  get_key_offset_in_element := 16
  get_balance := fun _ _ => 0
  delete := bst_delete
  insert := bst_insert
  init := fun mem root => write64 mem root 0

/-- The keys 1, 0, 2 for a test with three elements. -/
def sample_keys (k : Nat) : Nat := if k = 0 then 1 else if k = 1 then 0 else 2

/-! ## Memory lemmas -/

theorem read64_lt (m : Mem) (a : Nat) : read64 m a < 2 ^ 64 := by
  unfold read64; omega

theorem read64_write64_same (m : Mem) (a v : Nat) :
    read64 (write64 m a v) a = v % 2 ^ 64 := by
  simp only [read64, write64]
  simp
  omega

theorem read64_write64_disjoint (m : Mem) (a b v : Nat) (h : a + 8 ≤ b ∨ b + 8 ≤ a) :
    read64 (write64 m a v) b = read64 m b := by
  have e : ∀ i, i < 8 → write64 m a v (b + i) = m (b + i) := by
    intro i hi
    unfold write64
    repeat (rw [if_neg (by omega)])
  have e0 := e 0 (by omega)
  simp only [Nat.add_zero] at e0
  simp only [read64, e0, e 1 (by omega), e 2 (by omega), e 3 (by omega), e 4 (by omega),
    e 5 (by omega), e 6 (by omega), e 7 (by omega)]

/-! ## The loop runs the direct-style comparison -/

theorem push_pair_apush (size : Nat) (m : Mem) (a b : tree_info) (ca cb : Nat) (ta tb : Tree)
    (ha : IsTree m a ca ta) (hb : IsTree m b cb tb) (s : diff_state) (i pk : Nat)
    (hi : s.idx = i) :
    match apush size ta tb i pk with
    | (some r, _, _) => push_pair size ca cb s = diff_step.ret r
    | (none, i1, _) => (ta = Tree.nil ↔ tb = Tree.nil) ∧ i1 = s.idx + ta.occ ∧
        ∃ s1, push_pair size ca cb s = diff_step.next s1 ∧ s1.idx = i1 ∧
          s1.max_idx = s.max_idx ∧ s1.n_checked = s.n_checked ∧
          (∀ j, j < s.idx → s1.stack_a j = s.stack_a j ∧ s1.stack_b j = s.stack_b j) ∧
          (ta ≠ Tree.nil → s1.stack_a s.idx = ca ∧ s1.stack_b s.idx = cb) := by
  subst hi
  cases ta with
  | nil =>
    cases tb with
    | nil =>
      have h1 : ca = 0 := ha
      have h2 : cb = 0 := hb
      simp [apush, push_pair, h1, h2, Tree.occ]
    | node lb kb rb =>
      have h1 : ca = 0 := ha
      have h2 : cb ≠ 0 := hb.1
      simp [apush, push_pair, h1, h2]
  | node la ka ra =>
    cases tb with
    | nil =>
      have h1 : ca ≠ 0 := ha.1
      have h2 : cb = 0 := hb
      simp [apush, push_pair, h1, h2]
    | node lb kb rb =>
      have h1 : ca ≠ 0 := ha.1
      have h2 : cb ≠ 0 := hb.1
      by_cases hs : s.idx + 1 = size
      · simp [apush, push_pair, h1, h2, hs]
      · simp only [apush, hs, if_false]
        refine ⟨by simp, by simp [Tree.occ], ?_⟩
        refine ⟨⟨Function.update s.stack_a s.idx ca, Function.update s.stack_b s.idx cb,
          s.idx + 1, s.max_idx, s.n_checked⟩, by simp [push_pair, h1, h2, hs], rfl, rfl, rfl,
          ?_, ?_⟩
        · intro j hj
          have : j ≠ s.idx := by omega
          simp [Function.update, this]
        · intro _
          simp


theorem diff_loop_next (size : Nat) (m : Mem) (a b : tree_info) (s s1 : diff_state) (fuel : Nat)
    (h0 : s.idx ≠ 0) (h : loop_body size m a b s = diff_step.next s1) :
    diff_loop size m a b (fuel + 1) s = diff_loop size m a b fuel s1 := by
  simp [diff_loop, h0, h]

theorem diff_loop_ret (size : Nat) (m : Mem) (a b : tree_info) (s : diff_state) (r : diff_output)
    (fuel : Nat) (h0 : s.idx ≠ 0) (h : loop_body size m a b s = diff_step.ret r) :
    diff_loop size m a b (fuel + 1) s = some r := by
  simp [diff_loop, h0, h]

theorem visit_simulates (size : Nat) (m : Mem) (a b : tree_info) :
    ∀ (ta tb : Tree) (s : diff_state) (d pk : Nat),
      (ta = Tree.nil ↔ tb = Tree.nil) →
      s.idx = d + ta.occ →
      (ta ≠ Tree.nil → IsTree m a (s.stack_a d) ta ∧ IsTree m b (s.stack_b d) tb) →
      ∃ k, k ≤ Tree.paired ta tb ∧
        Simulates size m a b s d k (visit size ta tb d s.max_idx s.n_checked pk) := by
  intro ta
  induction ta with
  | nil =>
    intro tb s d pk hc hidx _
    have htb : tb = Tree.nil := hc.1 rfl
    subst htb
    refine ⟨0, Nat.zero_le _, ?_⟩
    simp only [visit, Simulates]
    exact ⟨s, fun _ => rfl, by simpa [Tree.occ] using hidx, rfl, rfl, fun _ _ => ⟨rfl, rfl⟩⟩
  | node la ka ra ihl ihr =>
    intro tb s d pk hc hidx hT
    cases tb with
    | nil => simp at hc
    | node lb kb rb =>
      obtain ⟨hA, hB⟩ := hT (by simp)
      obtain ⟨-, -, hka, hla, hra⟩ := hA
      obtain ⟨-, -, hkb, hlb, hrb⟩ := hB
      have hidx1 : s.idx = d + 1 := by simpa [Tree.occ] using hidx
      have h0 : s.idx ≠ 0 := by omega
      have hd : s.idx - 1 = d := by omega
      by_cases hk : ka = kb
      · -- equal keys: the two push blocks, then the right and the left subtrees
        have P1 := push_pair_apush size m a b _ _ la lb hla hlb
          ⟨s.stack_a, s.stack_b, d, if s.idx > s.max_idx then s.idx else s.max_idx,
            (s.n_checked + 1) % 2 ^ 64⟩ d pk rfl
        rcases hap1 : apush size la lb d pk with ⟨o1, i1, pk1⟩
        rw [hap1] at P1
        cases o1 with
        | some r =>
          refine ⟨1, by simp [Tree.paired]; omega, ?_⟩
          simp only [visit, hk, hap1, Simulates, ne_eq, not_true_eq_false, if_false]
          intro fuel
          apply diff_loop_ret _ _ _ _ _ _ _ h0
          simp only [loop_body, hd, hka, hkb, hk, ne_eq, not_true_eq_false, if_false]
          simp only at P1
          rw [P1]
        | none =>
          simp only at P1
          obtain ⟨hc1, hi1, s1, hs1, hs1i, hs1m, hs1n, hs1lo, hs1top⟩ := P1
          have P2 := push_pair_apush size m a b _ _ ra rb hra hrb s1 i1 pk1 hs1i
          rcases hap2 : apush size ra rb i1 pk1 with ⟨o2, i2, pk2⟩
          rw [hap2] at P2
          cases o2 with
          | some r =>
            refine ⟨1, by simp [Tree.paired]; omega, ?_⟩
            simp only [visit, hk, hap1, hap2, Simulates, ne_eq, not_true_eq_false, if_false]
            intro fuel
            apply diff_loop_ret _ _ _ _ _ _ _ h0
            simp only [loop_body, hd, hka, hkb, hk, ne_eq, not_true_eq_false, if_false]
            rw [hs1]
            simp only at P2 ⊢
            rw [P2]
          | none =>
            simp only at P2
            obtain ⟨hc2, hi2, s2, hs2, hs2i, hs2m, hs2n, hs2lo, hs2top⟩ := P2
            have hbody : loop_body size m a b s = diff_step.next s2 := by
              simp only [loop_body, hd, hka, hkb, hk, ne_eq, not_true_eq_false, if_false]
              rw [hs1]
              simp only
              rw [hs2]
            -- the right subtrees, whose roots (if any) sit at index `i1`
            have hR := ihr rb s2 i1 pk2 hc2 (by omega) (by
              intro hne
              obtain ⟨e1, e2⟩ := hs2top hne
              rw [hs1i] at e1 e2
              rw [e1, e2]
              exact ⟨hra, hrb⟩)
            obtain ⟨kr, hkr, hR⟩ := hR
            have hvis : visit size (Tree.node la ka ra) (Tree.node lb kb rb) d s.max_idx
                s.n_checked pk =
                (match (visit size ra rb i1 s2.max_idx s2.n_checked pk2).stop with
                  | some _ => visit size ra rb i1 s2.max_idx s2.n_checked pk2
                  | none => visit size la lb d
                      (visit size ra rb i1 s2.max_idx s2.n_checked pk2).max_idx
                      (visit size ra rb i1 s2.max_idx s2.n_checked pk2).n_checked
                      (visit size ra rb i1 s2.max_idx s2.n_checked pk2).peak) := by
              rw [hs2m, hs2n, hs1m, hs1n]
              simp only [visit, hk, hap1, hap2, ne_eq, not_true_eq_false, if_false, hidx1]
            rw [hvis]
            generalize visit size ra rb i1 s2.max_idx s2.n_checked pk2 = wr at hR ⊢
            rcases wr with ⟨stopr, mxr, ncr, pkr⟩
            cases stopr with
            | some r =>
              refine ⟨kr + 1, by simp [Tree.paired]; omega, ?_⟩
              simp only [Simulates] at hR ⊢
              intro fuel
              rw [← Nat.add_assoc, diff_loop_next _ _ _ _ _ _ _ h0 hbody]
              exact hR fuel
            | none =>
              simp only [Simulates] at hR
              obtain ⟨s3, hs3, hs3i, hs3m, hs3n, hs3lo⟩ := hR
              have hL := ihl lb s3 d pkr hc1 (by omega) (by
                intro hne
                have hlt : d < i1 := by
                  cases la with
                  | nil => exact absurd rfl hne
                  | node _ _ _ => simp [Tree.occ] at hi1; omega
                obtain ⟨e1, e2⟩ := hs3lo d hlt
                obtain ⟨f1, f2⟩ := hs2lo d (by omega)
                obtain ⟨g1, g2⟩ := hs1top hne
                rw [e1, e2, f1, f2, g1, g2]
                exact ⟨hla, hlb⟩)
              obtain ⟨kl, hkl, hL⟩ := hL
              rw [hs3m, hs3n] at hL
              refine ⟨kl + kr + 1, by simp [Tree.paired]; omega, ?_⟩
              simp only
              generalize visit size la lb d mxr ncr pkr = wl at hL ⊢
              rcases wl with ⟨stopl, mxl, ncl, pkl⟩
              cases stopl with
              | some r =>
                simp only [Simulates] at hL ⊢
                intro fuel
                rw [← Nat.add_assoc, diff_loop_next _ _ _ _ _ _ _ h0 hbody, ← Nat.add_assoc,
                  hs3]
                exact hL fuel
              | none =>
                simp only [Simulates] at hL ⊢
                obtain ⟨s4, hs4, hs4i, hs4m, hs4n, hs4lo⟩ := hL
                refine ⟨s4, ?_, hs4i, hs4m, hs4n, ?_⟩
                · intro fuel
                  rw [← Nat.add_assoc, diff_loop_next _ _ _ _ _ _ _ h0 hbody, ← Nat.add_assoc,
                    hs3]
                  exact hs4 fuel
                · intro i hi
                  obtain ⟨e1, e2⟩ := hs4lo i hi
                  obtain ⟨f1, f2⟩ := hs3lo i (by omega)
                  obtain ⟨g1, g2⟩ := hs2lo i (by omega)
                  obtain ⟨j1, j2⟩ := hs1lo i hi
                  exact ⟨by rw [e1, f1, g1, j1], by rw [e2, f2, g2, j2]⟩
      · -- the keys differ
        refine ⟨1, by simp [Tree.paired]; omega, ?_⟩
        simp only [visit, hk, Simulates, ne_eq, not_false_eq_true, if_true]
        intro fuel
        apply diff_loop_ret _ _ _ _ _ _ _ h0
        simp only [loop_body, hd, hka, hkb, hk, ne_eq, not_false_eq_true, if_true]

theorem same_tree_iff (ta : Tree) : ∀ tb, same_tree ta tb = true ↔ ta = tb := by
  induction ta with
  | nil => intro tb; cases tb <;> simp [same_tree]
  | node la ka ra ihl ihr =>
    intro tb
    cases tb with
    | nil => simp [same_tree]
    | node lb kb rb =>
      simp [same_tree, ihl, ihr]
      tauto

/-- The concrete function on memory computes `compare_trees` whenever the fuel
exceeds the number of corresponding node pairs. -/
theorem tree_is_identical_sized_eq (size fuel : Nat) (m : Mem) (a b : tree_info)
    (pa pb : Nat) (ta tb : Tree)
    (ha : IsTree m a (tree_root_get_node m a pa) ta)
    (hb : IsTree m b (tree_root_get_node m b pb) tb)
    (hf : Tree.paired ta tb < fuel) :
    tree_is_identical_sized size fuel m a pa b pb = some (compare_trees size ta tb) := by
  cases ta with
  | nil =>
    have h1 : tree_root_get_node m a pa = 0 := ha
    cases tb with
    | nil =>
      have h2 : tree_root_get_node m b pb = 0 := hb
      simp [tree_is_identical_sized, h1, h2, compare_trees]
    | node lb kb rb =>
      have h2 : tree_root_get_node m b pb ≠ 0 := hb.1
      simp [tree_is_identical_sized, h1, h2, compare_trees]
  | node la ka ra =>
    have h1 : tree_root_get_node m a pa ≠ 0 := ha.1
    cases tb with
    | nil =>
      have h2 : tree_root_get_node m b pb = 0 := hb
      simp [tree_is_identical_sized, h1, h2, compare_trees]
    | node lb kb rb =>
      have h2 : tree_root_get_node m b pb ≠ 0 := hb.1
      simp only [tree_is_identical_sized, h1, h2, false_and, false_or, if_false]
      obtain ⟨k, hk, hsim⟩ := visit_simulates size m a b (Tree.node la ka ra)
        (Tree.node lb kb rb)
        ⟨Function.update (fun _ => 0) 0 (tree_root_get_node m a pa),
          Function.update (fun _ => 0) 0 (tree_root_get_node m b pb), 1, 0, 0⟩ 0 1
        (by simp) (by simp [Tree.occ]) (by
          intro _
          simpa using And.intro ha hb)
      simp only [compare_trees]
      simp only at hsim
      generalize visit size (Tree.node la ka ra) (Tree.node lb kb rb) 0 0 0 1 = w at hsim ⊢
      rcases w with ⟨stop, mx, nc, pk⟩
      obtain ⟨f, rfl⟩ : ∃ f, fuel = f + 1 + k := ⟨fuel - 1 - k, by omega⟩
      cases stop with
      | some r =>
        simp only [Simulates] at hsim
        exact hsim (f + 1)
      | none =>
        simp only [Simulates] at hsim
        obtain ⟨s1, hs1, hi, hm, hn, -⟩ := hsim
        rw [hs1 (f + 1)]
        simp [diff_loop, hi, hm, hn]

theorem apush_some (size : Nat) (ca cb : Tree) (i pk : Nat) (r : diff_output) (i1 pk1 : Nat)
    (h : apush size ca cb i pk = (some r, i1, pk1)) :
    (r = ⟨-1, none, none⟩ ∧ i + 1 = size ∧ pk1 = max pk (i + 1) ∧ ca ≠ Tree.nil ∧
        cb ≠ Tree.nil) ∨
      (r = ⟨0, none, none⟩ ∧ pk1 = pk ∧ ¬ (ca = Tree.nil ↔ cb = Tree.nil)) := by
  cases ca <;> cases cb <;> simp [apush] at h ⊢
  · obtain ⟨h1, _, h3⟩ := h
    exact ⟨h1.symm, h3.symm⟩
  · obtain ⟨h1, _, h3⟩ := h
    exact ⟨h1.symm, h3.symm⟩
  · obtain ⟨⟨h1, h2⟩, _, h3⟩ := h
    exact ⟨h2.symm, h1, h3.symm⟩

theorem apush_none (size : Nat) (ca cb : Tree) (i pk : Nat) (i1 pk1 : Nat)
    (h : apush size ca cb i pk = (none, i1, pk1)) :
    (ca = Tree.nil ↔ cb = Tree.nil) ∧ i1 = i + ca.occ ∧
      pk1 = (if ca = Tree.nil then pk else max pk (i + 1)) ∧
      (ca ≠ Tree.nil → i + 1 ≠ size) := by
  cases ca <;> cases cb <;> simp [apush, Tree.occ] at h ⊢
  · obtain ⟨h1, h2⟩ := h
    exact ⟨h1.symm, h2.symm⟩
  · obtain ⟨h0, h1, h2⟩ := h
    exact ⟨h1.symm, h2.symm, h0⟩

/-- Unfolding of `visit` at a pair of nodes with equal keys whose two push
blocks fall through, when the walk below the right children returns. -/
theorem visit_node_right_stop (size : Nat) (la ra lb rb : Tree)
    (k d mx nc pk i1 pk1 i2 pk2 : Nat) (r : diff_output)
    (h1 : apush size la lb d pk = (none, i1, pk1))
    (h2 : apush size ra rb i1 pk1 = (none, i2, pk2))
    (h3 : (visit size ra rb i1 (if d + 1 > mx then d + 1 else mx) ((nc + 1) % 2 ^ 64)
      pk2).stop = some r) :
    visit size (Tree.node la k ra) (Tree.node lb k rb) d mx nc pk =
      visit size ra rb i1 (if d + 1 > mx then d + 1 else mx) ((nc + 1) % 2 ^ 64) pk2 := by
  simp only [visit, h1, h2, h3, ne_eq, not_true_eq_false, if_false]

/-- Unfolding of `visit` at a pair of nodes with equal keys whose two push
blocks fall through, when the walk below the right children completes. -/
theorem visit_node_right_done (size : Nat) (la ra lb rb : Tree)
    (k d mx nc pk i1 pk1 i2 pk2 : Nat)
    (h1 : apush size la lb d pk = (none, i1, pk1))
    (h2 : apush size ra rb i1 pk1 = (none, i2, pk2))
    (h3 : (visit size ra rb i1 (if d + 1 > mx then d + 1 else mx) ((nc + 1) % 2 ^ 64)
      pk2).stop = none) :
    visit size (Tree.node la k ra) (Tree.node lb k rb) d mx nc pk =
      visit size la lb d
        (visit size ra rb i1 (if d + 1 > mx then d + 1 else mx) ((nc + 1) % 2 ^ 64)
          pk2).max_idx
        (visit size ra rb i1 (if d + 1 > mx then d + 1 else mx) ((nc + 1) % 2 ^ 64)
          pk2).n_checked
        (visit size ra rb i1 (if d + 1 > mx then d + 1 else mx) ((nc + 1) % 2 ^ 64)
          pk2).peak := by
  simp only [visit, h1, h2, h3, ne_eq, not_true_eq_false, if_false]

theorem visit_node_left_ret (size : Nat) (la ra lb rb : Tree) (k d mx nc pk i1 pk1 : Nat)
    (r : diff_output) (h1 : apush size la lb d pk = (some r, i1, pk1)) :
    visit size (Tree.node la k ra) (Tree.node lb k rb) d mx nc pk =
      ⟨some r, if d + 1 > mx then d + 1 else mx, (nc + 1) % 2 ^ 64, pk1⟩ := by
  simp only [visit, h1, ne_eq, not_true_eq_false, if_false]

theorem visit_node_right_ret (size : Nat) (la ra lb rb : Tree) (k d mx nc pk i1 pk1 i2 pk2 : Nat)
    (r : diff_output) (h1 : apush size la lb d pk = (none, i1, pk1))
    (h2 : apush size ra rb i1 pk1 = (some r, i2, pk2)) :
    visit size (Tree.node la k ra) (Tree.node lb k rb) d mx nc pk =
      ⟨some r, if d + 1 > mx then d + 1 else mx, (nc + 1) % 2 ^ 64, pk2⟩ := by
  simp only [visit, h1, h2, ne_eq, not_true_eq_false, if_false]

theorem visit_node_keys (size : Nat) (la ra lb rb : Tree) (ka kb d mx nc pk : Nat)
    (h : ka ≠ kb) :
    visit size (Tree.node la ka ra) (Tree.node lb kb rb) d mx nc pk =
      ⟨some ⟨0, some (ka, kb), none⟩, if d + 1 > mx then d + 1 else mx, (nc + 1) % 2 ^ 64,
        pk⟩ := by
  simp only [visit, h, ne_eq, not_false_eq_true, if_true]

/-- A `return` taken during the walk is either the overflow signal, or a
`return 0` and then the trees differ. -/
theorem visit_stop (size : Nat) : ∀ (ta tb : Tree) (d mx nc pk : Nat) (r : diff_output),
    (visit size ta tb d mx nc pk).stop = some r →
      (r = ⟨-1, none, none⟩ ∧ size ≠ 0) ∨ (r.ret = 0 ∧ r.stats = none ∧ ta ≠ tb) := by
  intro ta
  induction ta with
  | nil => intro tb d mx nc pk r h; simp [visit] at h
  | node la ka ra ihl ihr =>
    intro tb d mx nc pk r h
    cases tb with
    | nil => simp [visit] at h
    | node lb kb rb =>
      by_cases hk : ka = kb
      · subst hk
        rcases h1 : apush size la lb d pk with ⟨o1, i1, pk1⟩
        cases o1 with
        | some r1 =>
          rw [visit_node_left_ret _ _ _ _ _ _ _ _ _ _ _ _ _ h1] at h
          simp only [Option.some.injEq] at h
          subst h
          rcases apush_some _ _ _ _ _ _ _ _ h1 with ⟨e, hs, -⟩ | ⟨e, -, hne⟩
          · exact Or.inl ⟨e, by omega⟩
          · refine Or.inr ⟨by rw [e], by rw [e], ?_⟩
            intro heq
            simp only [Tree.node.injEq] at heq
            exact hne (by rw [heq.1])
        | none =>
          rcases h2 : apush size ra rb i1 pk1 with ⟨o2, i2, pk2⟩
          cases o2 with
          | some r2 =>
            rw [visit_node_right_ret _ _ _ _ _ _ _ _ _ _ _ _ _ _ _ h1 h2] at h
            simp only [Option.some.injEq] at h
            subst h
            rcases apush_some _ _ _ _ _ _ _ _ h2 with ⟨e, hs, -⟩ | ⟨e, -, hne⟩
            · exact Or.inl ⟨e, by omega⟩
            · refine Or.inr ⟨by rw [e], by rw [e], ?_⟩
              intro heq
              simp only [Tree.node.injEq] at heq
              exact hne (by rw [heq.2.2])
          | none =>
            cases hr : (visit size ra rb i1 (if d + 1 > mx then d + 1 else mx)
                ((nc + 1) % 2 ^ 64) pk2).stop with
            | some r3 =>
              rw [visit_node_right_stop _ _ _ _ _ _ _ _ _ _ _ _ _ _ _ h1 h2 hr, hr] at h
              simp only [Option.some.injEq] at h
              subst h
              rcases ihr _ _ _ _ _ _ hr with h3 | ⟨h3, h4, h5⟩
              · exact Or.inl h3
              · refine Or.inr ⟨h3, h4, ?_⟩
                intro heq
                simp only [Tree.node.injEq] at heq
                exact h5 heq.2.2
            | none =>
              rw [visit_node_right_done _ _ _ _ _ _ _ _ _ _ _ _ _ _ h1 h2 hr] at h
              rcases ihl _ _ _ _ _ _ h with h3 | ⟨h3, h4, h5⟩
              · exact Or.inl h3
              · refine Or.inr ⟨h3, h4, ?_⟩
                intro heq
                simp only [Tree.node.injEq] at heq
                exact h5 heq.1
      · rw [visit_node_keys _ _ _ _ _ _ _ _ _ _ _ hk] at h
        simp only [Option.some.injEq] at h
        subst h
        refine Or.inr ⟨rfl, rfl, ?_⟩
        intro heq
        simp only [Tree.node.injEq] at heq
        exact hk heq.2.1

/-- Induction along the walk: one case for each way `visit` proceeds. -/
theorem visit_cases (size : Nat) (P : Tree → Tree → Nat → Nat → Nat → Nat → walk → Prop)
    (h_none : ∀ ta tb d mx nc pk, (ta = Tree.nil ∨ tb = Tree.nil) →
      P ta tb d mx nc pk ⟨none, mx, nc, pk⟩)
    (h_keys : ∀ la ka ra lb kb rb d mx nc pk, ka ≠ kb →
      P (Tree.node la ka ra) (Tree.node lb kb rb) d mx nc pk
        ⟨some ⟨0, some (ka, kb), none⟩, if d + 1 > mx then d + 1 else mx, (nc + 1) % 2 ^ 64,
          pk⟩)
    (h_left : ∀ la k ra lb rb d mx nc pk r i1 pk1,
      apush size la lb d pk = (some r, i1, pk1) →
      P (Tree.node la k ra) (Tree.node lb k rb) d mx nc pk
        ⟨some r, if d + 1 > mx then d + 1 else mx, (nc + 1) % 2 ^ 64, pk1⟩)
    (h_right : ∀ la k ra lb rb d mx nc pk i1 pk1 r i2 pk2,
      apush size la lb d pk = (none, i1, pk1) →
      apush size ra rb i1 pk1 = (some r, i2, pk2) →
      P (Tree.node la k ra) (Tree.node lb k rb) d mx nc pk
        ⟨some r, if d + 1 > mx then d + 1 else mx, (nc + 1) % 2 ^ 64, pk2⟩)
    (h_stop : ∀ la k ra lb rb d mx nc pk i1 pk1 i2 pk2 wr r,
      apush size la lb d pk = (none, i1, pk1) →
      apush size ra rb i1 pk1 = (none, i2, pk2) →
      wr = visit size ra rb i1 (if d + 1 > mx then d + 1 else mx) ((nc + 1) % 2 ^ 64) pk2 →
      wr.stop = some r →
      P ra rb i1 (if d + 1 > mx then d + 1 else mx) ((nc + 1) % 2 ^ 64) pk2 wr →
      P (Tree.node la k ra) (Tree.node lb k rb) d mx nc pk wr)
    (h_done : ∀ la k ra lb rb d mx nc pk i1 pk1 i2 pk2 wr wl,
      apush size la lb d pk = (none, i1, pk1) →
      apush size ra rb i1 pk1 = (none, i2, pk2) →
      wr = visit size ra rb i1 (if d + 1 > mx then d + 1 else mx) ((nc + 1) % 2 ^ 64) pk2 →
      wl = visit size la lb d wr.max_idx wr.n_checked wr.peak →
      wr.stop = none →
      P ra rb i1 (if d + 1 > mx then d + 1 else mx) ((nc + 1) % 2 ^ 64) pk2 wr →
      P la lb d wr.max_idx wr.n_checked wr.peak wl →
      P (Tree.node la k ra) (Tree.node lb k rb) d mx nc pk wl) :
    ∀ ta tb d mx nc pk, P ta tb d mx nc pk (visit size ta tb d mx nc pk) := by
  intro ta
  induction ta with
  | nil =>
    intro tb d mx nc pk
    simpa [visit] using h_none Tree.nil tb d mx nc pk (Or.inl rfl)
  | node la ka ra ihl ihr =>
    intro tb d mx nc pk
    cases tb with
    | nil => simpa [visit] using h_none _ Tree.nil d mx nc pk (Or.inr rfl)
    | node lb kb rb =>
      by_cases hk : ka = kb
      · subst hk
        rcases h1 : apush size la lb d pk with ⟨o1, i1, pk1⟩
        cases o1 with
        | some r1 =>
          rw [visit_node_left_ret _ _ _ _ _ _ _ _ _ _ _ _ _ h1]
          exact h_left _ _ _ _ _ _ _ _ _ _ _ _ h1
        | none =>
          rcases h2 : apush size ra rb i1 pk1 with ⟨o2, i2, pk2⟩
          cases o2 with
          | some r2 =>
            rw [visit_node_right_ret _ _ _ _ _ _ _ _ _ _ _ _ _ _ _ h1 h2]
            exact h_right _ _ _ _ _ _ _ _ _ _ _ _ _ _ h1 h2
          | none =>
            cases hr : (visit size ra rb i1 (if d + 1 > mx then d + 1 else mx)
                ((nc + 1) % 2 ^ 64) pk2).stop with
            | some r3 =>
              rw [visit_node_right_stop _ _ _ _ _ _ _ _ _ _ _ _ _ _ _ h1 h2 hr]
              exact h_stop _ _ _ _ _ _ _ _ _ _ _ _ _ _ _ h1 h2 rfl hr (ihr _ _ _ _ _)
            | none =>
              rw [visit_node_right_done _ _ _ _ _ _ _ _ _ _ _ _ _ _ h1 h2 hr]
              exact h_done _ _ _ _ _ _ _ _ _ _ _ _ _ _ _ h1 h2 rfl rfl hr (ihr _ _ _ _ _)
                (ihl _ _ _ _ _)
      · rw [visit_node_keys _ _ _ _ _ _ _ _ _ _ _ hk]
        exact h_keys _ _ _ _ _ _ _ _ _ _ hk

/-- The largest index never decreases along the walk. -/
theorem visit_peak_mono (size : Nat) (ta tb : Tree) (d mx nc pk : Nat) :
    pk ≤ (visit size ta tb d mx nc pk).peak := by
  refine visit_cases size (fun _ _ _ _ _ pk w => pk ≤ w.peak) ?_ ?_ ?_ ?_ ?_ ?_ ta tb d mx nc pk
  · intros; exact Nat.le_refl _
  · intros; exact Nat.le_refl _
  · intro la k ra lb rb d mx nc pk r i1 pk1 h1
    rcases apush_some _ _ _ _ _ _ _ _ h1 with ⟨-, -, e, -⟩ | ⟨-, e, -⟩ <;> simp [e]
  · intro la k ra lb rb d mx nc pk i1 pk1 r i2 pk2 h1 h2
    obtain ⟨-, -, e1, -⟩ := apush_none _ _ _ _ _ _ _ h1
    have : pk ≤ pk1 := by rw [e1]; split <;> simp
    rcases apush_some _ _ _ _ _ _ _ _ h2 with ⟨-, -, e, -⟩ | ⟨-, e, -⟩ <;> simp [e] <;> omega
  · intro la k ra lb rb d mx nc pk i1 pk1 i2 pk2 wr r h1 h2 _ _ ih
    obtain ⟨-, -, e1, -⟩ := apush_none _ _ _ _ _ _ _ h1
    obtain ⟨-, -, e2, -⟩ := apush_none _ _ _ _ _ _ _ h2
    have : pk ≤ pk1 := by rw [e1]; split <;> simp
    have : pk1 ≤ pk2 := by rw [e2]; split <;> simp
    simp only at ih ⊢
    omega
  · intro la k ra lb rb d mx nc pk i1 pk1 i2 pk2 wr wl h1 h2 _ _ _ ihr ihl
    obtain ⟨-, -, e1, -⟩ := apush_none _ _ _ _ _ _ _ h1
    obtain ⟨-, -, e2, -⟩ := apush_none _ _ _ _ _ _ _ h2
    have : pk ≤ pk1 := by rw [e1]; split <;> simp
    have : pk1 ≤ pk2 := by rw [e2]; split <;> simp
    simp only at ihr ihl ⊢
    omega

/-- A completed walk over two trees that are both empty or both not has seen
two equal trees, and has counted every node once. -/
theorem visit_done (size : Nat) (ta tb : Tree) (d mx nc pk : Nat)
    (hc : ta = Tree.nil ↔ tb = Tree.nil) (hn : nc < 2 ^ 64)
    (h : (visit size ta tb d mx nc pk).stop = none) :
    ta = tb ∧ (visit size ta tb d mx nc pk).n_checked = (nc + ta.size) % 2 ^ 64 := by
  revert hc hn h
  refine visit_cases size (fun ta tb _ _ nc _ w => (ta = Tree.nil ↔ tb = Tree.nil) →
    nc < 2 ^ 64 → w.stop = none → ta = tb ∧ w.n_checked = (nc + ta.size) % 2 ^ 64)
    ?_ ?_ ?_ ?_ ?_ ?_ ta tb d mx nc pk
  · intro ta tb d mx nc pk h hc hn _
    have ha : ta = Tree.nil := by tauto
    have hb : tb = Tree.nil := by tauto
    subst ha hb
    simp only [Tree.size, Nat.add_zero, true_and]
    omega
  · intro la ka ra lb kb rb d mx nc pk _ _ _ h
    simp at h
  · intro la k ra lb rb d mx nc pk r i1 pk1 _ _ _ h
    simp at h
  · intro la k ra lb rb d mx nc pk i1 pk1 r i2 pk2 _ _ _ _ h
    simp at h
  · intro la k ra lb rb d mx nc pk i1 pk1 i2 pk2 wr r _ _ _ hs _ _ _ h
    rw [hs] at h
    simp at h
  · intro la k ra lb rb d mx nc pk i1 pk1 i2 pk2 wr wl h1 h2 _ _ hs ihr ihl _ hn hl
    obtain ⟨c1, -, -, -⟩ := apush_none _ _ _ _ _ _ _ h1
    obtain ⟨c2, -, -, -⟩ := apush_none _ _ _ _ _ _ _ h2
    obtain ⟨er, nr⟩ := ihr c2 (Nat.mod_lt _ (by norm_num)) hs
    obtain ⟨el, nl⟩ := ihl c1 (by rw [nr]; exact Nat.mod_lt _ (by norm_num)) hl
    refine ⟨by rw [er, el], ?_⟩
    rw [nl, nr]
    simp only [Tree.size]
    omega

theorem apush_zero_some (size : Nat) (ca cb : Tree) (i pk : Nat) (r : diff_output) (i1 pk1 : Nat)
    (h : apush 0 ca cb i pk = (some r, i1, pk1)) :
    apush size ca cb i pk = (some r, i1, pk1) ∧ pk1 = pk := by
  cases ca <;> cases cb <;> simp [apush] at h ⊢
  · exact ⟨h, h.2.2.symm⟩
  · exact ⟨h, h.2.2.symm⟩

theorem apush_zero_none (size : Nat) (ca cb : Tree) (i pk : Nat) (i1 pk1 : Nat)
    (h : apush 0 ca cb i pk = (none, i1, pk1)) :
    (ca = Tree.nil ∧ i1 = i ∧ pk1 = pk ∧ apush size ca cb i pk = (none, i1, pk1)) ∨
      (ca ≠ Tree.nil ∧ i1 = i + 1 ∧ pk1 = max pk (i + 1) ∧
        apush size ca cb i pk =
          (if i + 1 = size then some ⟨-1, none, none⟩ else none, i1, pk1)) := by
  cases ca <;> cases cb <;> simp [apush] at h ⊢
  · exact ⟨h.1.symm, h.2.symm, h⟩
  · exact ⟨h.1.symm, h.2.symm, h⟩

/-- The walk with a capacity check agrees with the walk without one as long as
the largest index stays below the capacity, and returns the overflow signal
otherwise. -/
theorem visit_capped (size : Nat) (ta tb : Tree) (d mx nc pk : Nat)
    (hd : d + ta.occ < size) (hpk : pk < size) :
    ((visit 0 ta tb d mx nc pk).peak < size →
        visit size ta tb d mx nc pk = visit 0 ta tb d mx nc pk) ∧
      (size ≤ (visit 0 ta tb d mx nc pk).peak →
        (visit size ta tb d mx nc pk).stop = some ⟨-1, none, none⟩) := by
  revert hd hpk
  refine visit_cases 0 (fun ta tb d mx nc pk w => d + ta.occ < size → pk < size →
    (w.peak < size → visit size ta tb d mx nc pk = w) ∧
      (size ≤ w.peak → (visit size ta tb d mx nc pk).stop = some ⟨-1, none, none⟩))
    ?_ ?_ ?_ ?_ ?_ ?_ ta tb d mx nc pk
  · intro ta tb d mx nc pk h _ hpk
    have e : visit size ta tb d mx nc pk = ⟨none, mx, nc, pk⟩ := by
      rcases h with h | h
      · subst h; simp [visit]
      · subst h; cases ta <;> simp [visit]
    simp only
    exact ⟨fun _ => e, fun h => absurd h (by omega)⟩
  · intro la ka ra lb kb rb d mx nc pk hk _ hpk
    simp only
    exact ⟨fun _ => visit_node_keys _ _ _ _ _ _ _ _ _ _ _ hk, fun h => absurd h (by omega)⟩
  · intro la k ra lb rb d mx nc pk r i1 pk1 h1 _ hpk
    obtain ⟨e1, e2⟩ := apush_zero_some size _ _ _ _ _ _ _ h1
    simp only
    exact ⟨fun _ => visit_node_left_ret _ _ _ _ _ _ _ _ _ _ _ _ _ e1,
      fun h => absurd h (by omega)⟩
  · intro la k ra lb rb d mx nc pk i1 pk1 r i2 pk2 h1 h2 hd hpk
    simp only [Tree.occ] at hd
    obtain ⟨e2, e2p⟩ := apush_zero_some size _ _ _ _ _ _ _ h2
    have e1 : apush size la lb d pk = (none, i1, pk1) ∧ pk1 < size := by
      rcases apush_zero_none size _ _ _ _ _ _ h1 with ⟨-, -, hp, e⟩ | ⟨-, -, hp, e⟩
      · exact ⟨e, by omega⟩
      · rw [if_neg (by omega)] at e
        exact ⟨e, by rw [hp]; exact max_lt hpk (by omega)⟩
    simp only
    exact ⟨fun _ => visit_node_right_ret _ _ _ _ _ _ _ _ _ _ _ _ _ _ _ e1.1 e2,
      fun h => absurd h (by omega)⟩
  · intro la k ra lb rb d mx nc pk i1 pk1 i2 pk2 wr r h1 h2 hwr hs ih hd hpk
    simp only [Tree.occ] at hd
    have e1 : apush size la lb d pk = (none, i1, pk1) ∧ pk1 < size ∧ i1 < size := by
      rcases apush_zero_none size _ _ _ _ _ _ h1 with ⟨-, hi, hp, e⟩ | ⟨-, hi, hp, e⟩
      · exact ⟨e, by omega, by omega⟩
      · rw [if_neg (by omega)] at e
        exact ⟨e, by rw [hp]; exact max_lt hpk (by omega), by omega⟩
    obtain ⟨e1, hpk1, hi1⟩ := e1
    have hmono : pk2 ≤ wr.peak := by rw [hwr]; exact visit_peak_mono _ _ _ _ _ _ _
    rcases apush_zero_none size _ _ _ _ _ _ h2 with ⟨hnil, hi, hp, e⟩ | ⟨hne, hi, hp, e⟩
    · have ih1 := ih (by rw [hnil]; simpa [Tree.occ] using hi1) (by omega)
      constructor
      · intro hlt
        have e3 := ih1.1 hlt
        rw [visit_node_right_stop _ _ _ _ _ _ _ _ _ _ _ _ _ _ _ e1 e (by rw [e3]; exact hs)]
        exact e3
      · intro hge
        have e3 := ih1.2 hge
        rw [visit_node_right_stop _ _ _ _ _ _ _ _ _ _ _ _ _ _ _ e1 e e3]
        exact e3
    · by_cases hov : i1 + 1 = size
      · rw [if_pos hov] at e
        constructor
        · intro hlt
          have : size ≤ pk2 := by rw [hp, ← hov]; exact le_max_right _ _
          omega
        · intro _
          rw [visit_node_right_ret _ _ _ _ _ _ _ _ _ _ _ _ _ _ _ e1 e]
      · rw [if_neg hov] at e
        have hocc : ra.occ = 1 := by cases ra <;> simp [Tree.occ] at hne ⊢
        have ih1 := ih (by omega) (by rw [hp]; exact max_lt hpk1 (by omega))
        constructor
        · intro hlt
          have e3 := ih1.1 hlt
          rw [visit_node_right_stop _ _ _ _ _ _ _ _ _ _ _ _ _ _ _ e1 e (by rw [e3]; exact hs)]
          exact e3
        · intro hge
          have e3 := ih1.2 hge
          rw [visit_node_right_stop _ _ _ _ _ _ _ _ _ _ _ _ _ _ _ e1 e e3]
          exact e3
  · intro la k ra lb rb d mx nc pk i1 pk1 i2 pk2 wr wl h1 h2 hwr hwl hs ihr ihl hd hpk
    simp only [Tree.occ] at hd
    have e1 : apush size la lb d pk = (none, i1, pk1) ∧ pk1 < size ∧ i1 < size ∧
        d + la.occ < size := by
      rcases apush_zero_none size _ _ _ _ _ _ h1 with ⟨hnil, hi, hp, e⟩ | ⟨-, hi, hp, e⟩
      · exact ⟨e, by omega, by omega, by rw [hnil]; simp [Tree.occ]; omega⟩
      · rw [if_neg (by omega)] at e
        exact ⟨e, by rw [hp]; exact max_lt hpk (by omega), by omega,
          by cases la <;> simp [Tree.occ] <;> omega⟩
    obtain ⟨e1, hpk1, hi1, hdl⟩ := e1
    have hmono : pk2 ≤ wr.peak := by rw [hwr]; exact visit_peak_mono _ _ _ _ _ _ _
    have hmono2 : wr.peak ≤ wl.peak := by rw [hwl]; exact visit_peak_mono _ _ _ _ _ _ _
    have key : ∀ (e : apush size ra rb i1 pk1 = (none, i2, pk2)),
        ((wr.peak < size → visit size ra rb i1 (if d + 1 > mx then d + 1 else mx)
            ((nc + 1) % 2 ^ 64) pk2 = wr) ∧
          (size ≤ wr.peak → (visit size ra rb i1 (if d + 1 > mx then d + 1 else mx)
            ((nc + 1) % 2 ^ 64) pk2).stop = some ⟨-1, none, none⟩)) →
        (wl.peak < size → visit size (Tree.node la k ra) (Tree.node lb k rb) d mx nc pk = wl) ∧
          (size ≤ wl.peak → (visit size (Tree.node la k ra) (Tree.node lb k rb) d mx nc
            pk).stop = some ⟨-1, none, none⟩) := by
      intro e ih1
      by_cases hr : wr.peak < size
      · have e3 := ih1.1 hr
        have ih2 := ihl hdl hr
        rw [visit_node_right_done _ _ _ _ _ _ _ _ _ _ _ _ _ _ e1 e (by rw [e3]; exact hs), e3]
        exact ih2
      · have e3 := ih1.2 (by omega)
        constructor
        · intro hlt
          omega
        · intro _
          rw [visit_node_right_stop _ _ _ _ _ _ _ _ _ _ _ _ _ _ _ e1 e e3]
          exact e3
    rcases apush_zero_none size _ _ _ _ _ _ h2 with ⟨hnil, hi, hp, e⟩ | ⟨hne, hi, hp, e⟩
    · exact key e (ihr (by rw [hnil]; simpa [Tree.occ] using hi1) (by omega))
    · by_cases hov : i1 + 1 = size
      · rw [if_pos hov] at e
        constructor
        · intro hlt
          have : size ≤ pk2 := by rw [hp, ← hov]; exact le_max_right _ _
          omega
        · intro _
          rw [visit_node_right_ret _ _ _ _ _ _ _ _ _ _ _ _ _ _ _ e1 e]
      · rw [if_neg hov] at e
        have hocc : ra.occ = 1 := by cases ra <;> simp [Tree.occ] at hne ⊢
        exact key e (ihr (by omega) (by rw [hp]; exact max_lt hpk1 (by omega)))

theorem cheight_le_left (ta : Tree) : ∀ tb, Tree.cheight ta tb ≤ ta.height := by
  induction ta with
  | nil => intro tb; simp [Tree.cheight]
  | node la ka ra ihl ihr =>
    intro tb
    cases tb with
    | nil => simp [Tree.cheight]
    | node lb kb rb =>
      simp only [Tree.cheight, Tree.height]
      have := ihl lb
      have := ihr rb
      omega

theorem cheight_le_right (ta : Tree) : ∀ tb, Tree.cheight ta tb ≤ tb.height := by
  induction ta with
  | nil => intro tb; simp [Tree.cheight]
  | node la ka ra ihl ihr =>
    intro tb
    cases tb with
    | nil => simp [Tree.cheight]
    | node lb kb rb =>
      simp only [Tree.cheight, Tree.height]
      have := ihl lb
      have := ihr rb
      omega

theorem paired_le_size (ta : Tree) : ∀ tb, Tree.paired ta tb ≤ ta.size := by
  induction ta with
  | nil => intro tb; simp [Tree.paired]
  | node la ka ra ihl ihr =>
    intro tb
    cases tb with
    | nil => simp [Tree.paired]
    | node lb kb rb =>
      simp only [Tree.paired, Tree.size]
      have := ihl lb
      have := ihr rb
      omega

@[simp]
theorem occ_nil : Tree.nil.occ = 0 := rfl

@[simp]
theorem occ_node (l r : Tree) (k : Nat) : (Tree.node l k r).occ = 1 := rfl

theorem top_max (d mx : Nat) : (if d + 1 > mx then d + 1 else mx) = max mx (d + 1) := by
  split <;> omega

theorem apush_none_bound (size : Nat) (ca cb : Tree) (i pk : Nat) (i1 pk1 : Nat)
    (h : apush size ca cb i pk = (none, i1, pk1)) :
    i1 = i + ca.occ ∧ ca.occ ≤ 1 ∧ ca.occ ≤ Tree.cheight ca cb ∧ pk ≤ pk1 ∧
      pk1 ≤ max pk i1 ∧ (ca.occ = 1 → i1 ≤ pk1) := by
  cases ca <;> cases cb <;> simp [apush, Tree.cheight] at h ⊢
  · obtain ⟨h1, h2⟩ := h
    subst h1 h2
    simp
  · obtain ⟨_, h1, h2⟩ := h
    subst h1 h2
    simp
    omega

theorem apush_some_bound (size : Nat) (ca cb : Tree) (i pk : Nat) (r : diff_output) (i1 pk1 : Nat)
    (h : apush size ca cb i pk = (some r, i1, pk1)) :
    pk1 ≤ max pk (i + ca.occ) ∧ ca.occ ≤ Tree.cheight ca cb + 1 ∧
      (pk1 = pk ∨ (0 < Tree.cheight ca cb ∧ ca.occ = 1)) := by
  cases ca <;> cases cb <;> simp [apush, Tree.cheight] at h ⊢
  · simp [h.2.2]
  · simp [h.2.2]
  · simp [← h.2.2]
    omega

/-- While the pair at stack index `d` and everything below it is walked, the
stacks never hold more than `d` plus the number of common levels. -/
theorem visit_peak_le (size : Nat) (ta tb : Tree) (d mx nc pk : Nat) :
    (visit size ta tb d mx nc pk).peak ≤ max pk (d + Tree.cheight ta tb) := by
  refine visit_cases size (fun ta tb d _ _ pk w => w.peak ≤ max pk (d + Tree.cheight ta tb))
    ?_ ?_ ?_ ?_ ?_ ?_ ta tb d mx nc pk
  · intros; simp
  · intros; simp
  · intro la k ra lb rb d mx nc pk r i1 pk1 h1
    obtain ⟨b1, b2, b3⟩ := apush_some_bound _ _ _ _ _ _ _ _ h1
    simp only [Tree.cheight]
    omega
  · intro la k ra lb rb d mx nc pk i1 pk1 r i2 pk2 h1 h2
    obtain ⟨a1, a2, a3, -, a5, -⟩ := apush_none_bound _ _ _ _ _ _ _ h1
    obtain ⟨b1, b2, b3⟩ := apush_some_bound _ _ _ _ _ _ _ _ h2
    simp only [Tree.cheight]
    omega
  · intro la k ra lb rb d mx nc pk i1 pk1 i2 pk2 wr r h1 h2 _ _ ih
    obtain ⟨a1, a2, a3, -, a5, -⟩ := apush_none_bound _ _ _ _ _ _ _ h1
    obtain ⟨b1, b2, b3, -, b5, -⟩ := apush_none_bound _ _ _ _ _ _ _ h2
    simp only [Tree.cheight] at ih ⊢
    have h3 : pk2 ≤ max pk (d + (max (Tree.cheight la lb) (Tree.cheight ra rb) + 1)) := by
      omega
    omega
  · intro la k ra lb rb d mx nc pk i1 pk1 i2 pk2 wr wl h1 h2 _ _ _ ihr ihl
    obtain ⟨a1, a2, a3, -, a5, -⟩ := apush_none_bound _ _ _ _ _ _ _ h1
    obtain ⟨b1, b2, b3, -, b5, -⟩ := apush_none_bound _ _ _ _ _ _ _ h2
    simp only [Tree.cheight] at ihr ihl ⊢
    have h3 : pk2 ≤ max pk (d + (max (Tree.cheight la lb) (Tree.cheight ra rb) + 1)) := by
      omega
    have h4 : wr.peak ≤ max pk (d + (max (Tree.cheight la lb) (Tree.cheight ra rb) + 1)) := by
      omega
    omega

/-- The `max_idx` counter only records indices that were reached. -/
theorem visit_max_idx_le (size : Nat) (ta tb : Tree) (d mx nc pk : Nat) :
    mx ≤ (visit size ta tb d mx nc pk).max_idx ∧
      (visit size ta tb d mx nc pk).max_idx ≤
        max (max mx (d + ta.occ)) (visit size ta tb d mx nc pk).peak := by
  refine visit_cases size (fun ta _ d mx _ _ w => mx ≤ w.max_idx ∧
    w.max_idx ≤ max (max mx (d + ta.occ)) w.peak) ?_ ?_ ?_ ?_ ?_ ?_ ta tb d mx nc pk
  · intros; simp
  · intros; simp only [occ_node, top_max]; omega
  · intros; simp only [occ_node, top_max]; omega
  · intros; simp only [occ_node, top_max]; omega
  · intro la k ra lb rb d mx nc pk i1 pk1 i2 pk2 wr r h1 h2 hwr _ ih
    obtain ⟨a1, a2, -, -, -, -⟩ := apush_none_bound _ _ _ _ _ _ _ h1
    obtain ⟨b1, b2, -, -, -, b6⟩ := apush_none_bound _ _ _ _ _ _ _ h2
    have hm : pk2 ≤ wr.peak := by rw [hwr]; exact visit_peak_mono _ _ _ _ _ _ _
    simp only [occ_node, top_max] at ih ⊢
    have hi : i1 + ra.occ ≤ max (d + 1) wr.peak := by omega
    omega
  · intro la k ra lb rb d mx nc pk i1 pk1 i2 pk2 wr wl h1 h2 hwr hwl _ ihr ihl
    obtain ⟨a1, a2, -, -, -, -⟩ := apush_none_bound _ _ _ _ _ _ _ h1
    obtain ⟨b1, b2, -, -, -, b6⟩ := apush_none_bound _ _ _ _ _ _ _ h2
    have hm : pk2 ≤ wr.peak := by rw [hwr]; exact visit_peak_mono _ _ _ _ _ _ _
    have hm2 : wr.peak ≤ wl.peak := by rw [hwl]; exact visit_peak_mono _ _ _ _ _ _ _
    simp only [occ_node, top_max] at ihr ihl ⊢
    have hi : i1 + ra.occ ≤ max (d + 1) wr.peak := by omega
    have h3 : wr.max_idx ≤ max (max mx (d + 1)) wr.peak := by omega
    have h4 : wl.max_idx ≤ max (max wr.max_idx (d + 1)) wl.peak := by omega
    omega

/-- In a completed walk every index reached was recorded in `max_idx`. -/
theorem visit_peak_le_max_idx (size : Nat) (ta tb : Tree) (d mx nc pk : Nat)
    (h : (visit size ta tb d mx nc pk).stop = none) :
    (visit size ta tb d mx nc pk).peak ≤ max (visit size ta tb d mx nc pk).max_idx pk ∧
      (ta ≠ Tree.nil → tb ≠ Tree.nil → d + 1 ≤ (visit size ta tb d mx nc pk).max_idx) := by
  revert h
  refine visit_cases size (fun ta tb d _ _ pk w => w.stop = none →
    w.peak ≤ max w.max_idx pk ∧ (ta ≠ Tree.nil → tb ≠ Tree.nil → d + 1 ≤ w.max_idx))
    ?_ ?_ ?_ ?_ ?_ ?_ ta tb d mx nc pk
  · intro ta tb d mx nc pk h _
    refine ⟨by simp, ?_⟩
    intro h1 h2
    rcases h with h | h
    · exact absurd h h1
    · exact absurd h h2
  · intro la ka ra lb kb rb d mx nc pk _ h; simp at h
  · intro la k ra lb rb d mx nc pk r i1 pk1 _ h; simp at h
  · intro la k ra lb rb d mx nc pk i1 pk1 r i2 pk2 _ _ h; simp at h
  · intro la k ra lb rb d mx nc pk i1 pk1 i2 pk2 wr r _ _ _ hs _ h
    rw [hs] at h; simp at h
  · intro la k ra lb rb d mx nc pk i1 pk1 i2 pk2 wr wl h1 h2 hwr hwl hs ihr ihl hl
    obtain ⟨a1, a2, -, -, a5, -⟩ := apush_none_bound _ _ _ _ _ _ _ h1
    obtain ⟨b1, b2, -, -, b5, -⟩ := apush_none_bound _ _ _ _ _ _ _ h2
    obtain ⟨e1, -⟩ := apush_none _ _ _ _ _ _ _ h2
    obtain ⟨r1, r2⟩ := ihr hs
    obtain ⟨l1, -⟩ := ihl hl
    have m1 : max mx (d + 1) ≤ wr.max_idx := by
      rw [hwr, ← top_max]; exact (visit_max_idx_le _ _ _ _ _ _ _).1
    have m2 : wr.max_idx ≤ wl.max_idx := by
      rw [hwl]; exact (visit_max_idx_le _ _ _ _ _ _ _).1
    have r3 : i1 + ra.occ ≤ wr.max_idx := by
      cases ra with
      | nil => simp only [occ_nil]; omega
      | node l k r =>
        simp only [occ_node]
        apply r2 (by simp)
        intro hn
        have := e1.2 hn
        simp at this
    have d1 : d + 1 ≤ wl.max_idx := by omega
    refine ⟨?_, fun _ _ => d1⟩
    have p2 : pk2 ≤ max wl.max_idx pk := by omega
    have p3 : wr.peak ≤ max wl.max_idx pk := by omega
    omega

/-- The three ways `tree_is_identical` ends on a pair of finite trees. -/
theorem compare_trees_cases (size : Nat) (ta tb : Tree) :
    ((compare_trees size ta tb).ret = 1 ∧ ta = tb ∧ (compare_trees size ta tb).keys_differ = none ∧
        (ta ≠ Tree.nil → ∃ mx, (compare_trees size ta tb).stats = some (mx, ta.size % 2 ^ 64))) ∨
      ((compare_trees size ta tb).ret = 0 ∧ ta ≠ tb ∧ (compare_trees size ta tb).stats = none) ∨
      (compare_trees size ta tb = ⟨-1, none, none⟩ ∧ size ≠ 0) := by
  cases ta with
  | nil =>
    cases tb with
    | nil => simp [compare_trees]
    | node lb kb rb => simp [compare_trees]
  | node la ka ra =>
    cases tb with
    | nil => simp [compare_trees]
    | node lb kb rb =>
      simp only [compare_trees]
      cases hs : (visit size (Tree.node la ka ra) (Tree.node lb kb rb) 0 0 0 1).stop with
      | some r =>
        simp only
        rcases visit_stop _ _ _ _ _ _ _ _ hs with ⟨h1, h2⟩ | ⟨h1, h2, h3⟩
        · exact Or.inr (Or.inr ⟨h1, h2⟩)
        · exact Or.inr (Or.inl ⟨h1, h3, h2⟩)
      | none =>
        simp only
        obtain ⟨h1, h2⟩ := visit_done _ _ _ _ _ _ _ (by simp) (by norm_num) hs
        refine Or.inl ⟨trivial, h1, trivial, fun _ =>
          ⟨(visit size (Tree.node la ka ra) (Tree.node lb kb rb) 0 0 0 1).max_idx, ?_⟩⟩
        rw [h2, Nat.zero_add]

theorem stack_need_le_cheight (ta tb : Tree) : stack_need ta tb ≤ Tree.cheight ta tb := by
  cases ta with
  | nil => cases tb <;> simp [stack_need]
  | node la ka ra =>
    cases tb with
    | nil => simp [stack_need]
    | node lb kb rb =>
      simp only [stack_need]
      have h := visit_peak_le 0 (Tree.node la ka ra) (Tree.node lb kb rb) 0 0 0 1
      simp only [Tree.cheight] at h ⊢
      omega

/-- With a stack of `size ≥ 2` entries the comparison returns the overflow
signal exactly when the comparison without a capacity check would hold `size`
or more pairs at some moment; otherwise the two agree. -/
theorem compare_trees_capped (size : Nat) (hsize : 2 ≤ size) (ta tb : Tree) :
    compare_trees size ta tb =
      if size ≤ stack_need ta tb then ⟨-1, none, none⟩ else compare_trees 0 ta tb := by
  cases ta with
  | nil =>
    cases tb with
    | nil =>
      have : ¬ size ≤ 0 := by omega
      simp [compare_trees, stack_need, this]
    | node lb kb rb =>
      have : ¬ size ≤ 0 := by omega
      simp [compare_trees, stack_need, this]
  | node la ka ra =>
    cases tb with
    | nil =>
      have : ¬ size ≤ 0 := by omega
      simp [compare_trees, stack_need, this]
    | node lb kb rb =>
      obtain ⟨h1, h2⟩ := visit_capped size (Tree.node la ka ra) (Tree.node lb kb rb) 0 0 0 1
        (by simp; omega) (by omega)
      by_cases h : size ≤ stack_need (Tree.node la ka ra) (Tree.node lb kb rb)
      · rw [if_pos h]
        simp only [stack_need] at h
        simp only [compare_trees, h2 h]
      · rw [if_neg h]
        simp only [stack_need] at h
        simp only [compare_trees, h1 (by omega)]

/-- When the comparison completes, the `maximum stack size` it prints is the
number of pairs the stacks needed. -/
theorem compare_trees_stats (size : Nat) (ta tb : Tree) (mx n : Nat)
    (h : (compare_trees size ta tb).stats = some (mx, n)) :
    mx = (visit size ta tb 0 0 0 1).peak ∧ n = ta.size % 2 ^ 64 := by
  cases ta with
  | nil => cases tb <;> simp [compare_trees] at h
  | node la ka ra =>
    cases tb with
    | nil => simp [compare_trees] at h
    | node lb kb rb =>
      simp only [compare_trees] at h
      cases hs : (visit size (Tree.node la ka ra) (Tree.node lb kb rb) 0 0 0 1).stop with
      | some r =>
        rw [hs] at h
        simp only at h
        rcases visit_stop _ _ _ _ _ _ _ _ hs with ⟨h1, -⟩ | ⟨-, h2, -⟩
        · rw [h1] at h; simp at h
        · rw [h2] at h; simp at h
      | none =>
        rw [hs] at h
        simp only [Option.some.injEq, Prod.mk.injEq] at h
        obtain ⟨-, h2⟩ := visit_done _ _ _ _ _ _ _ (by simp) (by norm_num) hs
        obtain ⟨p1, p2⟩ := visit_peak_le_max_idx _ _ _ _ _ _ _ hs
        have p3 := (visit_max_idx_le size (Tree.node la ka ra) (Tree.node lb kb rb) 0 0 0 1).2
        have p4 := visit_peak_mono size (Tree.node la ka ra) (Tree.node lb kb rb) 0 0 0 1
        have p5 := p2 (by simp) (by simp)
        simp only [occ_node] at p3
        refine ⟨?_, ?_⟩
        · rw [← h.1]; omega
        · rw [← h.2, h2, Nat.zero_add]

theorem set_key_nil_iff (t : Tree) (p : List Dir) (v : Nat) :
    t = Tree.nil ↔ t.set_key p v = Tree.nil := by
  cases t with
  | nil => simp [Tree.set_key]
  | node l k r =>
    cases p with
    | nil => simp [Tree.set_key]
    | cons c p => cases c <;> simp [Tree.set_key]

theorem apush_compat (size : Nat) (ca cb : Tree) (i pk : Nat) (o : Option diff_output)
    (i1 pk1 : Nat) (hc : ca = Tree.nil ↔ cb = Tree.nil)
    (h : apush size ca cb i pk = (o, i1, pk1)) : o = none ∨ o = some ⟨-1, none, none⟩ := by
  cases ca <;> cases cb <;> simp [apush] at h hc ⊢
  · exact Or.inl h.1.symm
  · obtain ⟨h1, -⟩ := h
    by_cases hs : i + 1 = size
    · rw [if_pos hs] at h1; exact Or.inr h1.symm
    · rw [if_neg hs] at h1; exact Or.inl h1.symm

/-- On two equal trees the walk completes or returns the overflow signal. -/
theorem visit_self (size : Nat) (t : Tree) (d mx nc pk : Nat) :
    (visit size t t d mx nc pk).stop = none ∨
      (visit size t t d mx nc pk).stop = some ⟨-1, none, none⟩ := by
  cases hs : (visit size t t d mx nc pk).stop with
  | none => exact Or.inl rfl
  | some r =>
    rcases visit_stop _ _ _ _ _ _ _ _ hs with ⟨h1, -⟩ | ⟨-, -, h3⟩
    · exact Or.inr (by rw [h1])
    · exact absurd rfl h3

/-- When one key of the second tree was replaced by a different value, the
walk returns: with the two keys of that position, or with the overflow signal. -/
theorem visit_set_key (size : Nat) (t : Tree) : ∀ (p : List Dir) (k v d mx nc pk : Nat),
    t.key_at p = some k → v ≠ k →
    (visit size t (t.set_key p v) d mx nc pk).stop = some ⟨0, some (k, v), none⟩ ∨
      (visit size t (t.set_key p v) d mx nc pk).stop = some ⟨-1, none, none⟩ := by
  induction t with
  | nil => intro p k v d mx nc pk h; simp [Tree.key_at] at h
  | node l x r ihl ihr =>
    intro p k v d mx nc pk h hv
    cases p with
    | nil =>
      simp only [Tree.key_at, Option.some.injEq] at h
      subst h
      simp only [Tree.set_key]
      rw [visit_node_keys _ _ _ _ _ _ _ _ _ _ _ (fun e => hv e.symm)]
      exact Or.inl rfl
    | cons c p =>
      cases c with
      | left =>
        simp only [Tree.key_at] at h
        simp only [Tree.set_key]
        rcases h1 : apush size l (l.set_key p v) d pk with ⟨o1, i1, pk1⟩
        rcases apush_compat _ _ _ _ _ _ _ _ (set_key_nil_iff l p v) h1 with e | e
        · subst e
          rcases h2 : apush size r r i1 pk1 with ⟨o2, i2, pk2⟩
          rcases apush_compat _ _ _ _ _ _ _ _ Iff.rfl h2 with e | e
          · subst e
            rcases visit_self size r i1 (if d + 1 > mx then d + 1 else mx)
              ((nc + 1) % 2 ^ 64) pk2 with hr | hr
            · rw [visit_node_right_done _ _ _ _ _ _ _ _ _ _ _ _ _ _ h1 h2 hr]
              exact ihl _ _ _ _ _ _ _ h hv
            · rw [visit_node_right_stop _ _ _ _ _ _ _ _ _ _ _ _ _ _ _ h1 h2 hr]
              exact Or.inr hr
          · subst e
            rw [visit_node_right_ret _ _ _ _ _ _ _ _ _ _ _ _ _ _ _ h1 h2]
            exact Or.inr rfl
        · subst e
          rw [visit_node_left_ret _ _ _ _ _ _ _ _ _ _ _ _ _ h1]
          exact Or.inr rfl
      | right =>
        simp only [Tree.key_at] at h
        simp only [Tree.set_key]
        rcases h1 : apush size l l d pk with ⟨o1, i1, pk1⟩
        rcases apush_compat _ _ _ _ _ _ _ _ Iff.rfl h1 with e | e
        · subst e
          rcases h2 : apush size r (r.set_key p v) i1 pk1 with ⟨o2, i2, pk2⟩
          rcases apush_compat _ _ _ _ _ _ _ _ (set_key_nil_iff r p v) h2 with e | e
          · subst e
            rcases ihr p k v i1 (if d + 1 > mx then d + 1 else mx)
              ((nc + 1) % 2 ^ 64) pk2 h hv with hr | hr
            · rw [visit_node_right_stop _ _ _ _ _ _ _ _ _ _ _ _ _ _ _ h1 h2 hr]
              exact Or.inl hr
            · rw [visit_node_right_stop _ _ _ _ _ _ _ _ _ _ _ _ _ _ _ h1 h2 hr]
              exact Or.inr hr
          · subst e
            rw [visit_node_right_ret _ _ _ _ _ _ _ _ _ _ _ _ _ _ _ h1 h2]
            exact Or.inr rfl
        · subst e
          rw [visit_node_left_ret _ _ _ _ _ _ _ _ _ _ _ _ _ h1]
          exact Or.inr rfl

theorem cheight_self (t : Tree) : Tree.cheight t t = t.height := by
  induction t with
  | nil => rfl
  | node l k r ihl ihr => simp [Tree.cheight, Tree.height, ihl, ihr]

theorem paired_self (t : Tree) : Tree.paired t t = t.size := by
  induction t with
  | nil => rfl
  | node l k r ihl ihr => simp [Tree.paired, Tree.size, ihl, ihr]

theorem read64_mem_of_words (w : Nat → Nat) (a : Nat) (h : a % 8 = 0) :
    read64 (mem_of_words w) a = w (a / 8) % 2 ^ 64 := by
  have e : ∀ i, i < 8 → (a + i) / 8 = a / 8 ∧ (a + i) % 8 = i := by
    intro i hi; omega
  have e0 : a / 8 = a / 8 ∧ a % 8 = 0 := ⟨rfl, h⟩
  simp only [read64, mem_of_words, (e 1 (by omega)).1, (e 1 (by omega)).2,
    (e 2 (by omega)).1, (e 2 (by omega)).2, (e 3 (by omega)).1, (e 3 (by omega)).2,
    (e 4 (by omega)).1, (e 4 (by omega)).2, (e 5 (by omega)).1, (e 5 (by omega)).2,
    (e 6 (by omega)).1, (e 6 (by omega)).2, (e 7 (by omega)).1, (e 7 (by omega)).2, h]
  norm_num
  omega

theorem deep_get_key (r e : Nat) (hr : r < 3) (he : e ≤ 2046) :
    tree_node_get_key deep_mem info_front (65536 * (r + 1) + 32 * e) = deep_key r e := by
  have hk : (65536 * (r + 1) + 32 * e - 0 + 16) / 8 = 8192 * (r + 1) + 4 * e + 2 := by omega
  simp only [tree_node_get_key, info_front, deep_mem]
  rw [read64_mem_of_words _ _ (by omega), hk]
  have h1 : (8192 * (r + 1) + 4 * e + 2) % 8192 / 4 = e := by omega
  have h2 : (8192 * (r + 1) + 4 * e + 2) % 4 = 2 := by omega
  have h3 : (8192 * (r + 1) + 4 * e + 2) / 8192 - 1 = r := by omega
  have h4 : 8192 ≤ 8192 * (r + 1) + 4 * e + 2 ∧ 8192 * (r + 1) + 4 * e + 2 < 32768 := by omega
  have h5 : ¬ 2046 < e := by omega
  have h6 : 8192 * (r + 1) + 4 * e + 2 ≠ 1 := by omega
  have h7 : 8192 * (r + 1) + 4 * e + 2 ≠ 2 := by omega
  have h8 : 8192 * (r + 1) + 4 * e + 2 ≠ 3 := by omega
  simp only [deep_word, h1, h2, h3, h4, h5, h6, h7, h8, and_self, if_true, if_false]
  apply Nat.mod_eq_of_lt
  unfold deep_key
  split <;> omega

theorem deep_get_left (r e : Nat) (hr : r < 3) (he : e ≤ 2046) :
    tree_node_get_left deep_mem info_front (65536 * (r + 1) + 32 * e) =
      if e % 2 = 1 ∨ e = 2046 then 0 else 65536 * (r + 1) + 32 * (e + 1) := by
  have hk : (65536 * (r + 1) + 32 * e + 0) / 8 = 8192 * (r + 1) + 4 * e := by omega
  simp only [tree_node_get_left, info_front, deep_mem]
  rw [read64_mem_of_words _ _ (by omega), hk]
  have h1 : (8192 * (r + 1) + 4 * e) % 8192 / 4 = e := by omega
  have h2 : (8192 * (r + 1) + 4 * e) % 4 = 0 := by omega
  have h3 : (8192 * (r + 1) + 4 * e) / 8192 = r + 1 := by omega
  have h4 : 8192 ≤ 8192 * (r + 1) + 4 * e ∧ 8192 * (r + 1) + 4 * e < 32768 := by omega
  have h5 : ¬ 2046 < e := by omega
  have h6 : 8192 * (r + 1) + 4 * e ≠ 1 := by omega
  have h7 : 8192 * (r + 1) + 4 * e ≠ 2 := by omega
  have h8 : 8192 * (r + 1) + 4 * e ≠ 3 := by omega
  by_cases hl : e % 2 = 1 ∨ e = 2046
  · simp [deep_word, h1, h2, h3, h4, h5, h6, h7, h8, hl]
  · simp only [deep_word, h1, h2, h3, h4, h5, h6, h7, h8, hl, and_self, if_true, if_false]
    norm_num
    omega

theorem deep_get_right (r e : Nat) (hr : r < 3) (he : e ≤ 2046) :
    tree_node_get_right deep_mem info_front (65536 * (r + 1) + 32 * e) =
      if e % 2 = 1 ∨ e = 2046 then 0 else 65536 * (r + 1) + 32 * (e + 2) := by
  have hk : (65536 * (r + 1) + 32 * e + 8) / 8 = 8192 * (r + 1) + 4 * e + 1 := by omega
  simp only [tree_node_get_right, info_front, deep_mem]
  rw [read64_mem_of_words _ _ (by omega), hk]
  have h1 : (8192 * (r + 1) + 4 * e + 1) % 8192 / 4 = e := by omega
  have h2 : (8192 * (r + 1) + 4 * e + 1) % 4 = 1 := by omega
  have h3 : (8192 * (r + 1) + 4 * e + 1) / 8192 = r + 1 := by omega
  have h4 : 8192 ≤ 8192 * (r + 1) + 4 * e + 1 ∧ 8192 * (r + 1) + 4 * e + 1 < 32768 := by omega
  have h5 : ¬ 2046 < e := by omega
  have h6 : 8192 * (r + 1) + 4 * e + 1 ≠ 1 := by omega
  have h7 : 8192 * (r + 1) + 4 * e + 1 ≠ 2 := by omega
  have h8 : 8192 * (r + 1) + 4 * e + 1 ≠ 3 := by omega
  by_cases hl : e % 2 = 1 ∨ e = 2046
  · simp [deep_word, h1, h2, h3, h4, h5, h6, h7, h8, hl]
  · simp only [deep_word, h1, h2, h3, h4, h5, h6, h7, h8, hl, and_self, if_true, if_false]
    norm_num
    omega

theorem deep_leaf (r e : Nat) (hr : r < 3) (he : e ≤ 2046) (hl : e % 2 = 1 ∨ e = 2046) :
    IsTree deep_mem info_front (65536 * (r + 1) + 32 * e)
      (Tree.node Tree.nil (deep_key r e) Tree.nil) := by
  refine ⟨by omega, Nat.zero_le _, deep_get_key r e hr he, ?_, ?_⟩
  · rw [deep_get_left r e hr he, if_pos hl]; rfl
  · rw [deep_get_right r e hr he, if_pos hl]; rfl

/-- Region `r` of `deep_mem` holds a comb. -/
theorem deep_comb (r : Nat) (hr : r < 3) : ∀ (n e : Nat), e + 2 * n = 2046 →
    IsTree deep_mem info_front (65536 * (r + 1) + 32 * e) (comb (deep_key r) n e) := by
  intro n
  induction n with
  | zero =>
    intro e he
    exact deep_leaf r e hr (by omega) (Or.inr (by omega))
  | succ n ih =>
    intro e he
    have hl : ¬ (e % 2 = 1 ∨ e = 2046) := by omega
    refine ⟨by omega, Nat.zero_le _, deep_get_key r e hr (by omega), ?_, ?_⟩
    · rw [deep_get_left r e hr (by omega), if_neg hl]
      exact deep_leaf r (e + 1) hr (by omega) (Or.inl (by omega))
    · rw [deep_get_right r e hr (by omega), if_neg hl]
      exact ih (e + 2) (by omega)

theorem deep_root (r : Nat) (hr : r < 3) :
    tree_root_get_node deep_mem info_front (8 * (r + 1)) = 65536 * (r + 1) + 32 * 0 := by
  simp only [tree_root_get_node, info_front, deep_mem]
  rw [read64_mem_of_words _ _ (by omega)]
  have : r = 0 ∨ r = 1 ∨ r = 2 := by omega
  rcases this with h | h | h <;> subst h <;> decide

theorem comb_size (kf : Nat → Nat) (n : Nat) : ∀ e, (comb kf n e).size = 2 * n + 1 := by
  induction n with
  | zero => intro e; simp [comb, Tree.size]
  | succ n ih => intro e; simp [comb, Tree.size, ih]; omega

theorem comb_height (kf : Nat → Nat) (n : Nat) : ∀ e, (comb kf n e).height = n + 1 := by
  induction n with
  | zero => intro e; simp [comb, Tree.height]
  | succ n ih => intro e; simp [comb, Tree.height, ih]

theorem comb_congr (kf kg : Nat → Nat) (n : Nat) : ∀ e, (∀ j, e ≤ j → kf j = kg j) →
    comb kf n e = comb kg n e := by
  induction n with
  | zero => intro e h; simp [comb, h e (Nat.le_refl _)]
  | succ n ih =>
    intro e h
    simp only [comb, h e (Nat.le_refl _), h (e + 1) (by omega)]
    rw [ih (e + 2) (fun j hj => h j (by omega))]

theorem visit_leaf_peak (size : Nat) (ka kb d mx nc pk : Nat) :
    (visit size (Tree.node Tree.nil ka Tree.nil) (Tree.node Tree.nil kb Tree.nil) d mx nc
      pk).peak = pk := by
  by_cases h : ka = kb <;> simp [visit, apush, h]

/-- Two combs of the same length whose spine keys agree need one stack entry
per spine node. -/
theorem comb_peak (kf kg : Nat → Nat) (n : Nat) : ∀ (e d mx nc pk : Nat),
    (∀ j, j ≤ n → kf (e + 2 * j) = kg (e + 2 * j)) →
    (visit 0 (comb kf n e) (comb kg n e) d mx nc pk).peak =
      if n = 0 then pk else max pk (d + n + 1) := by
  induction n with
  | zero =>
    intro e d mx nc pk _
    simp only [comb, if_true]
    exact visit_leaf_peak _ _ _ _ _ _ _
  | succ n ih =>
    intro e d mx nc pk h
    have hk : kf e = kg e := by simpa using h 0 (Nat.zero_le _)
    have h1 : apush 0 (Tree.node Tree.nil (kf (e + 1)) Tree.nil)
        (Tree.node Tree.nil (kg (e + 1)) Tree.nil) d pk = (none, d + 1, max pk (d + 1)) := by
      simp [apush]
    have h2 : apush 0 (comb kf n (e + 2)) (comb kg n (e + 2)) (d + 1) (max pk (d + 1)) =
        (none, d + 2, max (max pk (d + 1)) (d + 2)) := by
      cases n <;> simp [comb, apush]
    have ih1 := ih (e + 2) (d + 1) (if d + 1 > mx then d + 1 else mx) ((nc + 1) % 2 ^ 64)
      (max (max pk (d + 1)) (d + 2)) (fun j hj => by
        have := h (j + 1) (by omega)
        rw [show e + 2 * (j + 1) = e + 2 + 2 * j by omega] at this
        exact this)
    simp only [comb, hk]
    cases hs : (visit 0 (comb kf n (e + 2)) (comb kg n (e + 2)) (d + 1)
        (if d + 1 > mx then d + 1 else mx) ((nc + 1) % 2 ^ 64)
        (max (max pk (d + 1)) (d + 2))).stop with
    | some r =>
      rw [visit_node_right_stop _ _ _ _ _ _ _ _ _ _ _ _ _ _ _ h1 h2 hs, ih1]
      simp only [Nat.succ_ne_zero, if_false]
      split <;> omega
    | none =>
      rw [visit_node_right_done _ _ _ _ _ _ _ _ _ _ _ _ _ _ h1 h2 hs, visit_leaf_peak, ih1]
      simp only [Nat.succ_ne_zero, if_false]
      split <;> omega

theorem tree_is_identical_eq (fuel : Nat) (m : Mem) (a b : tree_info) (pa pb : Nat)
    (ta tb : Tree) (ha : IsTree m a (tree_root_get_node m a pa) ta)
    (hb : IsTree m b (tree_root_get_node m b pb) tb) (hf : Tree.paired ta tb < fuel) :
    tree_is_identical fuel m a pa b pb = some (compare_trees STACK_SIZE ta tb) :=
  tree_is_identical_sized_eq STACK_SIZE fuel m a b pa pb ta tb ha hb hf

theorem compare_trees_no_overflow (ta tb : Tree) (h : Tree.cheight ta tb < STACK_SIZE) :
    compare_trees STACK_SIZE ta tb = compare_trees 0 ta tb := by
  rw [compare_trees_capped STACK_SIZE (by decide), if_neg]
  have := stack_need_le_cheight ta tb
  omega

theorem deep_tree_region (r : Nat) (hr : r < 2) : comb (deep_key r) 1023 0 = deep_tree := by
  apply comb_congr
  intro j _
  have : r = 0 ∨ r = 1 := by omega
  rcases this with h | h <;> subst h <;> simp [deep_key]

theorem deep_tree_root (r : Nat) (hr : r < 2) :
    IsTree deep_mem info_front (tree_root_get_node deep_mem info_front (8 * (r + 1)))
      deep_tree := by
  rw [deep_root r (by omega), ← deep_tree_region r hr]
  exact deep_comb r (by omega) 1023 0 (by norm_num)

theorem comb_set_left (kf kg : Nat → Nat) (n e v : Nat) (h0 : kg e = kf e)
    (h1 : kg (e + 1) = v) (h : ∀ j, e + 2 ≤ j → kg j = kf j) :
    comb kg (n + 1) e = (comb kf (n + 1) e).set_key [Dir.left] v := by
  simp only [comb, Tree.set_key, h0, h1]
  rw [comb_congr kg kf n (e + 2) h]

theorem comb_key_left (kf : Nat → Nat) (n e : Nat) :
    (comb kf (n + 1) e).key_at [Dir.left] = some (kf (e + 1)) := by
  simp only [comb, Tree.key_at]

theorem comb_need (kf kg : Nat → Nat) (n e : Nat)
    (h : ∀ j, j ≤ n + 1 → kf (e + 2 * j) = kg (e + 2 * j)) :
    stack_need (comb kf (n + 1) e) (comb kg (n + 1) e) = n + 2 := by
  have h1 := comb_peak kf kg (n + 1) e 0 0 0 1 h
  simp only [comb] at h1 ⊢
  simp only [stack_need]
  rw [h1]
  simp only [Nat.succ_ne_zero, if_false]
  omega

theorem deep_tree_changed : comb (deep_key 2) 1023 0 = deep_tree.set_key [Dir.left] 5000 :=
  comb_set_left (deep_key 0) (deep_key 2) 1022 0 5000 (by simp [deep_key]) (by simp [deep_key])
    (fun j hj => by
      simp only [deep_key]
      rw [if_neg (by omega), if_neg (by omega)])

theorem deep_tree_key : deep_tree.key_at [Dir.left] = some 1 :=
  comb_key_left (deep_key 0) 1022 0

theorem deep_tree_changed_root :
    IsTree deep_mem info_front (tree_root_get_node deep_mem info_front 24)
      (deep_tree.set_key [Dir.left] 5000) := by
  rw [show (24 : Nat) = 8 * (2 + 1) by norm_num, deep_root 2 (by omega), ← deep_tree_changed]
  exact deep_comb 2 (by omega) 1023 0 (by norm_num)

theorem deep_tree_need : stack_need deep_tree deep_tree = 1024 :=
  comb_need (deep_key 0) (deep_key 0) 1022 0 (fun _ _ => rfl)

theorem deep_tree_changed_need :
    stack_need deep_tree (deep_tree.set_key [Dir.left] 5000) = 1024 := by
  rw [← deep_tree_changed]
  exact comb_need (deep_key 0) (deep_key 2) 1022 0 (fun j _ => by
    simp only [deep_key]
    rw [if_neg (by omega), if_neg (by omega)])

theorem deep_tree_size : deep_tree.size = 2047 := by
  rw [deep_tree, comb_size]

theorem deep_tree_height : deep_tree.height = 1024 := by
  rw [deep_tree, comb_height]

/-! ## Claims about tree_is_identical -/

/-- C1: for two finite trees read through their descriptors, `tree_is_identical`
returns (given fuel above the number of corresponding node pairs) one of 1, 0
and -1, and whenever the result is not -1 it equals the recursive
structural-equality predicate: 1 if the trees have the same shape and equal
keys at every corresponding position, 0 if they differ. -/
theorem tree_is_identical_structural (fuel : Nat) (m : Mem) (a b : tree_info) (pa pb : Nat)
    (ta tb : Tree) (ha : IsTree m a (tree_root_get_node m a pa) ta)
    (hb : IsTree m b (tree_root_get_node m b pb) tb) (hf : Tree.paired ta tb < fuel) :
    ∃ r, tree_is_identical fuel m a pa b pb = some r ∧
      (r.ret = 1 ∨ r.ret = 0 ∨ r.ret = -1) ∧
      (r.ret ≠ -1 → r.ret = if same_tree ta tb then 1 else 0) := by
  refine ⟨_, tree_is_identical_eq fuel m a b pa pb ta tb ha hb hf, ?_, ?_⟩
  · rcases compare_trees_cases STACK_SIZE ta tb with h | h | h
    · exact Or.inl h.1
    · exact Or.inr (Or.inl h.1)
    · exact Or.inr (Or.inr (by rw [h.1]))
  · intro hne
    rcases compare_trees_cases STACK_SIZE ta tb with h | h | h
    · rw [h.1, if_pos ((same_tree_iff ta tb).2 h.2.1)]
    · rw [h.1, if_neg (fun e => h.2.1 ((same_tree_iff ta tb).1 e))]
    · rw [h.1] at hne
      exact absurd rfl hne

/-- Witness for C1: the two sample trees with keys 5, 3, 8, read through two
different descriptors. -/
theorem tree_is_identical_structural_witness :
    IsTree sample_mem info_front (tree_root_get_node sample_mem info_front 8) sample_tree ∧
      IsTree sample_mem info_back (tree_root_get_node sample_mem info_back 128) sample_tree ∧
      Tree.paired sample_tree sample_tree < 4 ∧
      ∃ r, tree_is_identical 4 sample_mem info_front 8 info_back 128 = some r ∧
        (r.ret = 1 ∨ r.ret = 0 ∨ r.ret = -1) ∧
        (r.ret ≠ -1 → r.ret = if same_tree sample_tree sample_tree then 1 else 0) :=
  ⟨by decide, by decide, by decide,
    tree_is_identical_structural 4 sample_mem info_front info_back 8 128 sample_tree sample_tree
      (by decide) (by decide) (by decide)⟩

/-- C2, as stated, fails: the comb of 2047 nodes in region 0 of `deep_mem` and
its independently stored copy in region 1 have the same shape and keys (1024
levels), and `tree_is_identical` returns -1 on them. -/
theorem tree_is_identical_copy_overflow :
    IsTree deep_mem info_front (tree_root_get_node deep_mem info_front 8) deep_tree ∧
      IsTree deep_mem info_front (tree_root_get_node deep_mem info_front 16) deep_tree ∧
      deep_tree.height = 1024 ∧
      tree_is_identical 2048 deep_mem info_front 8 info_front 16 = some ⟨-1, none, none⟩ := by
  have h1 := deep_tree_root 0 (by omega)
  have h2 := deep_tree_root 1 (by omega)
  refine ⟨h1, h2, deep_tree_height, ?_⟩
  rw [tree_is_identical_eq 2048 deep_mem info_front info_front 8 16 deep_tree deep_tree h1 h2
    (by rw [paired_self, deep_tree_size]; omega),
    compare_trees_capped STACK_SIZE (by decide), if_pos (by rw [deep_tree_need]; decide)]

/-- C2, amended: on a tree and an independently built copy of it (same shape,
same keys) `tree_is_identical` returns 1 or -1, never 0, and it returns 1
whenever the tree has at most `STACK_SIZE - 1 = 1023` levels. -/
theorem tree_is_identical_copy (fuel : Nat) (m : Mem) (a b : tree_info) (pa pb : Nat)
    (t : Tree) (ha : IsTree m a (tree_root_get_node m a pa) t)
    (hb : IsTree m b (tree_root_get_node m b pb) t) (hf : t.size < fuel) :
    ∃ r, tree_is_identical fuel m a pa b pb = some r ∧ (r.ret = 1 ∨ r.ret = -1) ∧
      (t.height < STACK_SIZE → r.ret = 1) := by
  refine ⟨_, tree_is_identical_eq fuel m a b pa pb t t ha hb (by rw [paired_self]; exact hf),
    ?_, ?_⟩
  · rcases compare_trees_cases STACK_SIZE t t with h | h | h
    · exact Or.inl h.1
    · exact absurd rfl h.2.1
    · exact Or.inr (by rw [h.1])
  · intro hh
    rw [compare_trees_no_overflow t t (by rw [cheight_self]; exact hh)]
    rcases compare_trees_cases 0 t t with h | h | h
    · exact h.1
    · exact absurd rfl h.2.1
    · exact absurd rfl h.2

/-- Witness for the amended C2. -/
theorem tree_is_identical_copy_witness :
    IsTree sample_mem info_front (tree_root_get_node sample_mem info_front 8) sample_tree ∧
      IsTree sample_mem info_back (tree_root_get_node sample_mem info_back 128) sample_tree ∧
      sample_tree.size < 4 ∧
      ∃ r, tree_is_identical 4 sample_mem info_front 8 info_back 128 = some r ∧
        (r.ret = 1 ∨ r.ret = -1) ∧ (sample_tree.height < STACK_SIZE → r.ret = 1) :=
  ⟨by decide, by decide, by decide,
    tree_is_identical_copy 4 sample_mem info_front info_back 8 128 sample_tree
      (by decide) (by decide) (by decide)⟩

/-- C3, as stated, fails: region 2 of `deep_mem` holds a copy of the comb of
region 0 in which the key 1 of the left child of the root is replaced by 5000,
and `tree_is_identical` returns -1 (and reports no keys) on the two. -/
theorem tree_is_identical_changed_key_overflow :
    IsTree deep_mem info_front (tree_root_get_node deep_mem info_front 8) deep_tree ∧
      IsTree deep_mem info_front (tree_root_get_node deep_mem info_front 24)
        (deep_tree.set_key [Dir.left] 5000) ∧
      deep_tree.key_at [Dir.left] = some 1 ∧
      tree_is_identical 2048 deep_mem info_front 8 info_front 24 = some ⟨-1, none, none⟩ := by
  have h1 := deep_tree_root 0 (by omega)
  have h2 := deep_tree_changed_root
  refine ⟨h1, h2, deep_tree_key, ?_⟩
  rw [tree_is_identical_eq 2048 deep_mem info_front info_front 8 24 deep_tree _ h1 h2
    (lt_of_le_of_lt (paired_le_size _ _) (by rw [deep_tree_size]; omega)),
    compare_trees_capped STACK_SIZE (by decide),
    if_pos (by rw [deep_tree_changed_need]; decide)]

/-- C3, amended: when the second tree is a copy of the first in which the key
`k` at one node position is replaced by a different value `v`,
`tree_is_identical` returns 0 and reports the pair `(k, v)`, or returns -1
(reporting nothing); it returns 0 with `(k, v)` whenever the tree has at most
`STACK_SIZE - 1 = 1023` levels. -/
theorem tree_is_identical_changed_key (fuel : Nat) (m : Mem) (a b : tree_info) (pa pb : Nat)
    (t : Tree) (p : List Dir) (k v : Nat)
    (ha : IsTree m a (tree_root_get_node m a pa) t)
    (hb : IsTree m b (tree_root_get_node m b pb) (t.set_key p v))
    (hk : t.key_at p = some k) (hv : v ≠ k) (hf : t.size < fuel) :
    ∃ r, tree_is_identical fuel m a pa b pb = some r ∧
      (r = ⟨0, some (k, v), none⟩ ∨ r = ⟨-1, none, none⟩) ∧
      (t.height < STACK_SIZE → r = ⟨0, some (k, v), none⟩) := by
  have key : ∀ size, compare_trees size t (t.set_key p v) = ⟨0, some (k, v), none⟩ ∨
      (compare_trees size t (t.set_key p v) = ⟨-1, none, none⟩ ∧ size ≠ 0) := by
    intro size
    cases t with
    | nil => simp [Tree.key_at] at hk
    | node l x r =>
      have hs := visit_set_key size (Tree.node l x r) p k v 0 0 0 1 hk hv
      have hne : ∃ l1 x1 r1, (Tree.node l x r).set_key p v = Tree.node l1 x1 r1 := by
        cases p with
        | nil => exact ⟨_, _, _, rfl⟩
        | cons c p => cases c <;> exact ⟨_, _, _, rfl⟩
      obtain ⟨l1, x1, r1, e⟩ := hne
      rw [e] at hs ⊢
      simp only [compare_trees]
      rcases hs with hs | hs
      · rw [hs]; exact Or.inl rfl
      · rw [hs]
        refine Or.inr ⟨rfl, ?_⟩
        rcases visit_stop _ _ _ _ _ _ _ _ hs with h | h
        · exact h.2
        · simp at h
  refine ⟨_, tree_is_identical_eq fuel m a b pa pb t _ ha hb
    (lt_of_le_of_lt (paired_le_size _ _) hf), ?_, ?_⟩
  · rcases key STACK_SIZE with h | h
    · exact Or.inl h
    · exact Or.inr h.1
  · intro hh
    rw [compare_trees_no_overflow t _ (lt_of_le_of_lt (cheight_le_left _ _) hh)]
    rcases key 0 with h | h
    · exact h
    · exact absurd rfl h.2

/-- Witness for the amended C3: the sample tree and its copy with key 8
replaced by 9. -/
theorem tree_is_identical_changed_key_witness :
    IsTree sample_mem info_front (tree_root_get_node sample_mem info_front 8) sample_tree ∧
      IsTree sample_mem info_front (tree_root_get_node sample_mem info_front 288)
        (sample_tree.set_key [Dir.right] 9) ∧
      sample_tree.key_at [Dir.right] = some 8 ∧ 9 ≠ 8 ∧ sample_tree.size < 4 ∧
      ∃ r, tree_is_identical 4 sample_mem info_front 8 info_front 288 = some r ∧
        (r = ⟨0, some (8, 9), none⟩ ∨ r = ⟨-1, none, none⟩) ∧
        (sample_tree.height < STACK_SIZE → r = ⟨0, some (8, 9), none⟩) :=
  ⟨by decide, by decide, by decide, by decide, by decide,
    tree_is_identical_changed_key 4 sample_mem info_front info_front 8 288 sample_tree
      [Dir.right] 8 9 (by decide) (by decide) (by decide) (by decide) (by decide)⟩

/-- C4: `tree_is_identical` returns 1 when both roots have no first node and 0
when exactly one of them has none, for every pair of descriptors, every stack
size and every amount of fuel, zero included: no iteration of the loop runs,
so the stacks are never touched, and nothing is printed. -/
theorem tree_is_identical_empty (size fuel : Nat) (m : Mem) (a b : tree_info) (pa pb : Nat) :
    (tree_root_get_node m a pa = 0 ∧ tree_root_get_node m b pb = 0 →
        tree_is_identical fuel m a pa b pb = some ⟨1, none, none⟩ ∧
        tree_is_identical_sized size fuel m a pa b pb = some ⟨1, none, none⟩) ∧
      ((tree_root_get_node m a pa = 0 ∧ tree_root_get_node m b pb ≠ 0) ∨
          (tree_root_get_node m a pa ≠ 0 ∧ tree_root_get_node m b pb = 0) →
        tree_is_identical fuel m a pa b pb = some ⟨0, none, none⟩ ∧
        tree_is_identical_sized size fuel m a pa b pb = some ⟨0, none, none⟩) := by
  constructor
  · rintro ⟨h1, h2⟩
    simp [tree_is_identical, tree_is_identical_sized, h1, h2]
  · rintro (⟨h1, h2⟩ | ⟨h1, h2⟩) <;>
      simp [tree_is_identical, tree_is_identical_sized, h1, h2]

/-- Witness for C4: the empty root at address 416 against itself, and against
the root at address 8, without fuel. -/
theorem tree_is_identical_empty_witness :
    (tree_is_identical 0 sample_mem info_front 416 info_back 416 = some ⟨1, none, none⟩ ∧
        tree_is_identical_sized 1 0 sample_mem info_front 416 info_back 416 =
          some ⟨1, none, none⟩) ∧
      (tree_is_identical 0 sample_mem info_front 416 info_front 8 = some ⟨0, none, none⟩ ∧
        tree_is_identical_sized 1 0 sample_mem info_front 416 info_front 8 =
          some ⟨0, none, none⟩) :=
  ⟨(tree_is_identical_empty 1 0 sample_mem info_front info_back 416 416).1
      ⟨by decide, by decide⟩,
    (tree_is_identical_empty 1 0 sample_mem info_front info_front 416 8).2
      (Or.inl ⟨by decide, by decide⟩)⟩

/-- C5, as stated, fails: on the comb of region 0 of `deep_mem` and its copy in
region 1 the comparison run with stacks of 1025 entries returns 1 and reports
a maximum stack size of 1024 pairs, so no push goes beyond 1024 pairs; yet
`tree_is_identical`, with `STACK_SIZE = 1024`, returns -1. -/
theorem tree_is_identical_full_stack :
    stack_need deep_tree deep_tree = 1024 ∧
      tree_is_identical_sized 1025 2048 deep_mem info_front 8 info_front 16 =
        some ⟨1, none, some (1024, 2047)⟩ ∧
      tree_is_identical 2048 deep_mem info_front 8 info_front 16 = some ⟨-1, none, none⟩ := by
  have h1 := deep_tree_root 0 (by omega)
  have h2 := deep_tree_root 1 (by omega)
  have hp : Tree.paired deep_tree deep_tree < 2048 := by
    rw [paired_self, deep_tree_size]; omega
  refine ⟨deep_tree_need, ?_, ?_⟩
  · rw [tree_is_identical_sized_eq 1025 2048 deep_mem info_front info_front 8 16 deep_tree
      deep_tree h1 h2 hp, compare_trees_capped 1025 (by omega),
      if_neg (by rw [deep_tree_need]; omega)]
    have hne : deep_tree ≠ Tree.nil := by
      intro h
      have := deep_tree_size
      rw [h] at this
      simp [Tree.size] at this
    rcases compare_trees_cases 0 deep_tree deep_tree with h | h | h
    · obtain ⟨e1, -, e2, e3⟩ := h
      obtain ⟨mx, e3⟩ := e3 hne
      obtain ⟨e4, -⟩ := compare_trees_stats 0 deep_tree deep_tree mx _ e3
      have e5 : (visit 0 deep_tree deep_tree 0 0 0 1).peak = 1024 := by
        have := deep_tree_need
        cases hd : deep_tree with
        | nil => exact absurd hd hne
        | node l k r =>
          rw [hd] at this
          simpa [stack_need] using this
      rw [e5] at e4
      subst e4
      rw [deep_tree_size] at e3
      generalize compare_trees 0 deep_tree deep_tree = r at e1 e2 e3
      cases r
      simp only at e1 e2 e3
      subst e1 e2
      rw [e3]
      rfl
    · exact absurd rfl h.2.1
    · exact absurd rfl h.2
  · rw [tree_is_identical_eq 2048 deep_mem info_front info_front 8 16 deep_tree deep_tree h1 h2
      hp, compare_trees_capped STACK_SIZE (by decide),
      if_pos (by rw [deep_tree_need]; decide)]

/-- C5, amended: `tree_is_identical` returns -1 exactly when a push fills the
stacks, that is, when the comparison would hold `STACK_SIZE = 1024` or more
node pairs at some moment; a comparison that never needs more than 1023
simultaneous pairs ends with 1 or 0 and is the result of the comparison
without a capacity check. -/
theorem tree_is_identical_overflow_iff (fuel : Nat) (m : Mem) (a b : tree_info) (pa pb : Nat)
    (ta tb : Tree) (ha : IsTree m a (tree_root_get_node m a pa) ta)
    (hb : IsTree m b (tree_root_get_node m b pb) tb) (hf : Tree.paired ta tb < fuel) :
    ∃ r, tree_is_identical fuel m a pa b pb = some r ∧
      (r.ret = -1 ↔ STACK_SIZE ≤ stack_need ta tb) ∧
      (stack_need ta tb < STACK_SIZE →
        (r.ret = 1 ∨ r.ret = 0) ∧ tree_is_identical_sized 0 fuel m a pa b pb = some r) := by
  refine ⟨_, tree_is_identical_eq fuel m a b pa pb ta tb ha hb hf, ?_, ?_⟩
  · rw [compare_trees_capped STACK_SIZE (by decide)]
    constructor
    · intro h
      by_contra hlt
      rw [if_neg hlt] at h
      rcases compare_trees_cases 0 ta tb with h1 | h1 | h1
      · rw [h1.1] at h; exact absurd h (by decide)
      · rw [h1.1] at h; exact absurd h (by decide)
      · exact absurd rfl h1.2
    · intro h
      rw [if_pos h]
  · intro h
    rw [compare_trees_capped STACK_SIZE (by decide), if_neg (by omega)]
    refine ⟨?_, tree_is_identical_sized_eq 0 fuel m a b pa pb ta tb ha hb hf⟩
    rcases compare_trees_cases 0 ta tb with h1 | h1 | h1
    · exact Or.inl h1.1
    · exact Or.inr h1.1
    · exact absurd rfl h1.2

/-- Witness for the amended C5. -/
theorem tree_is_identical_overflow_iff_witness :
    IsTree sample_mem info_front (tree_root_get_node sample_mem info_front 8) sample_tree ∧
      IsTree sample_mem info_front (tree_root_get_node sample_mem info_front 288)
        (sample_tree.set_key [Dir.right] 9) ∧
      Tree.paired sample_tree (sample_tree.set_key [Dir.right] 9) < 4 ∧
      ∃ r, tree_is_identical 4 sample_mem info_front 8 info_front 288 = some r ∧
        (r.ret = -1 ↔ STACK_SIZE ≤ stack_need sample_tree (sample_tree.set_key [Dir.right] 9)) ∧
        (stack_need sample_tree (sample_tree.set_key [Dir.right] 9) < STACK_SIZE →
          (r.ret = 1 ∨ r.ret = 0) ∧
            tree_is_identical_sized 0 4 sample_mem info_front 8 info_front 288 = some r) :=
  ⟨by decide, by decide, by decide,
    tree_is_identical_overflow_iff 4 sample_mem info_front info_front 8 288 sample_tree
      (sample_tree.set_key [Dir.right] 9) (by decide) (by decide) (by decide)⟩

/-- C6: for every pair of finite trees the loop of `tree_is_identical`
terminates: there is one result that the function returns for every amount of
fuel above the number of corresponding node pairs, each of which is popped at
most once. -/
theorem tree_is_identical_terminates (m : Mem) (a b : tree_info) (pa pb : Nat)
    (ta tb : Tree) (ha : IsTree m a (tree_root_get_node m a pa) ta)
    (hb : IsTree m b (tree_root_get_node m b pb) tb) :
    ∃ r, ∀ fuel, Tree.paired ta tb < fuel → tree_is_identical fuel m a pa b pb = some r :=
  ⟨compare_trees STACK_SIZE ta tb, fun fuel hf =>
    tree_is_identical_eq fuel m a b pa pb ta tb ha hb hf⟩

/-- Witness for C6. -/
theorem tree_is_identical_terminates_witness :
    IsTree sample_mem info_front (tree_root_get_node sample_mem info_front 8) sample_tree ∧
      IsTree sample_mem info_back (tree_root_get_node sample_mem info_back 128) sample_tree ∧
      ∃ r, ∀ fuel, Tree.paired sample_tree sample_tree < fuel →
        tree_is_identical fuel sample_mem info_front 8 info_back 128 = some r :=
  ⟨by decide, by decide,
    tree_is_identical_terminates sample_mem info_front info_back 8 128 sample_tree sample_tree
      (by decide) (by decide)⟩

theorem diff_loop_mono (size : Nat) (m : Mem) (a b : tree_info) (r : diff_output) :
    ∀ (fuel : Nat) (s : diff_state), diff_loop size m a b fuel s = some r →
      ∀ k, diff_loop size m a b (fuel + k) s = some r := by
  intro fuel
  induction fuel with
  | zero => intro s h; simp [diff_loop] at h
  | succ n ih =>
    intro s h k
    rw [show n + 1 + k = (n + k) + 1 by omega]
    simp only [diff_loop] at h ⊢
    by_cases h0 : s.idx = 0
    · simpa [h0] using h
    · simp only [h0, if_false] at h ⊢
      cases hb : loop_body size m a b s with
      | ret r1 => rw [hb] at h; simpa using h
      | next s1 =>
        rw [hb] at h
        exact ih s1 h k

theorem tree_is_identical_mono (fuel k : Nat) (m : Mem) (a b : tree_info) (pa pb : Nat)
    (r : diff_output) (h : tree_is_identical fuel m a pa b pb = some r) :
    tree_is_identical (fuel + k) m a pa b pb = some r := by
  simp only [tree_is_identical, tree_is_identical_sized] at h ⊢
  split
  · rename_i h1; simpa [h1] using h
  · rename_i h1
    rw [if_neg h1] at h
    split
    · rename_i h2; simpa [h2] using h
    · rename_i h2
      rw [if_neg h2] at h
      exact diff_loop_mono _ _ _ _ _ _ _ h k

/-- C7: when `tree_is_identical` returns 1 on two non-empty trees (of fewer
than `2 ^ 64` nodes, the range of the counter), the `n_checked` value it prints,
the number of loop iterations, is the number of nodes of the tree, which is
the same for both trees. -/
theorem tree_is_identical_n_checked (fuel : Nat) (m : Mem) (a b : tree_info) (pa pb : Nat)
    (ta tb : Tree) (r : diff_output) (ha : IsTree m a (tree_root_get_node m a pa) ta)
    (hb : IsTree m b (tree_root_get_node m b pb) tb) (hna : ta ≠ Tree.nil)
    (hsz : ta.size < 2 ^ 64)
    (hr : tree_is_identical fuel m a pa b pb = some r) (h1 : r.ret = 1) :
    ∃ max_idx, r.stats = some (max_idx, ta.size) ∧ tb.size = ta.size := by
  have h2 := tree_is_identical_mono fuel (Tree.paired ta tb + 1) m a b pa pb r hr
  rw [tree_is_identical_eq _ m a b pa pb ta tb ha hb (by omega)] at h2
  simp only [Option.some.injEq] at h2
  subst h2
  rcases compare_trees_cases STACK_SIZE ta tb with h | h | h
  · obtain ⟨-, e, -, e3⟩ := h
    obtain ⟨mx, e3⟩ := e3 hna
    rw [Nat.mod_eq_of_lt hsz] at e3
    exact ⟨mx, e3, by rw [e]⟩
  · rw [h.1] at h1; exact absurd h1 (by decide)
  · rw [h.1] at h1; exact absurd h1 (by decide)

/-- Witness for C7: the two sample trees of three nodes. -/
theorem tree_is_identical_n_checked_witness :
    IsTree sample_mem info_front (tree_root_get_node sample_mem info_front 8) sample_tree ∧
      IsTree sample_mem info_back (tree_root_get_node sample_mem info_back 128) sample_tree ∧
      sample_tree ≠ Tree.nil ∧ sample_tree.size < 2 ^ 64 ∧
      tree_is_identical 4 sample_mem info_front 8 info_back 128 = some ⟨1, none, some (2, 3)⟩ ∧
      ∃ max_idx, (⟨1, none, some (2, 3)⟩ : diff_output).stats = some (max_idx, sample_tree.size) ∧
        sample_tree.size = sample_tree.size :=
  ⟨by decide, by decide, by decide, by decide, by decide,
    tree_is_identical_n_checked 4 sample_mem info_front info_back 8 128 sample_tree sample_tree
      ⟨1, none, some (2, 3)⟩ (by decide) (by decide) (by decide) (by decide) (by decide)
      rfl⟩

/-! ## Key arrays -/

theorem fill_in_order_spec (n : Nat) : ∀ (array : Nat → Nat) (k : Nat),
    fill_in_order array n k = if k < n then k else array k := by
  induction n with
  | zero => intro array k; simp [fill_in_order]
  | succ n ih =>
    intro array k
    rw [fill_in_order, ih]
    by_cases h1 : k < n
    · rw [if_pos h1, if_pos (by omega)]
    · rw [if_neg h1]
      by_cases h2 : k = n
      · subst h2; simp
      · rw [if_neg (by omega), Function.update_noteq h2]

theorem key_addr_disjoint (base esz koff x y : Nat) (h8 : 8 ≤ esz) (hxy : x ≠ y) :
    base + x * esz + koff + 8 ≤ base + y * esz + koff ∨
      base + y * esz + koff + 8 ≤ base + x * esz + koff := by
  rcases Nat.lt_or_gt_of_ne hxy with h | h
  · left
    have := Nat.mul_le_mul_right esz (Nat.succ_le_of_lt h)
    rw [Nat.succ_mul] at this
    omega
  · right
    have := Nat.mul_le_mul_right esz (Nat.succ_le_of_lt h)
    rw [Nat.succ_mul] at this
    omega

theorem element_key_write_same (mem : Mem) (m : tree_memory) (i : tree_info) (x v : Nat) :
    element_key (write64 mem (m.array + x * i.element_size + i.key_offset_in_element) v) m i x =
      v % 2 ^ 64 := by
  simp only [element_key, tree_element_get_key]
  exact read64_write64_same _ _ _

theorem element_key_write_other (mem : Mem) (m : tree_memory) (i : tree_info) (x y v : Nat)
    (h8 : 8 ≤ i.element_size) (hxy : x ≠ y) :
    element_key (write64 mem (m.array + x * i.element_size + i.key_offset_in_element) v) m i y =
      element_key mem m i y := by
  simp only [element_key, tree_element_get_key]
  exact read64_write64_disjoint _ _ _ _ (key_addr_disjoint _ _ _ _ _ h8 hxy)

theorem tree_fill_in_order_spec (m : tree_memory) (i : tree_info) (h8 : 8 ≤ i.element_size)
    (n : Nat) : ∀ (mem : Mem) (k : Nat),
    element_key (tree_fill_in_order mem m i n) m i k =
      if k < n then k % 2 ^ 64 else element_key mem m i k := by
  induction n with
  | zero => intro mem k; simp [tree_fill_in_order]
  | succ n ih =>
    intro mem k
    rw [tree_fill_in_order, ih]
    by_cases h1 : k < n
    · rw [if_pos h1, if_pos (by omega)]
    · rw [if_neg h1]
      by_cases h2 : k = n
      · subst h2
        rw [if_pos (by omega), element_key_write_same]
      · rw [if_neg (by omega), element_key_write_other _ _ _ _ _ _ h8 (fun e => h2 e.symm)]

/-- C10: after `fill_in_order(array, n)` entry `i` is `i` for every `i < n` and
the entries at index `n` and above are unchanged; after
`tree_fill_in_order(m, info, n)`, for a descriptor whose elements are at least
as large as a key (so that the key fields of different elements do not
overlap) and `n` in the range of `unsigned long`, the key of element `i` is `i`
for every `i < n` and the keys of the elements at index `n` and above are
unchanged. -/
theorem fill_in_order_correct (n : Nat) (array : Nat → Nat) (mem : Mem) (m : tree_memory)
    (info : tree_info) (h8 : 8 ≤ info.element_size) (hn : n ≤ 2 ^ 64) :
    (∀ i, i < n → fill_in_order array n i = i) ∧
      (∀ i, n ≤ i → fill_in_order array n i = array i) ∧
      (∀ i, i < n → element_key (tree_fill_in_order mem m info n) m info i = i) ∧
      (∀ i, n ≤ i → element_key (tree_fill_in_order mem m info n) m info i =
        element_key mem m info i) := by
  refine ⟨?_, ?_, ?_, ?_⟩
  · intro i hi
    rw [fill_in_order_spec, if_pos hi]
  · intro i hi
    rw [fill_in_order_spec, if_neg (by omega)]
  · intro i hi
    rw [tree_fill_in_order_spec m info h8, if_pos hi]
    exact Nat.mod_eq_of_lt (by omega)
  · intro i hi
    rw [tree_fill_in_order_spec m info h8, if_neg (by omega)]

/-- Witness for C10: three entries, and three elements of 32 bytes placed at
address 32 of the sample memory. -/
theorem fill_in_order_correct_witness :
    8 ≤ info_front.element_size ∧ 3 ≤ 2 ^ 64 ∧
      (∀ i, i < 3 → fill_in_order (fun _ => 7) 3 i = i) ∧
      (∀ i, 3 ≤ i → fill_in_order (fun _ => 7) 3 i = (fun _ => 7) i) ∧
      (∀ i, i < 3 → element_key (tree_fill_in_order sample_mem ⟨24, 24, 32⟩ info_front 3)
        ⟨24, 24, 32⟩ info_front i = i) ∧
      (∀ i, 3 ≤ i → element_key (tree_fill_in_order sample_mem ⟨24, 24, 32⟩ info_front 3)
        ⟨24, 24, 32⟩ info_front i = element_key sample_mem ⟨24, 24, 32⟩ info_front i) :=
  ⟨by decide, by decide,
    fill_in_order_correct 3 (fun _ => 7) sample_mem ⟨24, 24, 32⟩ info_front (by decide)
      (by decide)⟩

/-- Exchanging the entries at two indices below `n` permutes the first `n`
entries. -/
theorem swap_perm (f : Nat → Nat) (n c j : Nat) (hc : c < n) (hj : j < n) :
    List.Perm ((List.range n).map (Function.update (Function.update f c (f j)) j (f c)))
      ((List.range n).map f) := by
  have e : Function.update (Function.update f c (f j)) j (f c) = f ∘ (Equiv.swap c j) := by
    funext x
    simp only [Function.comp, Function.update, eq_rec_constant, dite_eq_ite]
    by_cases h1 : x = j
    · subst h1; simp
    · by_cases h2 : x = c
      · subst h2; simp [h1]
      · simp [h1, h2, Equiv.swap_apply_of_ne_of_ne h2 h1]
  rw [e, ← List.map_map]
  apply List.Perm.map
  apply (List.perm_ext_iff_of_nodup ((List.nodup_range n).map (Equiv.injective _))
    (List.nodup_range n)).2
  intro x
  simp only [List.mem_map, List.mem_range]
  constructor
  · rintro ⟨y, hy, rfl⟩
    by_cases h1 : y = c
    · subst h1; simpa using hj
    · by_cases h2 : y = j
      · subst h2; simpa using hc
      · rw [Equiv.swap_apply_of_ne_of_ne h1 h2]; exact hy
  · intro hx
    refine ⟨Equiv.swap c j x, ?_, by simp⟩
    by_cases h1 : x = c
    · subst h1; simpa using hj
    · by_cases h2 : x = j
      · subst h2; simpa using hc
      · rw [Equiv.swap_apply_of_ne_of_ne h1 h2]; exact hx

theorem randomize_loop_spec (random : Nat → Nat) (elements : Nat) (current : Nat) :
    ∀ (calls : Nat) (array : Nat → Nat), current ≤ elements →
      List.Perm ((List.range elements).map (randomize_loop random elements current calls array).1)
        ((List.range elements).map array) ∧
      (∀ k, elements ≤ k → (randomize_loop random elements current calls array).1 k = array k) ∧
      (randomize_loop random elements current calls array).2 =
        (List.range current).map
          (fun k => (current - 1 - k, random (calls + k) % elements)) := by
  induction current with
  | zero =>
    intro calls array _
    simp [randomize_loop]
  | succ c ih =>
    intro calls array hc
    have hpos : 0 < elements := by omega
    have hj : random calls % elements < elements := Nat.mod_lt _ hpos
    obtain ⟨h1, h2, h3⟩ := ih (calls + 1)
      (Function.update (Function.update array c (array (random calls % elements)))
        (random calls % elements) (array c)) (by omega)
    simp only [randomize_loop]
    refine ⟨h1.trans (swap_perm array elements c _ (by omega) hj), ?_, ?_⟩
    · intro k hk
      rw [h2 k hk, Function.update_noteq (by omega), Function.update_noteq (by omega)]
    · rw [h3, List.range_succ_eq_map, List.map_cons, List.map_map]
      simp only [Nat.add_zero, Nat.sub_zero, Nat.add_sub_cancel, List.cons.injEq, true_and]
      apply List.map_congr_left
      intro k _
      simp only [Function.comp, Prod.mk.injEq]
      exact ⟨by omega, by rw [show calls + 1 + k = calls + (k + 1) by omega]⟩

/-- The keys of the elements, as an array. -/
theorem tree_randomize_loop_keys (random : Nat → Nat) (m : tree_memory) (i : tree_info)
    (h8 : 8 ≤ i.element_size) (elements current : Nat) :
    ∀ (calls : Nat) (mem : Mem),
      element_key (tree_randomize_loop random m i elements current calls mem).1 m i =
          (randomize_loop random elements current calls (element_key mem m i)).1 ∧
        (tree_randomize_loop random m i elements current calls mem).2 =
          (randomize_loop random elements current calls (element_key mem m i)).2 := by
  induction current with
  | zero => intro calls mem; simp [tree_randomize_loop, randomize_loop]
  | succ c ih =>
    intro calls mem
    simp only [tree_randomize_loop, randomize_loop]
    have hstep : element_key (write64 (write64 mem
          (m.array + c * i.element_size + i.key_offset_in_element)
          (read64 mem (m.array + random calls % elements * i.element_size +
            i.key_offset_in_element)))
          (m.array + random calls % elements * i.element_size + i.key_offset_in_element)
          (read64 mem (m.array + c * i.element_size + i.key_offset_in_element))) m i =
        Function.update (Function.update (element_key mem m i) c
          (element_key mem m i (random calls % elements))) (random calls % elements)
          (element_key mem m i c) := by
      funext x
      by_cases h1 : x = random calls % elements
      · subst h1
        rw [Function.update_same, element_key_write_same]
        exact Nat.mod_eq_of_lt (read64_lt _ _)
      · rw [Function.update_noteq h1, element_key_write_other _ _ _ _ _ _ h8 (fun e => h1 e.symm)]
        by_cases h2 : x = c
        · subst h2
          rw [Function.update_same, element_key_write_same]
          exact Nat.mod_eq_of_lt (read64_lt _ _)
        · rw [Function.update_noteq h2,
            element_key_write_other _ _ _ _ _ _ h8 (fun e => h2 e.symm)]
    obtain ⟨e1, e2⟩ := ih (calls + 1) (write64 (write64 mem
          (m.array + c * i.element_size + i.key_offset_in_element)
          (read64 mem (m.array + random calls % elements * i.element_size +
            i.key_offset_in_element)))
          (m.array + random calls % elements * i.element_size + i.key_offset_in_element)
          (read64 mem (m.array + c * i.element_size + i.key_offset_in_element)))
    rw [hstep] at e1 e2
    exact ⟨e1, by rw [e2]⟩

theorem tree_randomize_loop_swaps (random : Nat → Nat) (m : tree_memory) (i : tree_info)
    (elements current : Nat) : ∀ (calls : Nat) (mem : Mem),
    (tree_randomize_loop random m i elements current calls mem).2 =
      (List.range current).map (fun k => (current - 1 - k, random (calls + k) % elements)) := by
  induction current with
  | zero => intro calls mem; simp [tree_randomize_loop]
  | succ c ih =>
    intro calls mem
    simp only [tree_randomize_loop]
    rw [ih, List.range_succ_eq_map, List.map_cons, List.map_map]
    simp only [Nat.add_zero, Nat.sub_zero, Nat.add_sub_cancel, List.cons.injEq, true_and]
    apply List.map_congr_left
    intro k _
    simp only [Function.comp, Prod.mk.injEq]
    exact ⟨by omega, by rw [show calls + 1 + k = calls + (k + 1) by omega]⟩

/-- C8: for every `n`, every input and every sequence of values of `random()`,
`randomize` leaves the first `n` entries a permutation of what they were, and
so does `tree_randomize` with the keys of the first `n` elements (for a
descriptor whose elements are at least as large as a key); `randomize` after
`fill_in_order` yields a permutation of `0, ..., n - 1`; for `n = 1` the array
and the keys are unchanged; for `n = 0` no iteration runs, so no remainder is
computed and nothing changes. -/
theorem randomize_permutation (n : Nat) (random : Nat → Nat) (array : Nat → Nat) (mem : Mem)
    (m : tree_memory) (info : tree_info) (h8 : 8 ≤ info.element_size) :
    List.Perm ((List.range n).map (randomize random array n)) ((List.range n).map array) ∧
      List.Perm ((List.range n).map (element_key (tree_randomize random mem m info n) m info))
        ((List.range n).map (element_key mem m info)) ∧
      List.Perm ((List.range n).map (prepare_random_key_array random array n)) (List.range n) ∧
      randomize random array 1 = array ∧
      element_key (tree_randomize random mem m info 1) m info = element_key mem m info ∧
      randomize_run random array 0 = (array, []) ∧
      tree_randomize_run random mem m info 0 = (mem, []) := by
  have hone : ∀ f : Nat → Nat, randomize random f 1 = f := by
    intro f
    funext x
    simp only [randomize, randomize_run, randomize_loop, Nat.mod_one]
    by_cases h : x = 0
    · subst h; simp
    · simp [Function.update_noteq h]
  refine ⟨(randomize_loop_spec random n n 0 array (Nat.le_refl _)).1, ?_, ?_, hone array, ?_,
    rfl, rfl⟩
  · simp only [tree_randomize, tree_randomize_run]
    rw [(tree_randomize_loop_keys random m info h8 n n 0 mem).1]
    exact (randomize_loop_spec random n n 0 _ (Nat.le_refl _)).1
  · have h1 := (randomize_loop_spec random n n 0 (fill_in_order array n) (Nat.le_refl _)).1
    have h2 : (List.range n).map (fill_in_order array n) = List.range n := by
      conv_rhs => rw [← List.map_id (List.range n)]
      apply List.map_congr_left
      intro k hk
      rw [fill_in_order_spec, if_pos (List.mem_range.1 hk)]
      rfl
    rw [h2] at h1
    exact h1
  · simp only [tree_randomize, tree_randomize_run]
    rw [(tree_randomize_loop_keys random m info h8 1 1 0 mem).1]
    exact hone _

/-- Witness for C8: three entries, and three elements of 32 bytes placed at
address 32 of the sample memory, with `random()` returning 1, 2, 3, ... -/
theorem randomize_permutation_witness :
    8 ≤ info_front.element_size ∧
      (List.Perm ((List.range 3).map (randomize (fun k => k + 1) (fun i => 10 * i) 3))
          ((List.range 3).map (fun i => 10 * i)) ∧
        List.Perm ((List.range 3).map (element_key
            (tree_randomize (fun k => k + 1) sample_mem ⟨24, 24, 32⟩ info_front 3)
            ⟨24, 24, 32⟩ info_front))
          ((List.range 3).map (element_key sample_mem ⟨24, 24, 32⟩ info_front)) ∧
        List.Perm ((List.range 3).map
            (prepare_random_key_array (fun k => k + 1) (fun i => 10 * i) 3)) (List.range 3) ∧
        randomize (fun k => k + 1) (fun i => 10 * i) 1 = (fun i => 10 * i) ∧
        element_key (tree_randomize (fun k => k + 1) sample_mem ⟨24, 24, 32⟩ info_front 1)
            ⟨24, 24, 32⟩ info_front = element_key sample_mem ⟨24, 24, 32⟩ info_front ∧
        randomize_run (fun k => k + 1) (fun i => 10 * i) 0 = ((fun i => 10 * i), []) ∧
        tree_randomize_run (fun k => k + 1) sample_mem ⟨24, 24, 32⟩ info_front 0 =
          (sample_mem, [])) :=
  ⟨by decide,
    randomize_permutation 3 (fun k => k + 1) (fun i => 10 * i) sample_mem ⟨24, 24, 32⟩
      info_front (by decide)⟩

/-- C9, as stated, fails: with two entries and `random()` returning 1, the
step for index `current = 0` exchanges with index 1, outside `[0, current]`, in
`randomize` and in `tree_randomize` alike. -/
theorem randomize_partner_above_current :
    (randomize_run (fun _ => 1) (fun i => i) 2).2 = [(1, 1), (0, 1)] ∧
      (tree_randomize_run (fun _ => 1) sample_mem ⟨24, 24, 32⟩ info_front 2).2 =
        [(1, 1), (0, 1)] ∧
      ¬ (∀ p ∈ (randomize_run (fun _ => 1) (fun i => i) 2).2, p.2 ≤ p.1) ∧
      ¬ (∀ p ∈ (tree_randomize_run (fun _ => 1) sample_mem ⟨24, 24, 32⟩ info_front 2).2,
        p.2 ≤ p.1) := by
  decide

/-- C9, amended: `randomize` and `tree_randomize` run the steps for
`current = n - 1` down to `0`, and the step number `k` (from 0) exchanges index
`current = n - 1 - k` with the index `random() % n`, which lies in the range
`[0, n - 1]` of the whole array. -/
theorem randomize_partner_range (n : Nat) (random : Nat → Nat) (array : Nat → Nat) (mem : Mem)
    (m : tree_memory) (info : tree_info) :
    (randomize_run random array n).2 =
        (List.range n).map (fun k => (n - 1 - k, random k % n)) ∧
      (tree_randomize_run random mem m info n).2 =
        (List.range n).map (fun k => (n - 1 - k, random k % n)) ∧
      (∀ p ∈ (randomize_run random array n).2, p.1 < n ∧ p.2 < n) ∧
      (∀ p ∈ (tree_randomize_run random mem m info n).2, p.1 < n ∧ p.2 < n) := by
  have h1 : (randomize_run random array n).2 =
      (List.range n).map (fun k => (n - 1 - k, random k % n)) := by
    rw [randomize_run, (randomize_loop_spec random n n 0 array (Nat.le_refl _)).2.2]
    simp
  have h2 : (tree_randomize_run random mem m info n).2 =
      (List.range n).map (fun k => (n - 1 - k, random k % n)) := by
    rw [tree_randomize_run, tree_randomize_loop_swaps]
    simp
  have h3 : ∀ p ∈ (List.range n).map (fun k => (n - 1 - k, random k % n)),
      p.1 < n ∧ p.2 < n := by
    intro p hp
    simp only [List.mem_map, List.mem_range] at hp
    obtain ⟨k, hk, rfl⟩ := hp
    exact ⟨by simp only; omega, Nat.mod_lt _ (by omega)⟩
  refine ⟨h1, h2, ?_, ?_⟩
  · rw [h1]; exact h3
  · rw [h2]; exact h3

/-! ## Key transfer and timing -/

theorem tree_assign_keys_spec (m : tree_memory) (i : tree_info) (key_array : Nat → Nat)
    (h8 : 8 ≤ i.element_size) (n : Nat) : ∀ (mem : Mem) (k : Nat),
    element_key (tree_assign_keys mem m i key_array n) m i k =
      if k < n then key_array k % 2 ^ 64 else element_key mem m i k := by
  induction n with
  | zero => intro mem k; simp [tree_assign_keys]
  | succ n ih =>
    intro mem k
    rw [tree_assign_keys, ih]
    by_cases h1 : k < n
    · rw [if_pos h1, if_pos (by omega)]
    · rw [if_neg h1]
      by_cases h2 : k = n
      · subst h2
        rw [if_pos (by omega), element_key_write_same]
      · rw [if_neg (by omega), element_key_write_other _ _ _ _ _ _ h8 (fun e => h2 e.symm)]

/-- Key fields of two element arrays in separate blocks do not overlap. -/
theorem key_fields_apart (ma mb : tree_memory) (a b : tree_info) (n x y : Nat)
    (ha : a.key_offset_in_element + 8 ≤ a.element_size)
    (hb : b.key_offset_in_element + 8 ≤ b.element_size)
    (hd : ma.array + n * a.element_size ≤ mb.array ∨ mb.array + n * b.element_size ≤ ma.array)
    (hx : x < n) (hy : y < n) :
    ma.array + x * a.element_size + a.key_offset_in_element + 8 ≤
        mb.array + y * b.element_size + b.key_offset_in_element ∨
      mb.array + y * b.element_size + b.key_offset_in_element + 8 ≤
        ma.array + x * a.element_size + a.key_offset_in_element := by
  have h1 := Nat.mul_le_mul_right a.element_size (Nat.succ_le_of_lt hx)
  have h2 := Nat.mul_le_mul_right b.element_size (Nat.succ_le_of_lt hy)
  rw [Nat.succ_mul] at h1 h2
  rcases hd with hd | hd
  · left; omega
  · right; omega

theorem tree_copy_keys_spec (md ms : tree_memory) (d s : tree_info) (n : Nat)
    (hd8 : d.key_offset_in_element + 8 ≤ d.element_size)
    (hs8 : s.key_offset_in_element + 8 ≤ s.element_size)
    (hdis : md.array + n * d.element_size ≤ ms.array ∨ ms.array + n * s.element_size ≤ md.array)
    (cur : Nat) : cur ≤ n → ∀ (mem : Mem) (k : Nat), k < n →
    element_key (tree_copy_keys mem md d ms s cur) md d k =
        (if k < cur then element_key mem ms s k else element_key mem md d k) ∧
      element_key (tree_copy_keys mem md d ms s cur) ms s k = element_key mem ms s k := by
  induction cur with
  | zero => intro _ mem k _; simp [tree_copy_keys]
  | succ c ih =>
    intro hc mem k hk
    rw [tree_copy_keys]
    obtain ⟨e1, e2⟩ := ih (by omega) (write64 mem
      (md.array + c * d.element_size + d.key_offset_in_element)
      (read64 mem (ms.array + c * s.element_size + s.key_offset_in_element))) k hk
    have hsrc : ∀ j, j < n → element_key (write64 mem
        (md.array + c * d.element_size + d.key_offset_in_element)
        (read64 mem (ms.array + c * s.element_size + s.key_offset_in_element))) ms s j =
        element_key mem ms s j := by
      intro j hj
      simp only [element_key, tree_element_get_key]
      exact read64_write64_disjoint _ _ _ _
        (key_fields_apart md ms d s n c j hd8 hs8 hdis (by omega) hj)
    rw [e1, e2, hsrc k hk]
    refine ⟨?_, rfl⟩
    by_cases h1 : k < c
    · rw [if_pos h1, if_pos (by omega)]
    · rw [if_neg h1]
      by_cases h2 : k = c
      · subst h2
        rw [if_pos (by omega), element_key_write_same]
        simp only [element_key, tree_element_get_key]
        exact Nat.mod_eq_of_lt (read64_lt _ _)
      · rw [if_neg (by omega),
          element_key_write_other _ _ _ _ _ _ (by omega) (fun e => h2 e.symm)]

/-- C11: for every `n`, every key array `A` of `unsigned long` values and every
two descriptors (each key field inside its element) with element arrays `B` and
`C` in separate blocks of memory, `tree_assign_keys(B, A, n)` followed by
`tree_copy_keys(C, B, n)` leaves the key of element `i` of `C` equal to `A[i]`
for every `i < n`; for `n = 0` both leave the memory as it is. -/
theorem assign_then_copy_keys (n : Nat) (key_array : Nat → Nat) (mem : Mem)
    (mb mc : tree_memory) (b c : tree_info)
    (hb : b.key_offset_in_element + 8 ≤ b.element_size)
    (hc : c.key_offset_in_element + 8 ≤ c.element_size)
    (hdis : mc.array + n * c.element_size ≤ mb.array ∨ mb.array + n * b.element_size ≤ mc.array)
    (hA : ∀ i, i < n → key_array i < 2 ^ 64) :
    (∀ i, i < n →
        element_key (tree_copy_keys (tree_assign_keys mem mb b key_array n) mc c mb b n) mc c i =
          key_array i) ∧
      tree_assign_keys mem mb b key_array 0 = mem ∧ tree_copy_keys mem mc c mb b 0 = mem := by
  refine ⟨?_, rfl, rfl⟩
  intro i hi
  rw [(tree_copy_keys_spec mc mb c b n hc hb hdis n (Nat.le_refl _) _ i hi).1, if_pos hi,
    tree_assign_keys_spec mb b key_array (by omega), if_pos hi]
  exact Nat.mod_eq_of_lt (hA i hi)

/-- Witness for C11: three keys, an array of 32 byte elements at address 32 and
an array of 40 byte elements at address 160 of the sample memory. -/
theorem assign_then_copy_keys_witness :
    info_front.key_offset_in_element + 8 ≤ info_front.element_size ∧
      info_back.key_offset_in_element + 8 ≤ info_back.element_size ∧
      (∀ i, i < 3 → (fun i => 100 + i) i < 2 ^ 64) ∧
      (∀ i, i < 3 →
        element_key (tree_copy_keys
          (tree_assign_keys sample_mem ⟨24, 24, 32⟩ info_front (fun i => 100 + i) 3)
          ⟨144, 144, 160⟩ info_back ⟨24, 24, 32⟩ info_front 3) ⟨144, 144, 160⟩ info_back i =
          (fun i => 100 + i) i) ∧
      tree_assign_keys sample_mem ⟨24, 24, 32⟩ info_front (fun i => 100 + i) 0 = sample_mem ∧
      tree_copy_keys sample_mem ⟨144, 144, 160⟩ info_back ⟨24, 24, 32⟩ info_front 0 =
        sample_mem :=
  ⟨by decide, by decide, fun i hi => by simp only; omega,
    assign_then_copy_keys 3 (fun i => 100 + i) sample_mem ⟨24, 24, 32⟩ ⟨144, 144, 160⟩
      info_front info_back (by decide) (by decide) (by decide)
      (fun i hi => by simp only; omega)⟩

/-- C12: for samples with `0 ≤ tv_nsec < 10^9` whose difference of seconds does
not overflow a `long`, `time_diff` yields the exact difference
`diff.tv_sec * 10^9 + diff.tv_nsec = stop - start` in nanoseconds with
`0 ≤ diff.tv_nsec < 10^9`, and borrows one second exactly when
`stop.tv_nsec < start.tv_nsec`. -/
theorem time_diff_exact (stop start : timespec)
    (h1 : 0 ≤ stop.tv_nsec ∧ stop.tv_nsec < 1000000000)
    (h2 : 0 ≤ start.tv_nsec ∧ start.tv_nsec < 1000000000)
    (h3 : -2 ^ 63 ≤ stop.tv_sec - start.tv_sec - 1 ∧ stop.tv_sec - start.tv_sec < 2 ^ 63) :
    (time_diff stop start).nanoseconds = stop.nanoseconds - start.nanoseconds ∧
      0 ≤ (time_diff stop start).tv_nsec ∧ (time_diff stop start).tv_nsec < 1000000000 ∧
      (time_diff stop start).tv_sec =
        stop.tv_sec - start.tv_sec - (if stop.tv_nsec < start.tv_nsec then 1 else 0) := by
  simp only [time_diff, timespec.nanoseconds, wrap_long]
  split
  · simp only
    refine ⟨by omega, by omega, by omega, by omega⟩
  · simp only
    refine ⟨by omega, by omega, by omega, by omega⟩

/-- Witness for C12: a stop sample with the smaller nanosecond part. -/
theorem time_diff_exact_witness :
    (time_diff ⟨12, 100⟩ ⟨10, 999999900⟩).nanoseconds =
        (⟨12, 100⟩ : timespec).nanoseconds - (⟨10, 999999900⟩ : timespec).nanoseconds ∧
      0 ≤ (time_diff ⟨12, 100⟩ ⟨10, 999999900⟩).tv_nsec ∧
      (time_diff ⟨12, 100⟩ ⟨10, 999999900⟩).tv_nsec < 1000000000 ∧
      (time_diff ⟨12, 100⟩ ⟨10, 999999900⟩).tv_sec =
        12 - 10 - (if (100 : Int) < 999999900 then 1 else 0) :=
  time_diff_exact ⟨12, 100⟩ ⟨10, 999999900⟩ (by decide) (by decide) (by decide)

/-- C13: for normalised samples of which `stop` is not earlier than `start`
(and whose difference of seconds fits a `long`), the duration computed by
`time_diff` is non-negative: `diff.tv_sec ≥ 0` and `diff.tv_nsec ≥ 0`. -/
theorem time_diff_nonneg (stop start : timespec)
    (h1 : 0 ≤ stop.tv_nsec ∧ stop.tv_nsec < 1000000000)
    (h2 : 0 ≤ start.tv_nsec ∧ start.tv_nsec < 1000000000)
    (h3 : stop.tv_sec - start.tv_sec < 2 ^ 63)
    (h4 : start.nanoseconds ≤ stop.nanoseconds) :
    0 ≤ (time_diff stop start).tv_sec ∧ 0 ≤ (time_diff stop start).tv_nsec := by
  simp only [time_diff, timespec.nanoseconds, wrap_long] at h4 ⊢
  split
  · simp only
    refine ⟨by omega, by omega⟩
  · simp only
    refine ⟨by omega, by omega⟩

/-- Witness for C13. -/
theorem time_diff_nonneg_witness :
    0 ≤ (time_diff ⟨12, 100⟩ ⟨11, 999999900⟩).tv_sec ∧
      0 ≤ (time_diff ⟨12, 100⟩ ⟨11, 999999900⟩).tv_nsec :=
  time_diff_nonneg ⟨12, 100⟩ ⟨11, 999999900⟩ (by decide) (by decide) (by decide) (by decide)

/-! ## print_tree: the loop runs the direct-style traversal -/

theorem addrTree_root (m : Mem) (info : tree_info) (p : Nat) (t : Tree)
    (h : AddrTree m info p t) : p = t.root_key := by
  cases t with
  | nil => exact h
  | node l a r => exact h.1

theorem addrTree_node_ne (m : Mem) (info : tree_info) (p : Nat) (l r : Tree) (a : Nat)
    (h : AddrTree m info p (Tree.node l a r)) : a ≠ 0 := h.2.1

theorem root_key_mem_inorder (t : Tree) (h : t ≠ Tree.nil) : t.root_key ∈ t.inorder := by
  cases t with
  | nil => exact absurd rfl h
  | node l a r => simp [Tree.inorder, Tree.root_key]

theorem leftmost_ne_zero (m : Mem) (info : tree_info) : ∀ (t : Tree) (p : Nat),
    AddrTree m info p t → t ≠ Tree.nil → t.leftmost ≠ 0 := by
  intro t
  induction t with
  | nil => intro p _ h; exact absurd rfl h
  | node l a r ihl _ =>
    intro p h _
    cases l with
    | nil => exact h.2.1
    | node ll lk lr => exact ihl _ h.2.2.1 (by simp)

theorem left_depth_lt_size (t : Tree) : t ≠ Tree.nil → t.left_depth < t.size := by
  induction t with
  | nil => intro h; exact absurd rfl h
  | node l a r ihl _ =>
    intro _
    cases l with
    | nil => simp [Tree.left_depth, Tree.size]
    | node ll lk lr =>
      have := ihl (by simp)
      simp only [Tree.left_depth, Tree.size] at this ⊢
      omega

/-- The loop that pushes the left spine, on a finite tree: either every write
stays inside the stack, or the first write behind its end is at index
`MAX_STACK_SIZE`. -/
theorem push_left_spine_spec (m : Mem) (info : tree_info) : ∀ (t : Tree) (h : Nat)
    (stack : Nat → Nat), t ≠ Tree.nil → AddrTree m info t.root_key t → h ≤ MAX_STACK_SIZE →
    (MAX_STACK_SIZE < h + t.left_depth →
      ∀ fuel, t.left_depth < fuel →
        push_left_spine m info fuel stack h t.root_key =
          some (stack_step.out_of_bounds MAX_STACK_SIZE)) ∧
    (h + t.left_depth ≤ MAX_STACK_SIZE →
      ∃ stack1, (∀ fuel, t.left_depth < fuel →
          push_left_spine m info fuel stack h t.root_key =
            some (stack_step.ok stack1 (h + t.left_depth) t.leftmost)) ∧
        (∀ i, i < h → stack1 i = stack i) ∧
        (∀ j, j < t.left_depth → stack1 (h + j) = t.spine.getD j 0)) := by
  intro t
  induction t with
  | nil => intro h stack hne; exact absurd rfl hne
  | node l a r ihl _ =>
    intro h stack _ hA hh
    cases l with
    | nil =>
      have hl : tree_node_get_left m info a = 0 := hA.2.2.1
      simp only [Tree.left_depth, Tree.root_key, Tree.leftmost, Tree.spine, Nat.add_zero]
      refine ⟨fun hc => absurd hc (by omega), fun _ => ⟨stack, ?_, fun _ _ => rfl, ?_⟩⟩
      · intro fuel hf
        obtain ⟨f, rfl⟩ : ∃ f, fuel = f + 1 := ⟨fuel - 1, by omega⟩
        simp only [push_left_spine, hl, ne_eq, not_true_eq_false, if_false]
      · intro j hj
        exact absurd hj (Nat.not_lt_zero _)
    | node ll lk lr =>
      have hl : tree_node_get_left m info a = lk := hA.2.2.1.1
      have hlk : lk ≠ 0 := hA.2.2.1.2.1
      have hA1 : AddrTree m info (Tree.node ll lk lr).root_key (Tree.node ll lk lr) := by
        have := hA.2.2.1
        rw [hl] at this
        exact this
      by_cases hfull : MAX_STACK_SIZE ≤ h
      · have h64 : h = MAX_STACK_SIZE := by omega
        simp only [Tree.left_depth, Tree.root_key]
        refine ⟨fun _ fuel hf => ?_, fun hc => absurd hc (by omega)⟩
        obtain ⟨f, rfl⟩ : ∃ f, fuel = f + 1 := ⟨fuel - 1, by omega⟩
        simp only [push_left_spine, hl, ne_eq, hlk, not_false_eq_true, if_true, hfull]
        rw [h64]
      · obtain ⟨ih1, ih2⟩ := ihl (h + 1) (Function.update stack h a) (by simp) hA1 (by omega)
        simp only [Tree.root_key] at ih1 ih2
        simp only [Tree.left_depth, Tree.root_key, Tree.leftmost, Tree.spine]
        constructor
        · intro hc fuel hf
          obtain ⟨f, rfl⟩ : ∃ f, fuel = f + 1 := ⟨fuel - 1, by omega⟩
          simp only [push_left_spine, hl, ne_eq, hlk, not_false_eq_true, if_true, hfull,
            if_false]
          exact ih1 (by omega) f (by omega)
        · intro hc
          obtain ⟨stack1, e1, e2, e3⟩ := ih2 (by omega)
          refine ⟨stack1, ?_, ?_, ?_⟩
          · intro fuel hf
            obtain ⟨f, rfl⟩ : ∃ f, fuel = f + 1 := ⟨fuel - 1, by omega⟩
            simp only [push_left_spine, hl, ne_eq, hlk, not_false_eq_true, if_true, hfull,
              if_false]
            rw [e1 f (by omega), show h + 1 + (Tree.node ll lk lr).left_depth =
              h + ((Tree.node ll lk lr).left_depth + 1) by omega]
          · intro i hi
            rw [e2 i (by omega), Function.update_noteq (by omega)]
          · intro j hj
            cases j with
            | zero =>
              rw [Nat.add_zero, e2 h (by omega), Function.update_same]
              rfl
            | succ j =>
              rw [show h + (j + 1) = h + 1 + j by omega, e3 j (by omega)]
              rfl

theorem paint_append (m : Mem) (t : tree_info) (bal : Nat → Nat) (log : List (Nat × Nat × Nat))
    (a h lo : Nat) (array : Nat → Char) :
    paint m t bal (log ++ [(a, h, lo)]) array =
      write_node_string (paint m t bal log array) h lo
        (node_string (tree_node_get_key m t a) (get_balance bal a)) := by
  simp [paint, List.foldl_append]

theorem render_walk_left_done (l r : Tree) (a d c c1 : Nat) (log log1 : List (Nat × Nat × Nat))
    (h : render_walk l (d + 1) c log = walk_result.done c1 log1) :
    render_walk (Tree.node l a r) d c log =
      if d > array_height - 1 ∨
          (line_offset_of c1 + node_string_len + 1) % 2 ^ 32 > array_width - 1 then
        walk_result.fail log1
      else if r ≠ Tree.nil ∧ MAX_STACK_SIZE < d + 1 + r.left_depth then
        walk_result.overflow MAX_STACK_SIZE (log1 ++ [(a, d, line_offset_of c1)])
      else
        render_walk r (d + 1) ((c1 + 1) % 2 ^ 32) (log1 ++ [(a, d, line_offset_of c1)]) := by
  simp only [render_walk, h]

theorem render_walk_left_fail (l r : Tree) (a d c : Nat) (log log1 : List (Nat × Nat × Nat))
    (h : render_walk l (d + 1) c log = walk_result.fail log1) :
    render_walk (Tree.node l a r) d c log = walk_result.fail log1 := by
  simp only [render_walk, h]

theorem render_walk_left_overflow (l r : Tree) (a d c i : Nat)
    (log log1 : List (Nat × Nat × Nat))
    (h : render_walk l (d + 1) c log = walk_result.overflow i log1) :
    render_walk (Tree.node l a r) d c log = walk_result.overflow i log1 := by
  simp only [render_walk, h]

theorem renders_of_eq (m : Mem) (t : tree_info) (bal : Nat → Nat) (s s2 : print_state)
    (d root n n2 : Nat) (w : walk_result)
    (h1 : ∀ fuel, print_loop m t bal (fuel + n) s = print_loop m t bal (fuel + n2) s2)
    (h2 : ∀ i, i < d → s2.stack i = s.stack i)
    (h : Renders m t bal s2 d root n2 w) : Renders m t bal s d root n w := by
  cases w with
  | fail log =>
    simp only [Renders] at h ⊢
    intro fuel
    rw [h1, h]
  | overflow i log =>
    simp only [Renders] at h ⊢
    intro fuel
    rw [h1, h]
  | done c log =>
    simp only [Renders] at h ⊢
    obtain ⟨stack1, cn, e1, e2, e3⟩ := h
    refine ⟨stack1, cn, e1, fun i hi => by rw [e2 i hi, h2 i hi], fun fuel => ?_⟩
    rw [h1, e3]

theorem print_loop_succ (m : Mem) (t : tree_info) (bal : Nat → Nat) (fuel : Nat)
    (s : print_state) :
    print_loop m t bal (fuel + 1) s =
      if s.current_height > array_height - 1 ∨
          (line_offset_of s.current_node + node_string_len + 1) % 2 ^ 32 > array_width - 1 then
        some ⟨print_outcome.ret (-1), none, s.visited⟩
      else
        match next_node m t fuel s.current s.stack s.current_height with
        | none => none
        | some (stack_step.out_of_bounds index) =>
          some ⟨print_outcome.stack_out_of_bounds index, none,
            s.visited ++ [(s.current, s.current_height, line_offset_of s.current_node)]⟩
        | some (stack_step.ok stack height next) =>
          if next = 0 then
            some ⟨print_outcome.ret 0,
              some (format_and_print (write_node_string s.array s.current_height
                (line_offset_of s.current_node)
                (node_string (tree_node_get_key m t s.current) (get_balance bal s.current)))),
              s.visited ++ [(s.current, s.current_height, line_offset_of s.current_node)]⟩
          else
            print_loop m t bal fuel
              ⟨write_node_string s.array s.current_height (line_offset_of s.current_node)
                (node_string (tree_node_get_key m t s.current) (get_balance bal s.current)),
                stack, height, (s.current_node + 1) % 2 ^ 32, next,
                s.visited ++ [(s.current, s.current_height, line_offset_of s.current_node)]⟩ := by
  rw [print_loop]
  rfl

/-- The iteration for the root of a subtree followed by the iterations for its
right subtree. -/
theorem print_loop_root (m : Mem) (t : tree_info) (bal : Nat → Nat) (l r : Tree) (a d : Nat)
    (hA : AddrTree m t a (Tree.node l a r))
    (ihr : ∀ (d : Nat) (s : print_state), r ≠ Tree.nil → s.current = r.leftmost →
      s.current_height = d + r.left_depth →
      (∀ j, j < r.left_depth → s.stack (d + j) = r.spine.getD j 0) →
      s.array = paint m t bal s.visited (fun _ => ' ') →
      Renders m t bal s d r.root_key r.size (render_walk r d s.current_node s.visited))
    (s : print_state) (hcur : s.current = a) (hh : s.current_height = d)
    (harr : s.array = paint m t bal s.visited (fun _ => ' ')) :
    Renders m t bal s d a (1 + r.size)
      (if d > array_height - 1 ∨
          (line_offset_of s.current_node + node_string_len + 1) % 2 ^ 32 > array_width - 1 then
        walk_result.fail s.visited
      else if r ≠ Tree.nil ∧ MAX_STACK_SIZE < d + 1 + r.left_depth then
        walk_result.overflow MAX_STACK_SIZE
          (s.visited ++ [(a, d, line_offset_of s.current_node)])
      else
        render_walk r (d + 1) ((s.current_node + 1) % 2 ^ 32)
          (s.visited ++ [(a, d, line_offset_of s.current_node)])) := by
  have hstep : ∀ fuel, fuel + (1 + r.size) = (fuel + r.size) + 1 := fun fuel => by omega
  by_cases hck : d > array_height - 1 ∨
      (line_offset_of s.current_node + node_string_len + 1) % 2 ^ 32 > array_width - 1
  · rw [if_pos hck]
    simp only [Renders]
    intro fuel
    rw [hstep, print_loop_succ]
    simp only [hh, hck, if_true]
  · rw [if_neg hck]
    have hd7 : d < MAX_STACK_SIZE := by
      have : ¬ d > array_height - 1 := fun h => hck (Or.inl h)
      simp only [array_height, PRINT_HEIGHT, MAX_STACK_SIZE] at this ⊢
      omega
    have hck2 := hck
    have hpaint := paint_append m t bal s.visited a d (line_offset_of s.current_node)
      (fun _ => ' ')
    cases r with
    | nil =>
      have hr0 : tree_node_get_right m t a = 0 := hA.2.2.2
      simp only [ne_eq, not_true_eq_false, false_and, if_false, render_walk, Renders]
      refine ⟨s.stack, s.current_node, rfl, fun _ _ => rfl, fun fuel => ?_⟩
      rw [hstep, print_loop_succ]
      simp only [hh, hck2, if_false, hcur, next_node, hr0, ne_eq, not_true_eq_false,
        leave_subtree, Tree.size, Nat.add_zero, harr, hpaint]
    | node rl ra rr =>
      have hr0 : tree_node_get_right m t a = ra := hA.2.2.2.1
      have hra : ra ≠ 0 := hA.2.2.2.2.1
      have hAr : AddrTree m t (Tree.node rl ra rr).root_key (Tree.node rl ra rr) := by
        have := hA.2.2.2
        rw [hr0] at this
        exact this
      have hnf : ¬ MAX_STACK_SIZE ≤ d := by omega
      have hld := left_depth_lt_size (Tree.node rl ra rr) (by simp)
      obtain ⟨hp1, hp2⟩ := push_left_spine_spec m t (Tree.node rl ra rr) (d + 1)
        (Function.update s.stack d a) (by simp) hAr (by omega)
      simp only [Tree.root_key] at hp1 hp2
      by_cases hov : MAX_STACK_SIZE < d + 1 + (Tree.node rl ra rr).left_depth
      · rw [if_pos ⟨by simp, hov⟩]
        simp only [Renders]
        intro fuel
        rw [hstep, print_loop_succ]
        simp only [hh, hck2, if_false, hcur, next_node, hr0, ne_eq, hra, not_false_eq_true,
          if_true, hnf, hp1 hov _ (show (Tree.node rl ra rr).left_depth <
            fuel + (Tree.node rl ra rr).size by omega)]
      · rw [if_neg (fun h => hov h.2)]
        obtain ⟨stack1, e1, e2, e3⟩ := hp2 (by omega)
        have hlm : (Tree.node rl ra rr).leftmost ≠ 0 :=
          leftmost_ne_zero m t _ _ hAr (by simp)
        -- the state at the first node of the right subtree
        have hR := ihr (d + 1)
          ⟨write_node_string s.array d (line_offset_of s.current_node)
              (node_string (tree_node_get_key m t a) (get_balance bal a)),
            stack1, d + 1 + (Tree.node rl ra rr).left_depth, (s.current_node + 1) % 2 ^ 32,
            (Tree.node rl ra rr).leftmost,
            s.visited ++ [(a, d, line_offset_of s.current_node)]⟩
          (by simp) rfl rfl e3 (by simp only; rw [harr, hpaint])
        simp only [Tree.root_key] at hR
        have hfirst : ∀ fuel, print_loop m t bal (fuel + (1 + (Tree.node rl ra rr).size)) s =
            print_loop m t bal (fuel + (Tree.node rl ra rr).size)
              ⟨write_node_string s.array d (line_offset_of s.current_node)
                (node_string (tree_node_get_key m t a) (get_balance bal a)),
              stack1, d + 1 + (Tree.node rl ra rr).left_depth, (s.current_node + 1) % 2 ^ 32,
              (Tree.node rl ra rr).leftmost,
              s.visited ++ [(a, d, line_offset_of s.current_node)]⟩ := by
          intro fuel
          rw [hstep, print_loop_succ]
          simp only [hh, hck2, if_false, hcur, next_node, hr0, ne_eq, hra, not_false_eq_true,
            if_true, hnf, e1 _ (show (Tree.node rl ra rr).left_depth <
              fuel + (Tree.node rl ra rr).size by omega), hlm]
        have hsd : stack1 d = a := by
          rw [e2 d (by omega), Function.update_same]
        generalize render_walk (Tree.node rl ra rr) (d + 1) ((s.current_node + 1) % 2 ^ 32)
          (s.visited ++ [(a, d, line_offset_of s.current_node)]) = w at hR ⊢
        cases w with
        | fail log =>
          simp only [Renders] at hR ⊢
          intro fuel
          rw [hfirst, hR]
        | overflow i log =>
          simp only [Renders] at hR ⊢
          intro fuel
          rw [hfirst, hR]
        | done c log =>
          simp only [Renders] at hR ⊢
          obtain ⟨stack4, cn4, f1, f2, f3⟩ := hR
          have hs4 : stack4 d = a := by rw [f2 d (by omega), hsd]
          refine ⟨stack4, cn4, f1, fun i hi => ?_, fun fuel => ?_⟩
          · rw [f2 i (by omega), e2 i (by omega), Function.update_noteq (by omega)]
          · rw [hfirst, f3]
            simp only [leave_subtree, next_parent, hs4, hr0, if_true]

theorem inorder_nodup_left (l r : Tree) (a : Nat) (h : (Tree.node l a r).inorder.Nodup) :
    l.inorder.Nodup := by
  simp only [Tree.inorder] at h
  exact (List.nodup_append.1 h).1

theorem inorder_nodup_right (l r : Tree) (a : Nat) (h : (Tree.node l a r).inorder.Nodup) :
    r.inorder.Nodup := by
  simp only [Tree.inorder] at h
  exact ((List.nodup_append.1 h).2.1).of_cons

theorem inorder_left_ne_right (l r : Tree) (a : Nat) (h : (Tree.node l a r).inorder.Nodup)
    (hl : l ≠ Tree.nil) (hr : r ≠ Tree.nil) : l.root_key ≠ r.root_key := by
  simp only [Tree.inorder] at h
  have h1 := root_key_mem_inorder l hl
  have h2 := root_key_mem_inorder r hr
  intro e
  exact (List.nodup_append.1 h).2.2 h1 (List.mem_cons_of_mem _ (e ▸ h2))

theorem left_depth_node (l r : Tree) (a : Nat) (h : l ≠ Tree.nil) :
    (Tree.node l a r).left_depth = l.left_depth + 1 ∧
      (Tree.node l a r).leftmost = l.leftmost ∧
      (Tree.node l a r).spine = a :: l.spine := by
  cases l with
  | nil => exact absurd rfl h
  | node ll lk lr => exact ⟨rfl, rfl, rfl⟩

/-- The loop of `print_tree`, entered at the leftmost node of a subtree of a
finite tree with distinct node addresses, runs the direct-style traversal of
that subtree. -/
theorem print_loop_walk (m : Mem) (t : tree_info) (bal : Nat → Nat) : ∀ (tree : Tree) (d : Nat)
    (s : print_state), tree ≠ Tree.nil → AddrTree m t tree.root_key tree →
    tree.inorder.Nodup → s.current = tree.leftmost →
    s.current_height = d + tree.left_depth →
    (∀ j, j < tree.left_depth → s.stack (d + j) = tree.spine.getD j 0) →
    s.array = paint m t bal s.visited (fun _ => ' ') →
    Renders m t bal s d tree.root_key tree.size (render_walk tree d s.current_node s.visited) := by
  intro tree
  induction tree with
  | nil => intro d s h; exact absurd rfl h
  | node l a r ihl ihr =>
    intro d s _ hA hnd hcur hh hsp harr
    have hA2 : AddrTree m t a (Tree.node l a r) := hA
    have hRoot := print_loop_root m t bal l r a d hA2
      (fun d1 s1 hr h1 h2 h3 h4 => ihr d1 s1 hr
        (by
          have := addrTree_root m t _ r hA.2.2.2
          rw [← this]
          exact hA.2.2.2)
        (inorder_nodup_right l r a hnd) h1 h2 h3 h4)
    have hsize : ∀ fuel, fuel + (Tree.node l a r).size = (fuel + (1 + r.size)) + l.size := by
      intro fuel
      simp only [Tree.size]
      omega
    by_cases hl : l = Tree.nil
    · subst hl
      simp only [Tree.leftmost, Tree.left_depth, Nat.add_zero] at hcur hh
      have hw := render_walk_left_done Tree.nil r a d s.current_node s.current_node s.visited
        s.visited (by simp [render_walk])
      rw [hw]
      simp only [Tree.root_key, Tree.size, Nat.zero_add]
      exact hRoot s hcur hh harr
    · obtain ⟨g1, g2, g3⟩ := left_depth_node l r a hl
      rw [g2] at hcur
      rw [g1] at hh hsp
      rw [g3] at hsp
      have hl0 := addrTree_root m t _ l hA.2.2.1
      have hAl : AddrTree m t l.root_key l := by
        have := hA.2.2.1
        rw [hl0] at this
        exact this
      have hlk : l.root_key ≠ 0 := by
        cases l with
        | nil => exact absurd rfl hl
        | node ll lk lr => exact hAl.2.1
      have hL := ihl (d + 1) s hl hAl (inorder_nodup_left _ r a hnd) hcur (by omega)
        (fun j hj => by
          have := hsp (j + 1) (by omega)
          simp only [List.getD_cons_succ] at this
          rw [show d + 1 + j = d + (j + 1) by omega]
          exact this)
        harr
      have hs0 : s.stack d = a := by
        have := hsp 0 (by omega)
        simpa using this
      simp only [Tree.root_key]
      cases hw : render_walk l (d + 1) s.current_node s.visited with
      | fail log =>
        rw [hw] at hL
        rw [render_walk_left_fail _ _ _ _ _ _ _ hw]
        simp only [Renders] at hL ⊢
        intro fuel
        rw [hsize]
        exact hL _
      | overflow i log =>
        rw [hw] at hL
        rw [render_walk_left_overflow _ _ _ _ _ _ _ _ hw]
        simp only [Renders] at hL ⊢
        intro fuel
        rw [hsize]
        exact hL _
      | done c1 log1 =>
        rw [hw] at hL
        rw [render_walk_left_done _ _ _ _ _ _ _ _ hw]
        simp only [Renders] at hL
        obtain ⟨stack1, cn1, f1, f2, f3⟩ := hL
        have hs1 : stack1 d = a := by rw [f2 d (by omega), hs0]
        have hne : l.root_key ≠ tree_node_get_right m t a := by
          have hr := addrTree_root m t _ r hA.2.2.2
          rw [hr]
          by_cases hrn : r = Tree.nil
          · rw [hrn]
            exact hlk
          · exact inorder_left_ne_right l r a hnd hl hrn
        have ha0 : a ≠ 0 := hA.2.1
        have hR := hRoot
          ⟨paint m t bal log1 (fun _ => ' '), stack1, d, c1, a, log1⟩ rfl rfl rfl
        simp only at hR
        refine renders_of_eq m t bal s
          ⟨paint m t bal log1 (fun _ => ' '), stack1, d, c1, a, log1⟩ d a _ (1 + r.size) _
          (fun fuel => ?_) (fun i hi => f2 i (by omega)) hR
        rw [hsize, f3]
        simp only [leave_subtree, next_parent, hs1, hne, if_false, ha0, f1]

/-- On a finite tree with distinct node addresses `print_tree` computes
`render`, for every amount of fuel from the number of nodes on. -/
theorem print_tree_eq (fuel : Nat) (m : Mem) (t : tree_info) (bal : Nat → Nat) (root : Nat)
    (tree : Tree) (hA : AddrTree m t (tree_root_get_node m t root) tree)
    (hnd : tree.inorder.Nodup) (hf : tree.size ≤ fuel) :
    print_tree fuel m t bal root = some (render m t bal tree) := by
  cases tree with
  | nil =>
    have h0 : tree_root_get_node m t root = 0 := hA
    simp [print_tree, render, h0]
  | node l a r =>
    have h0 : tree_root_get_node m t root = a := hA.1
    have ha : a ≠ 0 := hA.2.1
    have hA1 : AddrTree m t (Tree.node l a r).root_key (Tree.node l a r) := by
      have := hA
      rw [h0] at this
      exact this
    have hld := left_depth_lt_size (Tree.node l a r) (by simp)
    obtain ⟨hp1, hp2⟩ := push_left_spine_spec m t (Tree.node l a r) 0 (fun _ => 0) (by simp)
      hA1 (Nat.zero_le _)
    simp only [Tree.root_key, Nat.zero_add] at hp1 hp2
    simp only [print_tree, h0, ha, if_false, render, reduceCtorEq]
    by_cases hov : MAX_STACK_SIZE < (Tree.node l a r).left_depth
    · rw [hp1 hov fuel (by omega), if_pos hov]
    · rw [if_neg hov]
      obtain ⟨stack1, e1, -, e3⟩ := hp2 (by omega)
      rw [e1 fuel (by omega)]
      simp only
      have hW := print_loop_walk m t bal (Tree.node l a r) 0
        ⟨fun _ => ' ', stack1, (Tree.node l a r).left_depth, 0, (Tree.node l a r).leftmost, []⟩
        (by simp) hA1 hnd rfl (by simp) (by simpa using e3) (by simp [paint])
      simp only [Tree.root_key] at hW
      obtain ⟨f, rfl⟩ : ∃ f, fuel = f + (Tree.node l a r).size := ⟨fuel - (Tree.node l a r).size,
        by omega⟩
      generalize render_walk (Tree.node l a r) 0 0 [] = w at hW ⊢
      cases w with
      | fail log =>
        simp only [Renders] at hW ⊢
        exact hW f
      | overflow i log =>
        simp only [Renders] at hW ⊢
        exact hW f
      | done c log =>
        simp only [Renders] at hW ⊢
        obtain ⟨stack2, cn, -, -, f3⟩ := hW
        rw [f3]
        simp [leave_subtree, next_parent]

theorem line_offset_small (c : Nat) (h : c ≤ 19) : line_offset_of c = 4 * c := by
  simp only [line_offset_of, node_string_len, balance_len, key_len, PRINT_KEY_LEN,
    distance_between_nodes]
  omega

/-- A traversal that writes every node of a subtree has found every node
within the rows and the columns of the table. -/
theorem render_walk_done (tree : Tree) : ∀ (d c c1 : Nat) (log log1 : List (Nat × Nat × Nat)),
    c ≤ 19 → render_walk tree d c log = walk_result.done c1 log1 →
    c1 = c + tree.size ∧ c1 ≤ 19 ∧ log1 = log ++ tree.cells d c ∧
      (tree ≠ Tree.nil → d + tree.height ≤ PRINT_HEIGHT) := by
  induction tree with
  | nil =>
    intro d c c1 log log1 hc h
    simp only [render_walk, walk_result.done.injEq] at h
    simp [Tree.size, Tree.cells, ← h.1, ← h.2, hc]
  | node l a r ihl ihr =>
    intro d c c1 log log1 hc h
    cases hw : render_walk l (d + 1) c log with
    | fail log2 => rw [render_walk_left_fail _ _ _ _ _ _ _ hw] at h; simp at h
    | overflow i log2 => rw [render_walk_left_overflow _ _ _ _ _ _ _ _ hw] at h; simp at h
    | done c2 log2 =>
      rw [render_walk_left_done _ _ _ _ _ _ _ _ hw] at h
      obtain ⟨g1, g2, g3, g4⟩ := ihl _ _ _ _ _ hc hw
      rw [line_offset_small c2 g2] at h
      by_cases hck : d > array_height - 1 ∨
          (4 * c2 + node_string_len + 1) % 2 ^ 32 > array_width - 1
      · rw [if_pos hck] at h; simp at h
      · rw [if_neg hck] at h
        simp only [array_height, PRINT_HEIGHT, node_string_len, balance_len, key_len,
          PRINT_KEY_LEN, array_width, PRINT_WIDTH] at hck
        have hc2 : c2 ≤ 18 := by omega
        have hd : d ≤ 7 := by omega
        by_cases hov : r ≠ Tree.nil ∧ MAX_STACK_SIZE < d + 1 + r.left_depth
        · rw [if_pos hov] at h; simp at h
        · rw [if_neg hov, Nat.mod_eq_of_lt (by omega)] at h
          obtain ⟨k1, k2, k3, k4⟩ := ihr _ _ _ _ _ (by omega) h
          refine ⟨?_, k2, ?_, fun _ => ?_⟩
          · simp only [Tree.size]; omega
          · rw [k3, g3, g1]
            simp [Tree.cells]
          · simp only [Tree.height, PRINT_HEIGHT] at g4 k4 ⊢
            have hl : l = Tree.nil ∨ l ≠ Tree.nil := by tauto
            have hr : r = Tree.nil ∨ r ≠ Tree.nil := by tauto
            rcases hl with hl | hl <;> rcases hr with hr | hr
            · subst hl; subst hr; simp [Tree.height]; omega
            · subst hl; have := k4 hr; simp [Tree.height]; omega
            · subst hr; have := g4 hl; simp [Tree.height]; omega
            · have := g4 hl; have := k4 hr; omega

theorem cell_in_table_of_le (a d lo : Nat) (hd : d ≤ 7) (hlo : lo ≤ 74) :
    cell_in_table (a, d, lo) := by
  intro i hi
  simp only [node_string_len, balance_len, key_len, PRINT_KEY_LEN] at hi
  simp only [cell_index, array_width, PRINT_WIDTH, array_size, array_height, PRINT_HEIGHT]
  refine ⟨Nat.mod_eq_of_lt (by omega), ?_, by omega, by omega⟩
  rw [Nat.mod_eq_of_lt (by omega)]
  omega

/-- The loop of `print_tree` writes inside the table only, from every state
reached with a value of `current_node` up to 19. -/
theorem print_loop_cells (m : Mem) (t : tree_info) (bal : Nat → Nat) : ∀ (fuel : Nat)
    (s : print_state) (r : print_result), s.current_node ≤ 19 →
    (∀ e ∈ s.visited, cell_in_table e) → print_loop m t bal fuel s = some r →
    ∀ e ∈ r.visited, cell_in_table e := by
  intro fuel
  induction fuel with
  | zero => intro s r _ _ h; simp [print_loop] at h
  | succ fuel ih =>
    intro s r hc hv h
    rw [print_loop_succ, line_offset_small _ hc] at h
    by_cases hck : s.current_height > array_height - 1 ∨
        (4 * s.current_node + node_string_len + 1) % 2 ^ 32 > array_width - 1
    · rw [if_pos hck] at h
      simp only [Option.some.injEq] at h
      subst h
      exact hv
    · rw [if_neg hck] at h
      simp only [array_height, PRINT_HEIGHT, node_string_len, balance_len, key_len,
        PRINT_KEY_LEN, array_width, PRINT_WIDTH] at hck
      have hc2 : s.current_node ≤ 18 := by omega
      have hd : s.current_height ≤ 7 := by omega
      have hv2 : ∀ e ∈ s.visited ++ [(s.current, s.current_height, 4 * s.current_node)],
          cell_in_table e := by
        intro e he
        rcases List.mem_append.1 he with h1 | h1
        · exact hv e h1
        · rw [List.mem_singleton] at h1
          subst h1
          exact cell_in_table_of_le _ _ _ hd (by omega)
      cases hn : next_node m t fuel s.current s.stack s.current_height with
      | none => rw [hn] at h; simp at h
      | some st =>
        rw [hn] at h
        cases st with
        | out_of_bounds index =>
          simp only [Option.some.injEq] at h
          subst h
          exact hv2
        | ok stack height next =>
          simp only at h
          by_cases h0 : next = 0
          · rw [if_pos h0] at h
            simp only [Option.some.injEq] at h
            subst h
            exact hv2
          · rw [if_neg h0] at h
            exact ih _ r (by simp only; rw [Nat.mod_eq_of_lt (by omega)]; omega) hv2 h

theorem format_long_small : ∀ key, key < 100 →
    format_long PRINT_KEY_LEN key = [Nat.digitChar (key / 10), Nat.digitChar (key % 10)] := by
  decide

theorem get_balance_length (bal : Nat → Nat) (node : Nat) : (get_balance bal node).length = 2 := by
  simp only [get_balance]
  split_ifs <;> rfl

/-- Every cell in the record of a call of `print_tree` lies inside the
character table. -/
theorem print_tree_cells (fuel : Nat) (m : Mem) (t : tree_info) (bal : Nat → Nat) (root : Nat)
    (r : print_result) (h : print_tree fuel m t bal root = some r) :
    ∀ e ∈ r.visited, cell_in_table e := by
  simp only [print_tree] at h
  by_cases h0 : tree_root_get_node m t root = 0
  · rw [if_pos h0] at h
    simp only [Option.some.injEq] at h
    subst h
    intro e he
    simp at he
  · rw [if_neg h0] at h
    cases hp : push_left_spine m t fuel (fun _ => 0) 0 (tree_root_get_node m t root) with
    | none => rw [hp] at h; simp at h
    | some st =>
      rw [hp] at h
      cases st with
      | out_of_bounds index =>
        simp only [Option.some.injEq] at h
        subst h
        intro e he
        simp at he
      | ok stack height first =>
        exact print_loop_cells m t bal fuel _ r (Nat.zero_le _)
          (by intro e he; simp at he) h

/-- C14: `print_tree` on a root without a first node returns -1; it prints
nothing and writes no cell of the character table. -/
theorem print_tree_empty (fuel : Nat) (m : Mem) (t : tree_info) (ops_get_balance : Nat → Nat)
    (root : Nat) (h : tree_root_get_node m t root = 0) :
    print_tree fuel m t ops_get_balance root = some ⟨print_outcome.ret (-1), none, []⟩ := by
  simp [print_tree, h]

/-- Witness for C14: the root record at address 416 of `sample_mem` has no first
node. -/
theorem print_tree_empty_witness :
    tree_root_get_node sample_mem info_front 416 = 0 ∧
    print_tree 0 sample_mem info_front (fun _ => 0) 416 =
      some ⟨print_outcome.ret (-1), none, []⟩ :=
  ⟨by decide, print_tree_empty 0 sample_mem info_front (fun _ => 0) 416 (by decide)⟩

/-- C16: every cell that `print_tree` writes, in whatever memory and however
the call ends, lies inside the character table: for each of its four
characters the index `current_height * array_width + line_offset + i` is
computed without wrapping, is smaller than `array_size`, lies in a row below
`PRINT_HEIGHT` and in a column below `PRINT_WIDTH - 1`. -/
theorem print_tree_writes_in_table (fuel : Nat) (m : Mem) (t : tree_info)
    (ops_get_balance : Nat → Nat) (root : Nat) (r : print_result)
    (h : print_tree fuel m t ops_get_balance root = some r) :
    ∀ e ∈ r.visited, ∀ i, i < node_string_len →
      cell_index e.2.1 e.2.2 i = e.2.1 * array_width + (e.2.2 + i) ∧
      cell_index e.2.1 e.2.2 i < array_size ∧
      e.2.1 < PRINT_HEIGHT ∧ e.2.2 + i < PRINT_WIDTH - 1 := by
  exact print_tree_cells fuel m t ops_get_balance root r h

/-- Witness for C16: the call on the sample tree at root address 8, which
writes three cells. -/
theorem print_tree_writes_in_table_witness :
    print_tree 3 sample_mem info_front (fun _ => 0) 8 =
      some (render sample_mem info_front (fun _ => 0) sample_addr_tree) ∧
    ∀ e ∈ (render sample_mem info_front (fun _ => 0) sample_addr_tree).visited,
      ∀ i, i < node_string_len →
      cell_index e.2.1 e.2.2 i = e.2.1 * array_width + (e.2.2 + i) ∧
      cell_index e.2.1 e.2.2 i < array_size ∧
      e.2.1 < PRINT_HEIGHT ∧ e.2.2 + i < PRINT_WIDTH - 1 :=
  ⟨print_tree_eq 3 sample_mem info_front (fun _ => 0) 8 sample_addr_tree (by decide) (by decide)
      (by decide),
    print_tree_writes_in_table 3 sample_mem info_front (fun _ => 0) 8 _
      (print_tree_eq 3 sample_mem info_front (fun _ => 0) 8 sample_addr_tree (by decide)
        (by decide) (by decide))⟩

/-- C18: the glyph of `get_balance` in `print_tree.c` is that of the module's
`unsigned int` result read as a signed value: two spaces for 0, `+ ` for 1,
`- ` for -1, `++` for 2, `--` for -2 and `..` for every other value. -/
theorem get_balance_glyph (ops_get_balance : Nat → Nat) (node : Nat) :
    get_balance ops_get_balance node =
      balance_glyph (signed_of_unsigned (ops_get_balance node)) := by
  have hlt : ops_get_balance node % 2 ^ 32 < 2 ^ 32 := Nat.mod_lt _ (by norm_num)
  have key : ∀ v : Nat, v < 2 ^ 32 →
      (if v = 0 then [' ', ' ']
        else if v = 1 then ['+', ' ']
        else if v = 4294967295 then ['-', ' ']
        else if v = 2 then ['+', '+']
        else if v = 4294967294 then ['-', '-']
        else ['.', '.']) =
      balance_glyph (if v < 2 ^ 31 then (v : Int) else (v : Int) - 2 ^ 32) := by
    intro v hv
    simp only [balance_glyph]
    by_cases h0 : v = 0
    · subst h0; simp
    by_cases h1 : v = 1
    · subst h1; simp
    by_cases h2 : v = 4294967295
    · subst h2; simp
    by_cases h3 : v = 2
    · subst h3; simp
    by_cases h4 : v = 4294967294
    · subst h4; simp
    rw [if_neg h0, if_neg h1, if_neg h2, if_neg h3, if_neg h4]
    by_cases hs : v < 2 ^ 31
    · rw [if_pos hs, if_neg (by omega), if_neg (by omega), if_neg (by omega), if_neg (by omega),
        if_neg (by omega)]
    · rw [if_neg hs, if_neg (by omega), if_neg (by omega), if_neg (by omega), if_neg (by omega),
        if_neg (by omega)]
  exact key _ hlt

/-- C19, as stated, fails: for the key 100 with balance 1 the cell holds the
first four characters `100+` of the formatted text, which is neither the key
in two characters nor followed by the whole glyph. -/
theorem node_string_wide_key :
    node_string 100 (get_balance (fun _ => 1) 0) = ['1', '0', '0', '+'] ∧
    node_string 100 (get_balance (fun _ => 1) 0) ≠
      format_long PRINT_KEY_LEN 100 ++ get_balance (fun _ => 1) 0 ∧
    ¬ ∃ key_text, key_text.length = PRINT_KEY_LEN ∧
      node_string 100 (get_balance (fun _ => 1) 0) = key_text ++ get_balance (fun _ => 1) 0 := by
  refine ⟨by decide, by decide, ?_⟩
  rintro ⟨kt, hlen, heq⟩
  have h1 : node_string 100 (get_balance (fun _ => 1) 0) = ['1', '0', '0', '+'] := by decide
  have h2 : get_balance (fun _ => 1) 0 = ['+', ' '] := by decide
  rw [h1, h2] at heq
  match kt, hlen, heq with
  | [a, b], _, heq => simp at heq

/-- C19, amended: for every node with a key from 0 to 99 the cell that
`print_tree` writes has four characters: the two decimal digits of the key
(a leading zero below 10) followed by the two characters of the balance glyph
of the node. -/
theorem node_string_small_key (ops_get_balance : Nat → Nat) (node key : Nat) (hk : key < 100) :
    node_string key (get_balance ops_get_balance node) =
      [Nat.digitChar (key / 10), Nat.digitChar (key % 10)] ++ get_balance ops_get_balance node ∧
    (node_string key (get_balance ops_get_balance node)).length = node_string_len := by
  have hg := get_balance_length ops_get_balance node
  have h1 : node_string key (get_balance ops_get_balance node) =
      [Nat.digitChar (key / 10), Nat.digitChar (key % 10)] ++
        get_balance ops_get_balance node := by
    simp only [node_string, format_string, key_len, balance_len, hg, Nat.sub_self,
      List.replicate_zero, List.nil_append, node_string_len, PRINT_KEY_LEN]
    rw [show format_long 2 key = format_long PRINT_KEY_LEN key from rfl, format_long_small key hk]
    rw [List.take_of_length_le (by simp [hg])]
  refine ⟨h1, ?_⟩
  rw [h1]
  simp [hg, node_string_len, balance_len, key_len, PRINT_KEY_LEN]

/-- Witness for C19, amended: the key 7 with balance 1 gives the cell `07+ `. -/
theorem node_string_small_key_witness :
    (7 : Nat) < 100 ∧
    node_string 7 (get_balance (fun _ => 1) 0) = ['0', '7', '+', ' '] :=
  ⟨by decide, (node_string_small_key (fun _ => 1) 0 7 (by decide)).1⟩

theorem left_comb_ne_nil (n e : Nat) : left_comb n e ≠ Tree.nil := by
  cases n <;> simp [left_comb]

theorem left_comb_left_depth (n : Nat) : ∀ e, (left_comb n e).left_depth = n := by
  induction n with
  | zero => intro e; rfl
  | succ n ih =>
    intro e
    rw [left_comb, (left_depth_node _ _ _ (left_comb_ne_nil n (e + 2))).1, ih]

theorem left_comb_size (n : Nat) : ∀ e, (left_comb n e).size = 2 * n + 1 := by
  induction n with
  | zero => intro e; simp [left_comb, Tree.size]
  | succ n ih => intro e; simp [left_comb, Tree.size, ih]; omega

theorem left_comb_height (n : Nat) : ∀ e, (left_comb n e).height = n + 1 := by
  induction n with
  | zero => intro e; simp [left_comb, Tree.height]
  | succ n ih => intro e; simp [left_comb, Tree.height, ih]

theorem left_comb_mem (n : Nat) : ∀ e x, x ∈ (left_comb n e).inorder →
    ∃ j, e ≤ j ∧ x = 65536 + 32 * j := by
  induction n with
  | zero =>
    intro e x hx
    simp only [left_comb, Tree.inorder, List.nil_append, List.mem_singleton] at hx
    exact ⟨e, Nat.le_refl _, hx⟩
  | succ n ih =>
    intro e x hx
    simp only [left_comb, Tree.inorder, List.nil_append, List.mem_append, List.mem_cons,
      List.mem_singleton, List.not_mem_nil, or_false] at hx
    rcases hx with h | h | h
    · obtain ⟨j, hj, rfl⟩ := ih _ _ h
      exact ⟨j, by omega, rfl⟩
    · exact ⟨e, Nat.le_refl _, h⟩
    · exact ⟨e + 1, by omega, h⟩

theorem left_comb_nodup (n : Nat) : ∀ e, (left_comb n e).inorder.Nodup := by
  induction n with
  | zero => intro e; simp [left_comb, Tree.inorder]
  | succ n ih =>
    intro e
    simp only [left_comb, Tree.inorder, List.nil_append]
    rw [List.nodup_append]
    refine ⟨ih _, by simp, ?_⟩
    intro x hx hx2
    obtain ⟨j, hj, rfl⟩ := left_comb_mem n _ _ hx
    simp only [List.mem_cons, List.mem_singleton, List.not_mem_nil, or_false] at hx2
    omega

/-- Region 0 of `deep_mem`, read through `info_mirror`, holds left-leaning
combs. -/
theorem deep_left_comb : ∀ (n e : Nat), e + 2 * n = 2046 →
    AddrTree deep_mem info_mirror (65536 + 32 * e) (left_comb n e) := by
  have hl : ∀ e, e ≤ 2046 → tree_node_get_left deep_mem info_mirror (65536 + 32 * e) =
      if e % 2 = 1 ∨ e = 2046 then 0 else 65536 + 32 * (e + 2) := by
    intro e he
    have := deep_get_right 0 e (by omega) he
    simpa using this
  have hr : ∀ e, e ≤ 2046 → tree_node_get_right deep_mem info_mirror (65536 + 32 * e) =
      if e % 2 = 1 ∨ e = 2046 then 0 else 65536 + 32 * (e + 1) := by
    intro e he
    have := deep_get_left 0 e (by omega) he
    simpa using this
  intro n
  induction n with
  | zero =>
    intro e he
    refine ⟨rfl, by omega, ?_, ?_⟩
    · rw [hl e (by omega), if_pos (Or.inr (by omega))]; rfl
    · rw [hr e (by omega), if_pos (Or.inr (by omega))]; rfl
  | succ n ih =>
    intro e he
    refine ⟨rfl, by omega, ?_, ?_⟩
    · rw [hl e (by omega), if_neg (by omega)]
      exact ih (e + 2) (by omega)
    · rw [hr e (by omega), if_neg (by omega)]
      refine ⟨rfl, by omega, ?_, ?_⟩
      · rw [hl (e + 1) (by omega), if_pos (Or.inl (by omega))]; rfl
      · rw [hr (e + 1) (by omega), if_pos (Or.inl (by omega))]; rfl

theorem deep_left_root :
    AddrTree deep_mem info_mirror (tree_root_get_node deep_mem info_mirror 8) deep_left_tree := by
  have h : tree_root_get_node deep_mem info_mirror 8 = 65536 + 32 * 0 := by
    have := deep_root 0 (by omega)
    simpa using this
  rw [h]
  exact deep_left_comb 1023 0 (by norm_num)

theorem left_depth_lt_height (tree : Tree) (h : tree ≠ Tree.nil) :
    tree.left_depth < tree.height := by
  induction tree with
  | nil => exact absurd rfl h
  | node l a r ihl _ =>
    by_cases hl : l = Tree.nil
    · subst hl; simp [Tree.left_depth, Tree.height]
    · rw [(left_depth_node _ _ _ hl).1]
      have := ihl hl
      simp only [Tree.height]
      omega

/-- A tree whose leftmost path does not fit the node stack makes `print_tree`
write behind the end of the stack during the first descent. -/
theorem print_tree_long_spine (fuel : Nat) (m : Mem) (t : tree_info) (bal : Nat → Nat)
    (root : Nat) (tree : Tree) (hA : AddrTree m t (tree_root_get_node m t root) tree)
    (hd : MAX_STACK_SIZE < tree.left_depth) (hf : tree.left_depth < fuel) :
    print_tree fuel m t bal root =
      some ⟨print_outcome.stack_out_of_bounds MAX_STACK_SIZE, none, []⟩ := by
  cases tree with
  | nil => simp [Tree.left_depth] at hd
  | node l a r =>
    have h0 : tree_root_get_node m t root = a := hA.1
    have ha : a ≠ 0 := hA.2.1
    have hA1 : AddrTree m t (Tree.node l a r).root_key (Tree.node l a r) := by
      have := hA
      rw [h0] at this
      exact this
    obtain ⟨hp1, -⟩ := push_left_spine_spec m t (Tree.node l a r) 0 (fun _ => 0) (by simp)
      hA1 (Nat.zero_le _)
    simp only [Tree.root_key, Nat.zero_add] at hp1
    simp only [print_tree, h0, ha, if_false]
    rw [hp1 hd fuel hf]

/-- The traversal in direct style never leaves the node stack on a tree with
at most `MAX_STACK_SIZE + 1` levels. -/
theorem render_walk_no_overflow (tree : Tree) : ∀ (d c : Nat) (log : List (Nat × Nat × Nat)),
    d + tree.height ≤ MAX_STACK_SIZE + 1 → ∀ i log1,
    render_walk tree d c log ≠ walk_result.overflow i log1 := by
  induction tree with
  | nil => intro d c log _ i log1; simp [render_walk]
  | node l a r ihl ihr =>
    intro d c log hh i log1
    simp only [Tree.height] at hh
    cases hw : render_walk l (d + 1) c log with
    | fail log2 => rw [render_walk_left_fail _ _ _ _ _ _ _ hw]; simp
    | overflow i2 log2 => exact absurd hw (ihl _ _ _ (by omega) _ _)
    | done c2 log2 =>
      rw [render_walk_left_done _ _ _ _ _ _ _ _ hw]
      split_ifs with h1 h2
      · simp
      · have := left_depth_lt_height r h2.1
        omega
      · exact ihr _ _ _ (by omega) _ _

/-- Where the node stack is large enough for the tree, a tree with more than
`PRINT_HEIGHT` levels makes `print_tree` return -1 without printing. -/
theorem print_tree_too_deep (fuel : Nat) (m : Mem) (t : tree_info) (bal : Nat → Nat)
    (root : Nat) (tree : Tree) (hA : AddrTree m t (tree_root_get_node m t root) tree)
    (hnd : tree.inorder.Nodup) (hf : tree.size ≤ fuel) (hd : PRINT_HEIGHT < tree.height)
    (hs : tree.height ≤ MAX_STACK_SIZE + 1) :
    ∃ log, print_tree fuel m t bal root = some ⟨print_outcome.ret (-1), none, log⟩ := by
  rw [print_tree_eq fuel m t bal root tree hA hnd hf]
  have hn : tree ≠ Tree.nil := by
    rintro rfl
    simp [Tree.height] at hd
  have hl := left_depth_lt_height tree hn
  simp only [render, hn, if_false]
  rw [if_neg (by omega)]
  cases hw : render_walk tree 0 0 [] with
  | fail log => exact ⟨log, rfl⟩
  | overflow i log => exact absurd hw (render_walk_no_overflow tree 0 0 [] (by omega) i log)
  | done c1 log1 =>
    obtain ⟨-, -, -, h4⟩ := render_walk_done tree 0 0 c1 [] log1 (by omega) hw
    have := h4 hn
    omega

/-- C15, evaluated where the code leaves it: region 0 of `deep_mem`, read
through `info_mirror`, is a finite tree with distinct nodes and 1024 levels,
more than `PRINT_HEIGHT`, and `print_tree` does not return -1 on it: the first
descent writes `stack[64]`, behind the end of the node stack, before any depth
is checked. -/
theorem print_tree_deep_not_refused (ops_get_balance : Nat → Nat) (fuel : Nat) :
    AddrTree deep_mem info_mirror (tree_root_get_node deep_mem info_mirror 8) deep_left_tree ∧
    deep_left_tree.inorder.Nodup ∧
    PRINT_HEIGHT < deep_left_tree.height ∧
    print_tree (fuel + deep_left_tree.size) deep_mem info_mirror ops_get_balance 8 =
      some ⟨print_outcome.stack_out_of_bounds 64, none, []⟩ := by
  refine ⟨deep_left_root, left_comb_nodup 1023 0, ?_, ?_⟩
  · rw [deep_left_tree, left_comb_height]
    decide
  · have hld : deep_left_tree.left_depth = 1023 := left_comb_left_depth 1023 0
    have hsz : deep_left_tree.size = 2047 := left_comb_size 1023 0
    exact print_tree_long_spine _ deep_mem info_mirror ops_get_balance 8 deep_left_tree
      deep_left_root (by rw [hld]; decide) (by rw [hld, hsz]; omega)

/-- C20, as the code has it: on every finite tree whose leftmost path has more
than `MAX_STACK_SIZE` nodes above its last one, the first descent of
`print_tree` executes `stack[current_height++] = current` with
`current_height = MAX_STACK_SIZE`: the call writes behind the end of the node
stack, where the claim has it return -1, and nothing is printed. -/
theorem print_tree_stack_unchecked (fuel : Nat) (m : Mem) (t : tree_info)
    (ops_get_balance : Nat → Nat) (root : Nat) (tree : Tree)
    (hA : AddrTree m t (tree_root_get_node m t root) tree)
    (hd : MAX_STACK_SIZE < tree.left_depth) (hf : tree.left_depth < fuel) :
    print_tree fuel m t ops_get_balance root =
      some ⟨print_outcome.stack_out_of_bounds MAX_STACK_SIZE, none, []⟩ :=
  print_tree_long_spine fuel m t ops_get_balance root tree hA hd hf

/-- Witness for C20: the left-leaning comb in region 0 of `deep_mem`, whose
leftmost path has 1023 nodes above its last one. -/
theorem print_tree_stack_unchecked_witness :
    MAX_STACK_SIZE < deep_left_tree.left_depth ∧
    print_tree 1024 deep_mem info_mirror (fun _ => 0) 8 =
      some ⟨print_outcome.stack_out_of_bounds MAX_STACK_SIZE, none, []⟩ :=
  ⟨by rw [deep_left_tree, left_comb_left_depth]; decide,
    print_tree_stack_unchecked 1024 deep_mem info_mirror (fun _ => 0) 8 deep_left_tree
      deep_left_root (by rw [deep_left_tree, left_comb_left_depth]; decide)
      (by rw [deep_left_tree, left_comb_left_depth]; decide)⟩

theorem push_pair_swap (size child_a child_b : Nat) (s : diff_state) :
    push_pair size child_b child_a s.swap = (push_pair size child_a child_b s).swap := by
  simp only [push_pair, diff_state.swap]
  by_cases ha : child_a = 0 <;> by_cases hb : child_b = 0 <;>
    simp [ha, hb, diff_step.swap, diff_output.swap, diff_state.swap]
  split_ifs <;> simp [diff_step.swap, diff_output.swap, diff_state.swap]

theorem loop_body_swap (size : Nat) (m : Mem) (a b : tree_info) (s : diff_state) :
    loop_body size m b a s.swap = (loop_body size m a b s).swap := by
  simp only [loop_body]
  have e1 : s.swap.stack_a = s.stack_b := rfl
  have e2 : s.swap.stack_b = s.stack_a := rfl
  have e3 : s.swap.idx = s.idx := rfl
  have e4 : s.swap.max_idx = s.max_idx := rfl
  have e5 : s.swap.n_checked = s.n_checked := rfl
  rw [e1, e2, e3, e4, e5]
  generalize tree_node_get_key m a (s.stack_a (s.idx - 1)) = ka
  generalize tree_node_get_key m b (s.stack_b (s.idx - 1)) = kb
  by_cases hk : ka = kb
  · have n1 : ¬ (kb ≠ ka) := fun h => h hk.symm
    have n2 : ¬ (ka ≠ kb) := fun h => h hk
    rw [if_neg n1, if_neg n2]
    have hp := push_pair_swap size (tree_node_get_left m a (s.stack_a (s.idx - 1)))
      (tree_node_get_left m b (s.stack_b (s.idx - 1)))
      ⟨s.stack_a, s.stack_b, s.idx - 1, if s.idx > s.max_idx then s.idx else s.max_idx,
        (s.n_checked + 1) % 2 ^ 64⟩
    simp only [diff_state.swap] at hp
    rw [hp]
    cases push_pair size (tree_node_get_left m a (s.stack_a (s.idx - 1)))
      (tree_node_get_left m b (s.stack_b (s.idx - 1)))
      ⟨s.stack_a, s.stack_b, s.idx - 1, if s.idx > s.max_idx then s.idx else s.max_idx,
        (s.n_checked + 1) % 2 ^ 64⟩ with
    | ret r => rfl
    | next s1 => exact push_pair_swap size _ _ s1
  · have n1 : kb ≠ ka := fun h => hk h.symm
    rw [if_pos n1, if_pos hk]
    rfl

theorem diff_loop_swap (size : Nat) (m : Mem) (a b : tree_info) : ∀ (fuel : Nat)
    (s : diff_state),
    diff_loop size m b a fuel s.swap = (diff_loop size m a b fuel s).map diff_output.swap := by
  intro fuel
  induction fuel with
  | zero => intro s; rfl
  | succ fuel ih =>
    intro s
    simp only [diff_loop]
    have e3 : s.swap.idx = s.idx := rfl
    rw [e3]
    by_cases h0 : s.idx = 0
    · rw [if_pos h0, if_pos h0]; rfl
    · rw [if_neg h0, if_neg h0, loop_body_swap]
      cases loop_body size m a b s with
      | ret r => rfl
      | next s1 => exact ih s1

theorem tree_is_identical_swap (fuel : Nat) (m : Mem) (a b : tree_info) (pa pb : Nat) :
    tree_is_identical fuel m b pb a pa =
      (tree_is_identical fuel m a pa b pb).map diff_output.swap := by
  simp only [tree_is_identical, tree_is_identical_sized]
  by_cases h1 : tree_root_get_node m a pa = 0 <;> by_cases h2 : tree_root_get_node m b pb = 0
  · simp [h1, h2, diff_output.swap]
  · simp [h1, h2, diff_output.swap]
  · simp [h1, h2, diff_output.swap]
  · simp only [h1, h2, false_and, and_false, or_self, if_false]
    exact diff_loop_swap STACK_SIZE m a b fuel
      ⟨Function.update (fun _ => 0) 0 (tree_root_get_node m a pa),
        Function.update (fun _ => 0) 0 (tree_root_get_node m b pb), 1, 0, 0⟩

/-- The indices accessed by one iteration that starts with `1 ≤ idx < size`
are below `size`, and so is `idx` after the iteration. -/
theorem loop_body_indices_lt (size : Nat) (m : Mem) (a b : tree_info) (s : diff_state)
    (h0 : s.idx ≠ 0) (hlt : s.idx < size) :
    (∀ i ∈ loop_body_indices size m a b s, i < size) ∧
      ∀ s1, loop_body size m a b s = diff_step.next s1 → s1.idx < size := by
  simp only [loop_body_indices, loop_body]
  generalize tree_node_get_key m a (s.stack_a (s.idx - 1)) = ka
  generalize tree_node_get_key m b (s.stack_b (s.idx - 1)) = kb
  by_cases hk : ka = kb
  · have n2 : ¬ (ka ≠ kb) := fun h => h hk
    rw [if_neg n2, if_neg n2]
    generalize tree_node_get_left m a (s.stack_a (s.idx - 1)) = la
    generalize tree_node_get_left m b (s.stack_b (s.idx - 1)) = lb
    generalize tree_node_get_right m a (s.stack_a (s.idx - 1)) = ra
    generalize tree_node_get_right m b (s.stack_b (s.idx - 1)) = rb
    simp only [push_pair]
    by_cases hl : la ≠ 0 ∧ lb ≠ 0
    · rw [if_pos hl, if_pos hl, if_pos hl, if_neg (by omega), if_neg (by omega)]
      simp only
      by_cases hr : ra ≠ 0 ∧ rb ≠ 0
      · rw [if_pos hr, if_pos hr]
        constructor
        · intro i hi
          simp only [List.mem_append, List.mem_singleton, List.mem_cons, List.not_mem_nil,
            or_false] at hi
          omega
        · intro s1 h1
          split_ifs at h1 <;>
            (simp only [diff_step.next.injEq] at h1; subst h1; simp only; omega)
      · rw [if_neg hr, if_neg hr]
        constructor
        · intro i hi
          simp only [List.mem_append, List.mem_singleton, List.mem_cons, List.not_mem_nil,
            or_false, List.append_nil] at hi
          omega
        · intro s1 h1
          split_ifs at h1 <;>
            (simp only [diff_step.next.injEq] at h1; subst h1; simp only; omega)
    · rw [if_neg hl, if_neg hl, if_neg hl]
      by_cases hl2 : la ≠ 0 ∨ lb ≠ 0
      · rw [if_pos hl2, if_pos hl2]
        constructor
        · intro i hi
          simp only [List.mem_append, List.mem_singleton, List.mem_cons, List.not_mem_nil,
            or_false, List.append_nil, List.nil_append] at hi
          omega
        · intro s1 h1
          simp at h1
      · rw [if_neg hl2, if_neg hl2]
        simp only
        by_cases hr : ra ≠ 0 ∧ rb ≠ 0
        · rw [if_pos hr, if_pos hr]
          constructor
          · intro i hi
            simp only [List.mem_append, List.mem_singleton, List.mem_cons, List.not_mem_nil,
              or_false, List.nil_append] at hi
            omega
          · intro s1 h1
            split_ifs at h1 <;>
              (simp only [diff_step.next.injEq] at h1; subst h1; simp only; omega)
        · rw [if_neg hr, if_neg hr]
          constructor
          · intro i hi
            simp only [List.mem_append, List.mem_singleton, List.mem_cons, List.not_mem_nil,
              or_false, List.append_nil, List.nil_append] at hi
            omega
          · intro s1 h1
            split_ifs at h1 <;>
              (simp only [diff_step.next.injEq] at h1; subst h1; simp only; omega)
  · rw [if_pos hk, if_pos hk]
    constructor
    · intro i hi
      simp only [List.append_nil, List.mem_singleton] at hi
      omega
    · intro s1 h1
      simp at h1

theorem diff_loop_indices_lt (size : Nat) (m : Mem) (a b : tree_info) : ∀ (fuel : Nat)
    (s : diff_state), s.idx < size → ∀ i ∈ diff_loop_indices size m a b fuel s, i < size := by
  intro fuel
  induction fuel with
  | zero => intro s _ i hi; simp [diff_loop_indices] at hi
  | succ fuel ih =>
    intro s hlt i hi
    simp only [diff_loop_indices] at hi
    by_cases h0 : s.idx = 0
    · rw [if_pos h0] at hi; simp at hi
    · rw [if_neg h0] at hi
      obtain ⟨h1, h2⟩ := loop_body_indices_lt size m a b s h0 hlt
      rcases List.mem_append.1 hi with h | h
      · exact h1 i h
      · cases hb : loop_body size m a b s with
        | ret r => rw [hb] at h; simp at h
        | next s1 =>
          rw [hb] at h
          exact ih s1 (h2 s1 hb) i h

/-- C21: for every descriptor and every element address `e`,
`tree_node_get_key` on the node pointer `e + node_offset_in_element` reads the
word at `e + key_offset_in_element`, the word that `tree_element_set_key`
writes for `e`; so a key stored through the element accessor, by
`tree_fill_in_order` or by `tree_assign_keys` (elements at least as large as a
key, keys in the range of `unsigned long`) is read back unchanged through the
node accessor. -/
theorem node_key_is_element_key (mem : Mem) (info : tree_info) (e key : Nat) (m : tree_memory)
    (key_array : Nat → Nat) (n : Nat) (h8 : 8 ≤ info.element_size) (hn : n ≤ 2 ^ 64)
    (hkey : key < 2 ^ 64) (hA : ∀ i, i < n → key_array i < 2 ^ 64) :
    (∀ mem1, tree_node_get_key mem1 info (e + info.node_offset_in_element) =
        read64 mem1 (e + info.key_offset_in_element)) ∧
      tree_element_set_key mem info e key = write64 mem (e + info.key_offset_in_element) key ∧
      tree_node_get_key (tree_element_set_key mem info e key) info
        (e + info.node_offset_in_element) = key ∧
      (∀ i, i < n → tree_node_get_key (tree_fill_in_order mem m info n) info
        (m.array + i * info.element_size + info.node_offset_in_element) = i) ∧
      (∀ i, i < n → tree_node_get_key (tree_assign_keys mem m info key_array n) info
        (m.array + i * info.element_size + info.node_offset_in_element) = key_array i) := by
  have hnode : ∀ mem1 x, tree_node_get_key mem1 info (x + info.node_offset_in_element) =
      read64 mem1 (x + info.key_offset_in_element) := by
    intro mem1 x
    simp only [tree_node_get_key, Nat.add_sub_cancel]
  refine ⟨fun mem1 => hnode mem1 e, rfl, ?_, ?_, ?_⟩
  · rw [hnode, tree_element_set_key, read64_write64_same]
    exact Nat.mod_eq_of_lt hkey
  · intro i hi
    rw [hnode]
    have := tree_fill_in_order_spec m info h8 n mem i
    rw [if_pos hi] at this
    simp only [element_key, tree_element_get_key] at this
    rw [this]
    exact Nat.mod_eq_of_lt (by omega)
  · intro i hi
    rw [hnode]
    have := tree_assign_keys_spec m info key_array h8 n mem i
    rw [if_pos hi] at this
    simp only [element_key, tree_element_get_key] at this
    rw [this]
    exact Nat.mod_eq_of_lt (hA i hi)

/-- Witness for C21: the descriptor `info_back` (node at element offset 8, key
at element offset 0), an element at address 160 and three elements of 40
bytes at address 40. -/
theorem node_key_is_element_key_witness :
    8 ≤ info_back.element_size ∧ (77 : Nat) < 2 ^ 64 ∧
      tree_node_get_key (tree_element_set_key sample_mem info_back 160 77) info_back
        (160 + info_back.node_offset_in_element) = 77 ∧
      (∀ i, i < 3 → tree_node_get_key (tree_assign_keys sample_mem ⟨24, 24, 40⟩ info_back
        (fun k => 10 * k + 1) 3) info_back
        (40 + i * info_back.element_size + info_back.node_offset_in_element) = 10 * i + 1) :=
  ⟨by decide, by decide,
    (node_key_is_element_key sample_mem info_back 160 77 ⟨24, 24, 40⟩ (fun k => 10 * k + 1) 3
      (by decide) (by decide) (by decide) (fun i hi => by
        have : 10 * i + 1 < 2 ^ 64 := by omega
        exact this)).2.2.1,
    (node_key_is_element_key sample_mem info_back 160 77 ⟨24, 24, 40⟩ (fun k => 10 * k + 1) 3
      (by decide) (by decide) (by decide) (fun i hi => by
        have : 10 * i + 1 < 2 ^ 64 := by omega
        exact this)).2.2.2.2⟩

/-- C26: for every pair of finite trees of which at least one has at most
`STACK_SIZE - 1 = 1023` levels, `tree_is_identical` returns 1 or 0, never -1:
the stacks never hold more pairs than the two trees have levels in common,
which is at most 1023. -/
theorem tree_is_identical_shallow (fuel : Nat) (m : Mem) (a b : tree_info) (pa pb : Nat)
    (ta tb : Tree) (ha : IsTree m a (tree_root_get_node m a pa) ta)
    (hb : IsTree m b (tree_root_get_node m b pb) tb) (hf : Tree.paired ta tb < fuel)
    (hh : ta.height ≤ STACK_SIZE - 1 ∨ tb.height ≤ STACK_SIZE - 1) :
    ∃ r, tree_is_identical fuel m a pa b pb = some r ∧ r.ret ≠ -1 ∧ (r.ret = 1 ∨ r.ret = 0) ∧
      stack_need ta tb ≤ Tree.cheight ta tb ∧ Tree.cheight ta tb ≤ ta.height ∧
      Tree.cheight ta tb ≤ tb.height ∧ stack_need ta tb < STACK_SIZE := by
  have h1 := cheight_le_left ta tb
  have h2 := cheight_le_right ta tb
  have h3 := stack_need_le_cheight ta tb
  have hc : Tree.cheight ta tb < STACK_SIZE := by
    simp only [STACK_SIZE] at hh ⊢
    omega
  refine ⟨_, tree_is_identical_eq fuel m a b pa pb ta tb ha hb hf, ?_, ?_, h3, h1, h2,
    by omega⟩
  · rw [compare_trees_no_overflow ta tb hc]
    rcases compare_trees_cases 0 ta tb with h | h | h
    · rw [h.1]; decide
    · rw [h.1]; decide
    · exact absurd rfl h.2
  · rw [compare_trees_no_overflow ta tb hc]
    rcases compare_trees_cases 0 ta tb with h | h | h
    · exact Or.inl h.1
    · exact Or.inr h.1
    · exact absurd rfl h.2

/-- Witness for C26: the two sample trees with keys 5, 3, 8, of two levels. -/
theorem tree_is_identical_shallow_witness :
    sample_tree.height ≤ STACK_SIZE - 1 ∧
      ∃ r, tree_is_identical 4 sample_mem info_front 8 info_back 128 = some r ∧ r.ret ≠ -1 ∧
        (r.ret = 1 ∨ r.ret = 0) ∧
        stack_need sample_tree sample_tree ≤ Tree.cheight sample_tree sample_tree ∧
        Tree.cheight sample_tree sample_tree ≤ sample_tree.height ∧
        Tree.cheight sample_tree sample_tree ≤ sample_tree.height ∧
        stack_need sample_tree sample_tree < STACK_SIZE :=
  ⟨by decide,
    tree_is_identical_shallow 4 sample_mem info_front info_back 8 128 sample_tree sample_tree
      (by decide) (by decide) (by decide) (Or.inl (by decide))⟩

/-- C27: in every memory and for every number of iterations, each index at
which `tree_is_identical` reads or writes `stack_a` and `stack_b` is below
`STACK_SIZE`. -/
theorem tree_is_identical_indices_lt (fuel : Nat) (m : Mem) (a b : tree_info) (pa pb : Nat) :
    ∀ i ∈ tree_is_identical_indices fuel m a pa b pb, i < STACK_SIZE := by
  intro i hi
  simp only [tree_is_identical_indices] at hi
  split_ifs at hi with h1 h2
  · simp at hi
  · simp at hi
  · rcases List.mem_cons.1 hi with h | h
    · rw [h]; decide
    · exact diff_loop_indices_lt STACK_SIZE m a b fuel _
        (show 1 < STACK_SIZE by decide) i h

/-- Witness for C27: the accesses of the call on the two sample trees, among
them index 1, where the right children are pushed. -/
theorem tree_is_identical_indices_lt_witness :
    tree_is_identical_indices 4 sample_mem info_front 8 info_back 128 = [0, 0, 0, 1, 1, 0] ∧
      1 < STACK_SIZE :=
  ⟨by decide,
    tree_is_identical_indices_lt 4 sample_mem info_front info_back 8 128 1 (by decide)⟩

/-- C28: `tree_is_identical` is symmetric: in every memory and for every amount
of fuel the call with the two trees exchanged ends the same way, with the same
return value (and the same counters in its closing diagnostics). -/
theorem tree_is_identical_symmetric (fuel : Nat) (m : Mem) (a b : tree_info) (pa pb : Nat) :
    (tree_is_identical fuel m b pb a pa).map diff_output.ret =
        (tree_is_identical fuel m a pa b pb).map diff_output.ret ∧
      (tree_is_identical fuel m b pb a pa).map diff_output.stats =
        (tree_is_identical fuel m a pa b pb).map diff_output.stats := by
  rw [tree_is_identical_swap]
  cases tree_is_identical fuel m a pa b pb with
  | none => exact ⟨rfl, rfl⟩
  | some r => exact ⟨rfl, rfl⟩

/-- On a subtree that fits the rows and the columns of the table the traversal
in direct style writes every node. -/
theorem render_walk_total (tree : Tree) : ∀ (d c : Nat) (log : List (Nat × Nat × Nat)),
    (tree ≠ Tree.nil → d + tree.height ≤ PRINT_HEIGHT) → c + tree.size ≤ 19 →
    render_walk tree d c log = walk_result.done (c + tree.size) (log ++ tree.cells d c) := by
  induction tree with
  | nil => intro d c log _ _; simp [render_walk, Tree.size, Tree.cells]
  | node l a r ihl ihr =>
    intro d c log hh hc
    have hh1 := hh (by simp)
    simp only [Tree.height, PRINT_HEIGHT] at hh1
    simp only [Tree.size] at hc
    have hl := ihl (d + 1) c log (fun _ => by simp only [PRINT_HEIGHT]; omega) (by omega)
    rw [render_walk_left_done _ _ _ _ _ _ _ _ hl, line_offset_small _ (by omega)]
    rw [if_neg (by
      simp only [array_height, PRINT_HEIGHT, node_string_len, balance_len, key_len,
        PRINT_KEY_LEN, array_width, PRINT_WIDTH]
      omega)]
    have hov : ¬ (r ≠ Tree.nil ∧ MAX_STACK_SIZE < d + 1 + r.left_depth) := by
      rintro ⟨h1, h2⟩
      have := left_depth_lt_height r h1
      simp only [MAX_STACK_SIZE] at h2
      omega
    rw [if_neg hov, Nat.mod_eq_of_lt (by omega)]
    rw [ihr (d + 1) (c + l.size + 1) _ (fun _ => by simp only [PRINT_HEIGHT]; omega) (by omega)]
    simp only [Tree.cells, Tree.size, List.append_assoc, List.singleton_append,
      walk_result.done.injEq, and_true]
    omega

theorem render_walk_overflow_index (tree : Tree) : ∀ (d c : Nat)
    (log : List (Nat × Nat × Nat)) (i : Nat) (log1 : List (Nat × Nat × Nat)),
    render_walk tree d c log = walk_result.overflow i log1 → i = MAX_STACK_SIZE := by
  induction tree with
  | nil => intro d c log i log1 h; simp [render_walk] at h
  | node l a r ihl ihr =>
    intro d c log i log1 h
    cases hw : render_walk l (d + 1) c log with
    | fail log2 => rw [render_walk_left_fail _ _ _ _ _ _ _ hw] at h; simp at h
    | overflow i2 log2 =>
      rw [render_walk_left_overflow _ _ _ _ _ _ _ _ hw] at h
      simp only [walk_result.overflow.injEq] at h
      rw [← h.1]
      exact ihl _ _ _ _ _ hw
    | done c2 log2 =>
      rw [render_walk_left_done _ _ _ _ _ _ _ _ hw] at h
      split_ifs at h with h1 h2
      · simp only [walk_result.overflow.injEq] at h
        exact h.1.symm
      · exact ihr _ _ _ _ _ h

/-- When `render` ends with 0 the tree fits the table, and the other way
round; in every other case it ends with -1 or with the write behind the end of
the node stack. -/
theorem render_outcome (m : Mem) (t : tree_info) (bal : Nat → Nat) (tree : Tree) :
    ((render m t bal tree).outcome = print_outcome.ret 0 ↔
        tree ≠ Tree.nil ∧ tree.height ≤ PRINT_HEIGHT ∧ tree.size ≤ 19) ∧
      ((render m t bal tree).outcome = print_outcome.ret 0 ∨
        (render m t bal tree).outcome = print_outcome.ret (-1) ∨
        (render m t bal tree).outcome = print_outcome.stack_out_of_bounds MAX_STACK_SIZE) := by
  by_cases hn : tree = Tree.nil
  · subst hn
    simp [render]
  · simp only [render, if_neg hn]
    by_cases hov : MAX_STACK_SIZE < tree.left_depth
    · rw [if_pos hov]
      have := left_depth_lt_height tree hn
      simp only [MAX_STACK_SIZE] at hov
      refine ⟨⟨fun h => by simp at h, fun h => ?_⟩, Or.inr (Or.inr rfl)⟩
      have := h.2.1
      simp only [PRINT_HEIGHT] at this
      omega
    · rw [if_neg hov]
      cases hw : render_walk tree 0 0 [] with
      | fail log =>
        refine ⟨⟨fun h => by simp at h, fun h => ?_⟩, Or.inr (Or.inl rfl)⟩
        have := render_walk_total tree 0 0 [] (fun _ => by omega) (by omega)
        rw [hw] at this
        simp at this
      | overflow i log =>
        have hi := render_walk_overflow_index tree 0 0 [] i log hw
        subst hi
        refine ⟨⟨fun h => by simp at h, fun h => ?_⟩, Or.inr (Or.inr rfl)⟩
        have := render_walk_total tree 0 0 [] (fun _ => by omega) (by omega)
        rw [hw] at this
        simp at this
      | done c1 log1 =>
        obtain ⟨h1, h2, -, h4⟩ := render_walk_done tree 0 0 c1 [] log1 (by omega) hw
        refine ⟨⟨fun _ => ⟨hn, ?_, by omega⟩, fun _ => rfl⟩, Or.inl rfl⟩
        have := h4 hn
        omega

/-- C25, as far as the code has it: on every finite tree with distinct nodes
`print_tree` returns 0 if and only if the tree is non-empty, has at most
`PRINT_HEIGHT` levels (every node at depth 7 or less) and at most 19 nodes. In
every other case it returns -1 as long as the tree has at most
`MAX_STACK_SIZE + 1` levels; on deeper trees the call returns -1 or writes
behind the end of the node stack. -/
theorem print_tree_returns_zero_iff (fuel : Nat) (m : Mem) (t : tree_info)
    (ops_get_balance : Nat → Nat) (root : Nat) (tree : Tree)
    (hA : AddrTree m t (tree_root_get_node m t root) tree)
    (hnd : tree.inorder.Nodup) (hf : tree.size ≤ fuel) :
    ∃ r, print_tree fuel m t ops_get_balance root = some r ∧
      (r.outcome = print_outcome.ret 0 ↔
        tree ≠ Tree.nil ∧ tree.height ≤ PRINT_HEIGHT ∧ tree.size ≤ 19) ∧
      (r.outcome = print_outcome.ret 0 ∨ r.outcome = print_outcome.ret (-1) ∨
        r.outcome = print_outcome.stack_out_of_bounds MAX_STACK_SIZE) ∧
      (tree.height ≤ MAX_STACK_SIZE + 1 →
        r.outcome = print_outcome.ret 0 ∨ r.outcome = print_outcome.ret (-1)) := by
  refine ⟨_, print_tree_eq fuel m t ops_get_balance root tree hA hnd hf,
    (render_outcome m t ops_get_balance tree).1, (render_outcome m t ops_get_balance tree).2, ?_⟩
  intro hs
  by_cases hd : PRINT_HEIGHT < tree.height
  · obtain ⟨log, hlog⟩ := print_tree_too_deep fuel m t ops_get_balance root tree hA hnd hf hd hs
    rw [print_tree_eq fuel m t ops_get_balance root tree hA hnd hf] at hlog
    simp only [Option.some.injEq] at hlog
    rw [hlog]
    exact Or.inr rfl
  · rcases (render_outcome m t ops_get_balance tree).2 with h | h | h
    · exact Or.inl h
    · exact Or.inr h
    · exfalso
      revert h
      simp only [render]
      by_cases hn : tree = Tree.nil
      · rw [if_pos hn]; simp
      · have := left_depth_lt_height tree hn
        rw [if_neg hn, if_neg (by simp only [MAX_STACK_SIZE, PRINT_HEIGHT] at hd ⊢; omega)]
        cases hw : render_walk tree 0 0 [] with
        | fail log => simp
        | overflow i log =>
          exact absurd hw (render_walk_no_overflow tree 0 0 [] (by omega) i log)
        | done c1 log1 => simp

/-- Witness for C25: the left-leaning comb in region 0 of `deep_mem`, with
1024 levels, on which the call ends with the write to `stack[64]`. -/
theorem print_tree_returns_zero_iff_witness :
    print_tree 2047 deep_mem info_mirror (fun _ => 0) 8 =
        some ⟨print_outcome.stack_out_of_bounds MAX_STACK_SIZE, none, []⟩ ∧
    ∃ r, print_tree 2047 deep_mem info_mirror (fun _ => 0) 8 = some r ∧
      (r.outcome = print_outcome.ret 0 ↔
        deep_left_tree ≠ Tree.nil ∧ deep_left_tree.height ≤ PRINT_HEIGHT ∧
          deep_left_tree.size ≤ 19) ∧
      (r.outcome = print_outcome.ret 0 ∨ r.outcome = print_outcome.ret (-1) ∨
        r.outcome = print_outcome.stack_out_of_bounds MAX_STACK_SIZE) ∧
      (deep_left_tree.height ≤ MAX_STACK_SIZE + 1 →
        r.outcome = print_outcome.ret 0 ∨ r.outcome = print_outcome.ret (-1)) :=
  ⟨print_tree_long_spine 2047 deep_mem info_mirror (fun _ => 0) 8 deep_left_tree deep_left_root
      (by rw [deep_left_tree, left_comb_left_depth]; decide)
      (by rw [deep_left_tree, left_comb_left_depth]; decide),
    print_tree_returns_zero_iff 2047 deep_mem info_mirror (fun _ => 0) 8 deep_left_tree
      deep_left_root (left_comb_nodup 1023 0) (by rw [deep_left_tree, left_comb_size])⟩

theorem digitChar_printable (n : Nat) : printable (Nat.digitChar n) := by
  by_cases h : n < 16
  · interval_cases n <;> decide
  · unfold Nat.digitChar
    repeat (rw [if_neg (by omega)])
    decide

theorem toDigitsCore_printable : ∀ (fuel n : Nat) (ds : List Char),
    (∀ c ∈ ds, printable c) → ∀ c ∈ Nat.toDigitsCore 10 fuel n ds, printable c := by
  intro fuel
  induction fuel with
  | zero => intro n ds h c hc; exact h c hc
  | succ fuel ih =>
    intro n ds h c hc
    simp only [Nat.toDigitsCore] at hc
    have hd : ∀ x ∈ Nat.digitChar (n % 10) :: ds, printable x := by
      intro x hx
      rcases List.mem_cons.1 hx with h1 | h1
      · rw [h1]; exact digitChar_printable _
      · exact h x h1
    split_ifs at hc
    · exact hd c hc
    · exact ih _ _ hd c hc

theorem format_long_printable (width v : Nat) :
    width ≤ (format_long width v).length ∧ ∀ c ∈ format_long width v, printable c := by
  simp only [format_long]
  constructor
  · simp only [List.length_append, List.length_replicate]
    omega
  · intro c hc
    simp only [List.mem_append, List.mem_replicate] at hc
    rcases hc with (h | h) | h
    · split_ifs at h
      · rw [List.mem_singleton] at h
        rw [h]; exact ⟨by decide, by decide⟩
      · simp at h
    · rw [h.2]; exact ⟨by decide, by decide⟩
    · exact toDigitsCore_printable _ _ [] (by simp) c h

theorem get_balance_printable (bal : Nat → Nat) (node : Nat) :
    ∀ c ∈ get_balance bal node, printable c := by
  simp only [get_balance]
  split_ifs <;> decide

/-- The node string has four characters, none of which ends the string or
breaks the line. -/
theorem node_string_printable (key : Nat) (bal : Nat → Nat) (node : Nat) (i : Nat)
    (hi : i < node_string_len) :
    printable ((node_string key (get_balance bal node)).getD i nul) := by
  have h1 := format_long_printable key_len key
  have h2 := get_balance_printable bal node
  have h3 := get_balance_length bal node
  have hfs : format_string balance_len (get_balance bal node) = get_balance bal node := by
    simp [format_string, balance_len, h3]
  have hmem : ∀ c ∈ node_string key (get_balance bal node), printable c := by
    intro c hc
    simp only [node_string, hfs] at hc
    rcases List.mem_append.1 (List.mem_of_mem_take hc) with h | h
    · exact h1.2 c h
    · exact h2 c h
  have hlen : (node_string key (get_balance bal node)).length = node_string_len := by
    simp only [node_string, hfs, List.length_take, List.length_append, h3]
    have := h1.1
    simp only [node_string_len, balance_len, key_len] at this ⊢
    omega
  rw [List.getD_eq_getElem _ _ (by omega)]
  exact hmem _ (List.getElem_mem _)

/-- A word of the table after a cell was written is the word before, or a
character of the cell. -/
theorem write_node_string_apply (array : Nat → Char) (row lo : Nat) (str : List Char)
    (idx : Nat) :
    write_node_string array row lo str idx = array idx ∨
      ∃ i, i < node_string_len ∧ idx = cell_index row lo i ∧
        write_node_string array row lo str idx = str.getD i nul := by
  have hr : List.range node_string_len = [0, 1, 2, 3] := by decide
  simp only [write_node_string, hr, List.foldl, Function.update_apply]
  have h4 : node_string_len = 4 := by decide
  by_cases h3 : idx = cell_index row lo 3
  · exact Or.inr ⟨3, by omega, h3, by rw [if_pos h3]⟩
  · rw [if_neg h3]
    by_cases h2 : idx = cell_index row lo 2
    · exact Or.inr ⟨2, by omega, h2, by rw [if_pos h2]⟩
    · rw [if_neg h2]
      by_cases h1 : idx = cell_index row lo 1
      · exact Or.inr ⟨1, by omega, h1, by rw [if_pos h1]⟩
      · rw [if_neg h1]
        by_cases h0 : idx = cell_index row lo 0
        · exact Or.inr ⟨0, by omega, h0, by rw [if_pos h0]⟩
        · rw [if_neg h0]
          exact Or.inl rfl

/-- A word of the painted table is the word before, or a printable character
inside one of the cells. -/
theorem paint_apply (m : Mem) (t : tree_info) (bal : Nat → Nat) :
    ∀ (cells : List (Nat × Nat × Nat)) (array : Nat → Char) (idx : Nat),
    paint m t bal cells array idx = array idx ∨
      ∃ e ∈ cells, ∃ i, i < node_string_len ∧ idx = cell_index e.2.1 e.2.2 i ∧
        printable (paint m t bal cells array idx) := by
  intro cells
  induction cells with
  | nil => intro array idx; exact Or.inl rfl
  | cons e cells ih =>
    intro array idx
    have hp : paint m t bal (e :: cells) array =
        paint m t bal cells (write_node_string array e.2.1 e.2.2
          (node_string (tree_node_get_key m t e.1) (get_balance bal e.1))) := rfl
    rw [hp]
    rcases ih (write_node_string array e.2.1 e.2.2
        (node_string (tree_node_get_key m t e.1) (get_balance bal e.1))) idx with h | h
    · rw [h]
      rcases write_node_string_apply array e.2.1 e.2.2
          (node_string (tree_node_get_key m t e.1) (get_balance bal e.1)) idx with h1 | h1
      · exact Or.inl h1
      · obtain ⟨i, hi, hidx, hw⟩ := h1
        refine Or.inr ⟨e, List.mem_cons_self _ _, i, hi, hidx, ?_⟩
        rw [hw]
        exact node_string_printable _ _ _ i hi
    · obtain ⟨e1, he1, i, hi, hidx, hpr⟩ := h
      exact Or.inr ⟨e1, List.mem_cons_of_mem _ he1, i, hi, hidx, hpr⟩

/-- When the loop of `print_tree` ends with 0, the text printed is that of the
table painted with the cells of the record. -/
theorem print_loop_printed (m : Mem) (t : tree_info) (bal : Nat → Nat) : ∀ (fuel : Nat)
    (s : print_state) (r : print_result),
    s.array = paint m t bal s.visited (fun _ => ' ') → print_loop m t bal fuel s = some r →
    r.outcome = print_outcome.ret 0 →
    r.printed = some (format_and_print (paint m t bal r.visited (fun _ => ' '))) := by
  intro fuel
  induction fuel with
  | zero => intro s r _ h; simp [print_loop] at h
  | succ fuel ih =>
    intro s r harr h h0
    rw [print_loop_succ] at h
    have hnew : write_node_string s.array s.current_height (line_offset_of s.current_node)
        (node_string (tree_node_get_key m t s.current) (get_balance bal s.current)) =
        paint m t bal (s.visited ++ [(s.current, s.current_height,
          line_offset_of s.current_node)]) (fun _ => ' ') := by
      rw [paint_append, ← harr]
    split_ifs at h with hck
    · simp only [Option.some.injEq] at h
      subst h
      simp at h0
    · cases hn : next_node m t fuel s.current s.stack s.current_height with
      | none => rw [hn] at h; simp at h
      | some st =>
        rw [hn] at h
        cases st with
        | out_of_bounds index =>
          simp only [Option.some.injEq] at h
          subst h
          simp at h0
        | ok stack height next =>
          simp only at h
          split_ifs at h with hz
          · simp only [Option.some.injEq] at h
            subst h
            simp only
            rw [hnew]
          · exact ih _ r hnew h h0

theorem print_tree_printed (fuel : Nat) (m : Mem) (t : tree_info) (bal : Nat → Nat) (root : Nat)
    (r : print_result) (h : print_tree fuel m t bal root = some r)
    (h0 : r.outcome = print_outcome.ret 0) :
    r.printed = some (format_and_print (paint m t bal r.visited (fun _ => ' '))) := by
  simp only [print_tree] at h
  split_ifs at h with hz
  · simp only [Option.some.injEq] at h
    subst h
    simp at h0
  · cases hp : push_left_spine m t fuel (fun _ => 0) 0 (tree_root_get_node m t root) with
    | none => rw [hp] at h; simp at h
    | some st =>
      rw [hp] at h
      cases st with
      | out_of_bounds index =>
        simp only [Option.some.injEq] at h
        subst h
        simp at h0
      | ok stack height first =>
        exact print_loop_printed m t bal fuel _ r rfl h h0

/-- The line breaks that `format and print` puts into the table. -/
theorem line_breaks_apply (array : Nat → Char) (idx : Nat) :
    (List.range array_height).foldl
      (fun arr i => Function.update arr (i * array_width + (array_width - 1)) newline) array idx =
      if idx % 80 = 79 ∧ idx < 640 then newline else array idx := by
  have hr : List.range array_height = [0, 1, 2, 3, 4, 5, 6, 7] := by decide
  have hw : array_width = 80 := rfl
  simp only [hr, hw, List.foldl, Function.update_apply]
  by_cases h : idx % 80 = 79 ∧ idx < 640
  · rw [if_pos h]
    have : idx = 79 ∨ idx = 159 ∨ idx = 239 ∨ idx = 319 ∨ idx = 399 ∨ idx = 479 ∨ idx = 559 ∨
        idx = 639 := by omega
    rcases this with h1 | h1 | h1 | h1 | h1 | h1 | h1 | h1 <;> subst h1 <;> simp
  · rw [if_neg h]
    repeat (rw [if_neg (by omega)])

/-- The text of a table without `'\0'` outside the last column: 640
characters, a line break at the end of each of the eight rows and the
characters of the table everywhere else. -/
theorem format_and_print_apply (array : Nat → Char)
    (h : ∀ idx, idx < 640 → idx % 80 ≠ 79 → array idx ≠ nul) :
    (format_and_print array).length = 640 ∧
      ∀ j, j < 640 → (format_and_print array)[j]? =
        some (if j % 80 = 79 then newline else array j) := by
  have hs : array_size = 640 := rfl
  have hs1 : array_size - 1 = 639 := rfl
  have hrange : List.range 640 = List.range 639 ++ [639] := List.range_succ 639
  have hA1 := line_breaks_apply array
  have hbody : format_and_print array =
      (List.range 639).map (fun j => if j % 80 = 79 then newline else array j) ++ [newline] := by
    simp only [format_and_print, hs, hs1]
    generalize (List.range array_height).foldl
      (fun arr i => Function.update arr (i * array_width + (array_width - 1)) newline) array =
      array1 at hA1 ⊢
    have hmap : List.map (Function.update array1 639 nul) (List.range 639) =
        List.map (fun j => if j % 80 = 79 then newline else array j) (List.range 639) := by
      apply List.map_congr_left
      intro j hj
      have hj1 : j < 639 := List.mem_range.1 hj
      rw [Function.update_noteq (by omega), hA1]
      by_cases h79 : j % 80 = 79
      · rw [if_pos ⟨h79, by omega⟩, if_pos h79]
      · rw [if_neg (fun hh => h79 hh.1), if_neg h79]
    have hn : List.takeWhile (fun c => decide (c ≠ nul)) [nul] = [] := by decide
    rw [hrange, List.map_append, hmap, List.map_cons, List.map_nil, Function.update_same,
      List.takeWhile_append_of_pos, hn, List.append_nil]
    intro c hc
    obtain ⟨j, hj, rfl⟩ := List.mem_map.1 hc
    have hj1 : j < 639 := List.mem_range.1 hj
    by_cases h79 : j % 80 = 79
    · simp only [if_pos h79]; decide
    · simp only [if_neg h79]
      simpa using h j (by omega) h79
  rw [hbody]
  constructor
  · simp
  · intro j hj
    by_cases hj1 : j < 639
    · rw [List.getElem?_append_left (by simpa using hj1), List.getElem?_map,
        List.getElem?_range hj1]
      rfl
    · have hj2 : j = 639 := by omega
      subst hj2
      rw [List.getElem?_append_right (by simp)]
      simp

/-- C24: whenever `print_tree` returns 0, in whatever memory, the text it
prints has `PRINT_HEIGHT * PRINT_WIDTH` characters: in each of the
`PRINT_HEIGHT` rows a line break in the last column, and in each of the
`PRINT_WIDTH - 1` columns before it a character that is neither a line break
nor the end of the string, and that is a space unless the position lies in one
of the cells written. -/
theorem print_tree_text (fuel : Nat) (m : Mem) (t : tree_info) (ops_get_balance : Nat → Nat)
    (root : Nat) (r : print_result)
    (h : print_tree fuel m t ops_get_balance root = some r)
    (h0 : r.outcome = print_outcome.ret 0) :
    ∃ text, r.printed = some text ∧ text.length = PRINT_HEIGHT * PRINT_WIDTH ∧
      ∀ row, row < PRINT_HEIGHT →
        text[row * PRINT_WIDTH + (PRINT_WIDTH - 1)]? = some newline ∧
        ∀ col, col < PRINT_WIDTH - 1 →
          ∃ c, text[row * PRINT_WIDTH + col]? = some c ∧ c ≠ newline ∧ c ≠ nul ∧
            ((∀ e ∈ r.visited,
                ¬ (e.2.1 = row ∧ e.2.2 ≤ col ∧ col < e.2.2 + node_string_len)) →
              c = ' ') := by
  have hcells := print_tree_cells fuel m t ops_get_balance root r h
  have hpaint : ∀ idx, paint m t ops_get_balance r.visited (fun _ => ' ') idx = ' ' ∨
      ∃ e ∈ r.visited, ∃ i, i < node_string_len ∧ idx = cell_index e.2.1 e.2.2 i ∧
        printable (paint m t ops_get_balance r.visited (fun _ => ' ') idx) :=
    fun idx => paint_apply m t ops_get_balance r.visited (fun _ => ' ') idx
  have hpr : ∀ idx, printable (paint m t ops_get_balance r.visited (fun _ => ' ') idx) := by
    intro idx
    rcases hpaint idx with h1 | ⟨_, _, _, _, _, h1⟩
    · rw [h1]; decide
    · exact h1
  obtain ⟨hlen, hget⟩ := format_and_print_apply
    (paint m t ops_get_balance r.visited (fun _ => ' ')) (fun idx _ _ => (hpr idx).1)
  refine ⟨_, print_tree_printed fuel m t ops_get_balance root r h h0, hlen, ?_⟩
  intro row hrow
  simp only [PRINT_HEIGHT, PRINT_WIDTH] at hrow ⊢
  constructor
  · rw [hget _ (by omega), if_pos (by omega)]
  · intro col hcol
    rw [hget _ (by omega), if_neg (by omega)]
    refine ⟨_, rfl, (hpr _).2, (hpr _).1, ?_⟩
    intro hout
    rcases hpaint (row * 80 + col) with h1 | ⟨e, he, i, hi, hidx, -⟩
    · exact h1
    · exfalso
      obtain ⟨q1, -, q3, q4⟩ := hcells e he i hi
      rw [q1] at hidx
      simp only [array_width, PRINT_WIDTH, PRINT_HEIGHT] at hidx q3 q4
      have hr : e.2.1 = row := by omega
      exact hout e he ⟨hr, by omega, by omega⟩

/-- Witness for C24: the call on the sample tree at root address 8, which
returns 0. -/
theorem print_tree_text_witness :
    (print_tree 3 sample_mem info_front (fun _ => 0) 8).map print_result.outcome =
      some (print_outcome.ret 0) ∧
    ∃ text, (render sample_mem info_front (fun _ => 0) sample_addr_tree).printed = some text ∧
      text.length = PRINT_HEIGHT * PRINT_WIDTH ∧
      ∀ row, row < PRINT_HEIGHT →
        text[row * PRINT_WIDTH + (PRINT_WIDTH - 1)]? = some newline ∧
        ∀ col, col < PRINT_WIDTH - 1 →
          ∃ c, text[row * PRINT_WIDTH + col]? = some c ∧ c ≠ newline ∧ c ≠ nul ∧
            ((∀ e ∈ (render sample_mem info_front (fun _ => 0) sample_addr_tree).visited,
                ¬ (e.2.1 = row ∧ e.2.2 ≤ col ∧ col < e.2.2 + node_string_len)) →
              c = ' ') :=
  ⟨by decide,
    print_tree_text 3 sample_mem info_front (fun _ => 0) 8 _
      (print_tree_eq 3 sample_mem info_front (fun _ => 0) 8 sample_addr_tree (by decide)
        (by decide) (by decide)) (by decide)⟩

theorem strncmp_self (s : List Char) : ∀ n, strncmp s s n = 0 := by
  induction s with
  | nil => intro n; cases n <;> rfl
  | cons c s ih =>
    intro n
    cases n with
    | zero => rfl
    | succ n => simp [strncmp, ih]

/-- A comparison that covers the terminator of the second string finds no
difference only in the string itself. -/
theorem strncmp_eq_zero (s : List Char) : ∀ (e : List Char) (n : Nat), e.length < n →
    (strncmp s e n = 0 ↔ s = e) := by
  induction s with
  | nil =>
    intro e n hn
    cases n with
    | zero => omega
    | succ n => cases e <;> simp [strncmp]
  | cons c s ih =>
    intro e n hn
    cases n with
    | zero => omega
    | succ n =>
      cases e with
      | nil => simp [strncmp]
      | cons c2 e =>
        simp only [strncmp, List.length_cons] at hn ⊢
        by_cases hc : c = c2
        · rw [if_pos hc, ih e n (by omega)]
          simp [hc]
        · rw [if_neg hc]
          constructor
          · intro h
            split_ifs at h
            simp at h
          · intro h
            exact absurd (List.cons.inj h).1 hc

theorem get_symbols_from_spec (dl : dl_env) (library : Nat) : ∀ (names : List String)
    (ops : List Nat),
    (get_symbols_from dl library names ops).2 =
      if ∀ symbol ∈ names, dl.dlsym library symbol ≠ 0 then none else some (-1) := by
  intro names
  induction names with
  | nil => intro ops; simp [get_symbols_from]
  | cons symbol rest ih =>
    intro ops
    simp only [get_symbols_from]
    by_cases h0 : dl.dlsym library symbol = 0
    · rw [if_pos h0, if_neg]
      intro h
      exact h symbol (List.mem_cons_self _ _) h0
    · rw [if_neg h0, ih]
      by_cases hr : ∀ s ∈ rest, dl.dlsym library s ≠ 0
      · rw [if_pos hr, if_pos]
        intro s hs
        rcases List.mem_cons.1 hs with h | h
        · rw [h]; exact h0
        · exact hr s h
      · rw [if_neg hr, if_neg]
        intro h
        exact hr (fun s hs => h s (List.mem_cons_of_mem _ hs))

/-- What `tree_library_load` does, case by case. -/
theorem tree_library_load_spec (dl : dl_env) (filename : String)
    (tree_list : List tree_library) :
    tree_library_load dl filename tree_list =
      if dl.dlopen filename ≠ 0 ∧ dl.dlsym (dl.dlopen filename) magic_string_name ≠ 0 ∧
          dl.string_at (dl.dlsym (dl.dlopen filename) magic_string_name) =
            EXPECTED_MAGIC_STRING ∧
          ∀ symbol ∈ symbol_names, dl.dlsym (dl.dlopen filename) symbol ≠ 0 then
        load_result.no_return_value
      else load_result.returned none tree_list := by
  simp only [tree_library_load]
  by_cases h1 : dl.dlopen filename = 0
  · rw [if_pos h1, if_neg (fun h => h.1 h1)]
  rw [if_neg h1]
  by_cases h2 : dl.dlsym (dl.dlopen filename) magic_string_name = 0
  · rw [if_pos h2, if_neg (fun h => h.2.1 h2)]
  rw [if_neg h2]
  have hcmp := strncmp_eq_zero (dl.string_at (dl.dlsym (dl.dlopen filename) magic_string_name))
    EXPECTED_MAGIC_STRING sizeof_EXPECTED_MAGIC_STRING (Nat.lt_succ_self _)
  by_cases h3 : dl.string_at (dl.dlsym (dl.dlopen filename) magic_string_name) =
      EXPECTED_MAGIC_STRING
  · rw [if_neg (fun h => h (hcmp.2 h3))]
    have hg := get_symbols_from_spec dl (dl.dlopen filename) symbol_names []
    by_cases h4 : ∀ symbol ∈ symbol_names, dl.dlsym (dl.dlopen filename) symbol ≠ 0
    · rw [if_pos h4] at hg
      rw [if_pos ⟨h1, h2, h3, h4⟩]
      have : get_symbols dl (dl.dlopen filename) =
          ((get_symbols dl (dl.dlopen filename)).1, none) := by
        rw [← hg]; rfl
      rw [this]
    · rw [if_neg h4] at hg
      rw [if_neg (fun h => h4 h.2.2.2)]
      have : get_symbols dl (dl.dlopen filename) =
          ((get_symbols dl (dl.dlopen filename)).1, some (-1)) := by
        rw [← hg]; rfl
      rw [this]
      simp
  · rw [if_pos (fun h => h3 (hcmp.1 h)), if_neg (fun h => h3 h.2.2.1)]

/-- C22, as the code has it: `tree_library_load` returns `NULL` and leaves the
list as it is whenever the file cannot be opened, the marker symbol is absent,
the marker differs from `binary_tree_module` (the comparison covers the
terminating `'\0'`, so a longer string with that prefix differs) or one of the
eleven symbols does not resolve. When the marker is right and all eleven
symbols resolve, `get_symbols` reaches the end of its body without a `return`
statement and `tree_library_load` uses the value of the call: the module
`pasquali_avl` is such a case. -/
theorem tree_library_load_cases (dl : dl_env) (filename : String)
    (tree_list : List tree_library) :
    tree_library_load dl filename tree_list =
        (if dl.dlopen filename ≠ 0 ∧ dl.dlsym (dl.dlopen filename) magic_string_name ≠ 0 ∧
            dl.string_at (dl.dlsym (dl.dlopen filename) magic_string_name) =
              EXPECTED_MAGIC_STRING ∧
            ∀ symbol ∈ symbol_names, dl.dlsym (dl.dlopen filename) symbol ≠ 0 then
          load_result.no_return_value
        else load_result.returned none tree_list) ∧
      tree_library_load (dl_of_files interface_files) "pasquali_avl.so" tree_list =
        load_result.no_return_value ∧
      strncmp ("binary_tree_module_v2".toList) EXPECTED_MAGIC_STRING
        sizeof_EXPECTED_MAGIC_STRING ≠ 0 := by
  refine ⟨tree_library_load_spec dl filename tree_list, ?_, by decide⟩
  rw [tree_library_load_spec, if_pos (by decide)]

/-- C29, as the code has it: `pasquali_avl.c` defines the marker and the eleven
names that `get_symbols` looks up; `ebiggers_avl.c` defines the marker and ten
of them, and `get_element_size` where `get_symbols` looks up `get_node_size`:
the second lookup gives `NULL`, `get_symbols` returns -1 and
`tree_library_load` returns `NULL` for the module. -/
theorem ebiggers_avl_not_loaded (tree_list : List tree_library) :
    (∀ symbol ∈ magic_string_name :: symbol_names, symbol ∈ pasquali_avl.exports) ∧
      (∀ symbol ∈ magic_string_name :: symbol_names,
        (symbol ∈ ebiggers_avl.exports ↔ symbol ≠ "get_node_size")) ∧
      (dl_of_files interface_files).dlsym 2 "get_node_size" = 0 ∧
      (get_symbols (dl_of_files interface_files) 2).2 = some (-1) ∧
      tree_library_load (dl_of_files interface_files) "ebiggers_avl.so" tree_list =
        load_result.returned none tree_list := by
  refine ⟨by decide, by decide, by decide, by decide, ?_⟩
  rw [tree_library_load_spec, if_neg (by decide)]

theorem loop_keeps_keys_append (n : Nat) (m : tree_memory) (i : tree_info)
    (step : Mem × List op_call → Nat → Mem × List op_call) :
    ∀ (l1 l2 : List Nat) (st : Mem × List op_call),
    loop_keeps_keys n m i step (l1 ++ l2) st ↔
      loop_keeps_keys n m i step l1 st ∧ loop_keeps_keys n m i step l2 (l1.foldl step st) := by
  intro l1
  induction l1 with
  | nil => intro l2 st; simp [loop_keeps_keys]
  | cons idx rest ih =>
    intro l2 st
    show (keys_kept n m i st.1 (step st idx).1 ∧
        loop_keeps_keys n m i step (rest ++ l2) (step st idx)) ↔
      ((keys_kept n m i st.1 (step st idx).1 ∧ loop_keeps_keys n m i step rest (step st idx)) ∧
        loop_keeps_keys n m i step l2 (rest.foldl step (step st idx)))
    rw [ih]
    exact and_assoc.symm

theorem loop_keeps_keys_foldl (n : Nat) (m : tree_memory) (i : tree_info)
    (step : Mem × List op_call → Nat → Mem × List op_call) :
    ∀ (l : List Nat) (st : Mem × List op_call), loop_keeps_keys n m i step l st →
      keys_kept n m i st.1 (l.foldl step st).1 := by
  intro l
  induction l with
  | nil => intro st _ k _; rfl
  | cons idx rest ih =>
    intro st h k hk
    simp only [loop_keeps_keys] at h
    rw [List.foldl_cons, ih _ h.2 k hk, h.1 k hk]

/-- The calls of the loop of insertions: the elements in the order of their
indices. -/
theorem tree_insert_calls (ops : tree_operations) (m : tree_memory) (i : tree_info)
    (total : Nat) (h1 : total * i.element_size < 2 ^ 32) (h2 : total ≤ 2 ^ 32) :
    ∀ (n : Nat) (st : Mem × List op_call), n ≤ total →
      ((List.range n).foldl (tree_insert ops m i) st).2 =
        st.2 ++ (List.range n).map
          (fun k => op_call.insert m.root (m.array + k * i.element_size)) := by
  intro n
  induction n with
  | zero => intro st _; simp
  | succ n ih =>
    intro st hn
    have hle : (n + 1) * i.element_size ≤ total * i.element_size :=
      Nat.mul_le_mul_right _ hn
    have hle2 : n * i.element_size ≤ (n + 1) * i.element_size :=
      Nat.mul_le_mul_right _ (Nat.le_succ n)
    rw [List.range_succ, List.foldl_append, List.map_append]
    simp only [List.foldl, List.map, tree_insert]
    rw [ih st (by omega), Nat.mod_eq_of_lt (show n < 2 ^ 32 by omega),
      Nat.mod_eq_of_lt (by omega)]
    simp

/-- The calls of the loop of deletions, when they leave the keys alone: the
keys that the elements have when the loop begins, in the order of the
indices. -/
theorem tree_delete_calls (ops : tree_operations) (m : tree_memory) (i : tree_info)
    (total : Nat) (h1 : total * i.element_size < 2 ^ 32) (h2 : total ≤ 2 ^ 32) :
    ∀ (n : Nat) (st : Mem × List op_call), n ≤ total →
      loop_keeps_keys total m i (tree_delete ops m i) (List.range n) st →
      ((List.range n).foldl (tree_delete ops m i) st).2 =
        st.2 ++ (List.range n).map
          (fun k => op_call.delete m.root (element_key st.1 m i k)) := by
  intro n
  induction n with
  | zero => intro st _ _; simp
  | succ n ih =>
    intro st hn hkeep
    have hle : (n + 1) * i.element_size ≤ total * i.element_size :=
      Nat.mul_le_mul_right _ hn
    have hle2 : n * i.element_size ≤ (n + 1) * i.element_size :=
      Nat.mul_le_mul_right _ (Nat.le_succ n)
    rw [List.range_succ] at hkeep
    obtain ⟨hk1, -⟩ := (loop_keeps_keys_append total m i _ _ _ st).1 hkeep
    have hkept := loop_keeps_keys_foldl total m i _ _ st hk1
    rw [List.range_succ, List.foldl_append, List.map_append]
    simp only [List.foldl, List.map, tree_delete]
    rw [ih st (by omega) hk1, Nat.mod_eq_of_lt (show n < 2 ^ 32 by omega),
      Nat.mod_eq_of_lt (by omega)]
    have hread : read64 ((List.range n).foldl (tree_delete ops m i) st).1
        (m.array + n * i.element_size + i.key_offset_in_element) = element_key st.1 m i n := by
      rw [← hkept n (by omega)]
      rfl
    rw [hread]
    simp

/-- One phase on elements whose keys are `key k`: the calls are those of
`phase_calls`, and the keys are left as they are. -/
theorem test_phase_calls (n : Nat) (ops : tree_operations) (m : tree_memory) (i : tree_info)
    (h1 : n * i.element_size < 2 ^ 32) (h2 : n ≤ 2 ^ 32)
    (key : Nat → Nat) (st : Mem × List op_call)
    (hkeep : phase_keeps_keys n ops m i st)
    (hkey : ∀ k, k < n → element_key st.1 m i k = key k) :
    (test_phase n ops m i st).2 = st.2 ++ phase_calls n m.root m.array i.element_size key ∧
      keys_kept n m i st.1 (test_phase n ops m i st).1 := by
  have hi := tree_insert_calls ops m i n h1 h2 n st (Nat.le_refl _)
  have hik := loop_keeps_keys_foldl n m i _ _ st hkeep.1
  have hd := tree_delete_calls ops m i n h1 h2 n _ (Nat.le_refl _) hkeep.2
  have hdk := loop_keeps_keys_foldl n m i _ _ _ hkeep.2
  constructor
  · simp only [test_phase, phase_calls]
    rw [hd, hi, List.append_assoc]
    congr 2
    apply List.map_congr_left
    intro k hk
    have hkn : k < n := List.mem_range.1 hk
    rw [hik k hkn, hkey k hkn]
  · intro k hk
    simp only [test_phase]
    rw [hdk k hk, hik k hk]

/-- The calls a module receives in one call of `do_test`. -/
theorem do_test_sized_calls (n : Nat) (ops : tree_operations) (random_key_array : Nat → Nat)
    (addr : Nat) (clock : Nat → timespec) (mem : Mem)
    (h8 : 8 ≤ (tree_info_setup ops).element_size)
    (hsize : (tree_info_setup ops).root_size + (tree_info_setup ops).element_size * n < 2 ^ 32)
    (hkeep : test_keeps_keys n ops random_key_array addr mem)
    (hkeys : ∀ k, k < n → random_key_array k < 2 ^ 64) :
    (do_test_sized n ops random_key_array addr clock mem).calls =
      test_calls n ops addr random_key_array := by
  have h1 : n * (tree_info_setup ops).element_size < 2 ^ 32 := by
    rw [Nat.mul_comm]; omega
  have h2 : n ≤ 2 ^ 32 := by
    have : n * 8 ≤ n * (tree_info_setup ops).element_size := Nat.mul_le_mul_left _ h8
    omega
  have hp1 := test_phase_calls n ops (tree_memory_allocate addr (tree_info_setup ops))
    (tree_info_setup ops) h1 h2 (fun k => k) (first_phase_start n ops addr mem) hkeep.1
    (fun k hk => by
      simp only [first_phase_start]
      rw [tree_fill_in_order_spec _ _ h8, if_pos hk]
      exact Nat.mod_eq_of_lt (by omega))
  have hp2 := test_phase_calls n ops (tree_memory_allocate addr (tree_info_setup ops))
    (tree_info_setup ops) h1 h2 random_key_array
    (second_phase_start n ops random_key_array addr mem) hkeep.2
    (fun k hk => by
      simp only [second_phase_start]
      rw [tree_assign_keys_spec _ _ _ h8, if_pos hk]
      exact Nat.mod_eq_of_lt (hkeys k hk))
  have hcalls : (do_test_sized n ops random_key_array addr clock mem).calls =
      (test_phase n ops (tree_memory_allocate addr (tree_info_setup ops)) (tree_info_setup ops)
        (second_phase_start n ops random_key_array addr mem)).2 := rfl
  rw [hcalls, hp2.1]
  have hs2 : (second_phase_start n ops random_key_array addr mem).2 =
      (test_phase n ops (tree_memory_allocate addr (tree_info_setup ops)) (tree_info_setup ops)
        (first_phase_start n ops addr mem)).2 := rfl
  rw [hs2, hp1.1]
  simp [test_calls, first_phase_start, tree_memory_allocate]

theorem main_loop_calls (n : Nat) (random_key_array : Nat → Nat)
    (hkeys : ∀ k, k < n → random_key_array k < 2 ^ 64) :
    ∀ (modules : List (tree_operations × Nat)) (clock : Nat → timespec) (mem : Mem),
    run_keeps_keys n random_key_array modules clock mem →
    (main_loop n random_key_array modules clock mem).map test_run.calls =
      modules.map (fun md => test_calls n md.1 md.2 random_key_array) := by
  intro modules
  induction modules with
  | nil => intro clock mem _; rfl
  | cons md rest ih =>
    intro clock mem h
    obtain ⟨ops, addr⟩ := md
    simp only [run_keeps_keys] at h
    obtain ⟨⟨g1, g2, g3⟩, g4⟩ := h
    simp only [main_loop, List.map_cons]
    rw [do_test_sized_calls n ops random_key_array addr clock mem g1 g2 g3 hkeys, ih _ _ g4]

/-- C23: a module whose operations, as a test calls them, leave the key fields
of the elements alone (elements at least as large as a key, an allocation size
that fits `unsigned int`) receives in a call of `do_test`, after `init`, two
phases of calls: `insert(root, element i)` for `i = 0 .. n - 1` in this order,
then `delete(root, key of element i)` for `i = 0 .. n - 1` in this order; the
key of element `i` is `i` in the first phase and `random_key_array[i]` in the
second, and the loop of `main` passes the same `random_key_array` to every
module. -/
theorem do_test_calls (n : Nat) (random_key_array : Nat → Nat)
    (modules : List (tree_operations × Nat)) (clock : Nat → timespec) (mem : Mem)
    (hkeys : ∀ k, k < n → random_key_array k < 2 ^ 64)
    (hrun : run_keeps_keys n random_key_array modules clock mem) :
    (main_loop n random_key_array modules clock mem).map test_run.calls =
        modules.map (fun md => test_calls n md.1 md.2 random_key_array) ∧
      ∀ (ops : tree_operations) (addr : Nat) (clock1 : Nat → timespec) (mem1 : Mem),
        8 ≤ (tree_info_setup ops).element_size →
        (tree_info_setup ops).root_size + (tree_info_setup ops).element_size * n < 2 ^ 32 →
        test_keeps_keys n ops random_key_array addr mem1 →
        (do_test_sized n ops random_key_array addr clock1 mem1).calls =
          op_call.init addr ::
            ((List.range n).map (fun k => op_call.insert addr
                (addr + (tree_info_setup ops).root_size +
                  k * (tree_info_setup ops).element_size)) ++
              (List.range n).map (fun k => op_call.delete addr k) ++
              ((List.range n).map (fun k => op_call.insert addr
                (addr + (tree_info_setup ops).root_size +
                  k * (tree_info_setup ops).element_size)) ++
              (List.range n).map (fun k => op_call.delete addr (random_key_array k)))) ∧
        (n = N_OPS →
          (do_test ops random_key_array addr clock1 mem1).calls =
            test_calls N_OPS ops addr random_key_array) := by
  refine ⟨main_loop_calls n random_key_array hkeys modules clock mem hrun, ?_⟩
  intro ops addr clock1 mem1 g1 g2 g3
  constructor
  · rw [do_test_sized_calls n ops random_key_array addr clock1 mem1 g1 g2 g3 hkeys]
    rfl
  · intro hn
    subst hn
    exact do_test_sized_calls N_OPS ops random_key_array addr clock1 mem1 g1 g2 g3 hkeys

set_option maxRecDepth 1000000 in
/-- Witness for C23: two runs of the sample module, an unbalanced binary search
tree, with blocks at the addresses 1000 and 2000, three elements each, and the
keys 1, 0, 2 in the second phase. -/
theorem do_test_calls_witness :
    run_keeps_keys 3 sample_keys [(sample_ops, 1000), (sample_ops, 2000)] (fun k => ⟨k, 0⟩)
        sample_mem ∧
    (main_loop 3 sample_keys [(sample_ops, 1000), (sample_ops, 2000)]
        (fun k => ⟨k, 0⟩) sample_mem).map test_run.calls =
      [[op_call.init 1000,
          op_call.insert 1000 1008, op_call.insert 1000 1040, op_call.insert 1000 1072,
          op_call.delete 1000 0, op_call.delete 1000 1, op_call.delete 1000 2,
          op_call.insert 1000 1008, op_call.insert 1000 1040, op_call.insert 1000 1072,
          op_call.delete 1000 1, op_call.delete 1000 0, op_call.delete 1000 2],
        [op_call.init 2000,
          op_call.insert 2000 2008, op_call.insert 2000 2040, op_call.insert 2000 2072,
          op_call.delete 2000 0, op_call.delete 2000 1, op_call.delete 2000 2,
          op_call.insert 2000 2008, op_call.insert 2000 2040, op_call.insert 2000 2072,
          op_call.delete 2000 1, op_call.delete 2000 0, op_call.delete 2000 2]] :=
  ⟨by decide,
    (do_test_calls 3 sample_keys [(sample_ops, 1000), (sample_ops, 2000)]
      (fun k => ⟨k, 0⟩) sample_mem
      (fun k _ => by
        have : sample_keys k < 2 ^ 64 := by
          simp only [sample_keys]
          split_ifs <;> omega
        exact this)
      (by decide)).1⟩

set_option maxRecDepth 1000000 in
/-- The sample module builds trees: after the three insertions of the second
phase of its test the root points to element 0 (key 1), whose left child is
element 1 (key 0) and whose right child is element 2 (key 2); after the test
the tree is empty. -/
theorem sample_ops_builds_tree :
    AddrTree
      ((List.range 3).foldl (tree_insert sample_ops
        (tree_memory_allocate 1000 (tree_info_setup sample_ops)) (tree_info_setup sample_ops))
        (second_phase_start 3 sample_ops sample_keys 1000 sample_mem)).1
      (tree_info_setup sample_ops)
      (read64 ((List.range 3).foldl (tree_insert sample_ops
        (tree_memory_allocate 1000 (tree_info_setup sample_ops)) (tree_info_setup sample_ops))
        (second_phase_start 3 sample_ops sample_keys 1000 sample_mem)).1 1000)
      (Tree.node (Tree.node Tree.nil 1040 Tree.nil) 1008 (Tree.node Tree.nil 1072 Tree.nil)) ∧
    read64 (do_test_sized 3 sample_ops sample_keys 1000 (fun k => ⟨k, 0⟩) sample_mem).mem
      1000 = 0 := by
  exact ⟨by decide, by decide⟩

end TreeSuite
